import Mathlib

/-!
Verification of the OpenAPI → Postman conversion engine
(`convert_oas_to_postman.py`).

The engine works on YAML/JSON data, modelled by the inductive type `JSON`
below.  Python mappings become association lists in insertion order (a
Python `dict` never holds a duplicate key; association lists that do have
duplicates simply lie outside the image of real Python values).  Numbers
are modelled as integers (no claim depends on float arithmetic).  Python
exceptions are modelled by `Except Err`; every place where the source can
raise maps to an `.error` value.

Recursive procedures of the source are embedded with an explicit `fuel`
argument that bounds the recursion depth, so that every definition is
structurally recursive (on `fuel` or on a list) and therefore computable
by the kernel.  `fuel` exhaustion is the error `Err.fuel`; for every
terminating run of the source there is a fuel that avoids it, and the
theorems below quantify over or thread the fuel accordingly.

Known modelling simplifications (each noted again at its definition):
Python's cross-type equalities (`True == 1`) inside `set`/`in` are not
modelled (entries are compared structurally); `set` iteration order is
modelled as first-occurrence order (all claims treat the result as a
set); `repr` of strings is modelled without escape sequences.
-/

namespace OasPostman

/-- Errors: each constructor stands for a way the Python source can fail
(`KeyError` raised by `_resolve_ref` is `refNotFound`; `AttributeError`,
`TypeError`, `KeyError`/`IndexError` from indexing, `ValueError` keep
their names), plus `fuel` for exhausting the modelled recursion depth. -/
inductive Err where
  | refNotFound
  | attrError
  | typeError
  | keyError
  | indexError
  | valueError
  | fuel
deriving DecidableEq

/-- A YAML/JSON value as loaded by `yaml.safe_load`: the data model the
whole converter operates on.  Objects are association lists in insertion
order, mirroring Python dict ordering. -/
inductive JSON where
  | null
  | bool (b : Bool)
  | num (n : Int)
  | str (s : String)
  | arr (elems : List JSON)
  | obj (members : List (String × JSON))

instance : Inhabited JSON := ⟨JSON.null⟩

/-- Python truthiness (`bool(x)`) for the modelled values: `None`, `False`,
`0`, `""`, `[]` and `\x7b\x7d` are falsy, everything else truthy. -/
def pyTruthy : JSON → Bool
  | .null => false
  | .bool b => b
  | .num n => n != 0
  | .str s => s ≠ ""
  | .arr xs => !xs.isEmpty
  | .obj ms => !ms.isEmpty

/-- Python `d.get(k)` on a mapping: the first binding of `k`, if any. -/
def objGet : List (String × JSON) → String → Option JSON
  | [], _ => none
  | (k', v) :: rest, k => if k' = k then some v else objGet rest k

/-- Python `d[k] = v`: replace the value at the first binding of `k`,
keeping its position, or append a new binding at the end. -/
def objInsert : List (String × JSON) → String → JSON → List (String × JSON)
  | [], k, v => [(k, v)]
  | (k', v') :: rest, k, v =>
      if k' = k then (k, v) :: rest else (k', v') :: objInsert rest k v

/-- Python `d.update(other)` for two mappings: assign each binding of
`other` into `d` in order. -/
def objUpdate (acc : List (String × JSON)) (new : List (String × JSON)) :
    List (String × JSON) :=
  new.foldl (fun a kv => objInsert a kv.1 kv.2) acc

/-- Python iteration `for x in v`: lists yield elements, strings yield
one-character strings, mappings yield their keys; other values raise
`TypeError`. -/
def pyIter : JSON → Except Err (List JSON)
  | .arr xs => .ok xs
  | .str s => .ok (s.data.map (fun c => .str (String.singleton c)))
  | .obj ms => .ok (ms.map (fun kv => .str kv.1))
  | _ => .error .typeError

/-- Python `v[0]`: head of a list (IndexError when empty), first character
of a string, `KeyError` on a mapping (its keys are strings, never `0`),
`TypeError` otherwise. -/
def pyIndex0 : JSON → Except Err JSON
  | .arr (x :: _) => .ok x
  | .arr [] => .error .indexError
  | .str s =>
      match s.data with
      | c :: _ => .ok (.str (String.singleton c))
      | [] => .error .indexError
  | .obj _ => .error .keyError
  | _ => .error .typeError

/-- Python `a or b` where `a`/`b` come from `d.get(...)` (so `none` is
Python `None`): the left value if truthy, otherwise the right one. -/
def pyOr (a b : Option JSON) : Option JSON :=
  match a with
  | some x => if pyTruthy x then some x else b
  | none => b

/-- Hashability of a value, as required by Python `set(...)`: scalars are
hashable, lists and mappings are not. -/
def pyHashable : JSON → Bool
  | .arr _ => false
  | .obj _ => false
  | _ => true

/-- Structural equality of scalar values; used to model `==` inside
`set(...)` membership, which only ever compares hashable values here.
Python's cross-type equalities (`True == 1`) are not modelled. -/
def scalarBEq : JSON → JSON → Bool
  | .null, .null => true
  | .bool a, .bool b => a == b
  | .num a, .num b => a == b
  | .str a, .str b => a == b
  | _, _ => false

/-- First-occurrence deduplication (the `seen` accumulator holds values
already emitted). -/
def dedupAux : List JSON → List JSON → List JSON
  | [], _ => []
  | x :: rest, seen =>
      if seen.any (scalarBEq x) then dedupAux rest seen
      else x :: dedupAux rest (x :: seen)

/-- Python `list(set(xs))`: `TypeError` if any entry is unhashable,
otherwise the duplicate-free entries.  Python's set iteration order is
arbitrary; it is modelled as first-occurrence order, and every theorem
below relies only on the set of entries. -/
def pySetList (xs : List JSON) : Except Err (List JSON) :=
  if xs.all pyHashable then .ok (dedupAux xs []) else .error .typeError

/-- Python `d.update(v)` where `v` is an arbitrary value: a mapping is
assigned key by key; a list must consist of two-element pairs (pairs whose
key is not a string cannot occur in our string-keyed mappings and are
modelled as `TypeError`); an empty string is a no-op, any other scalar or
string raises. -/
def pyPairsUpdate : List (String × JSON) → List JSON →
    Except Err (List (String × JSON))
  | acc, [] => .ok acc
  | acc, x :: rest =>
      match x with
      | .arr [(.str k), v] => pyPairsUpdate (objInsert acc k v) rest
      | .arr [_, _] => .error .typeError
      | .arr _ => .error .valueError
      | _ => .error .typeError

def pyDictUpdate (acc : List (String × JSON)) : JSON → Except Err (List (String × JSON))
  | .obj kvs => .ok (objUpdate acc kvs)
  | .arr xs => pyPairsUpdate acc xs
  | .str s => if s = "" then .ok acc else .error .valueError
  | _ => .error .typeError

end OasPostman

namespace OasPostman

/-! ## Reference resolution (`_resolve_ref`, `_resolve_all_refs`) -/

/-- Removal of every occurrence of `#/`, scanning left to right, as
`ref_path.replace('#/', '')` does. -/
def dropHashSlash : List Char → List Char
  | '#' :: '/' :: rest => dropHashSlash rest
  | c :: rest => c :: dropHashSlash rest
  | [] => []

/-- Splitting on a separator character with `acc` the (reversed) current
segment, as Python `str.split(sep)` does (an empty input yields `[""]`). -/
def splitOnCharAux (sep : Char) : List Char → List Char → List String
  | [], acc => [String.mk acc.reverse]
  | c :: rest, acc =>
      if c = sep then String.mk acc.reverse :: splitOnCharAux sep rest []
      else splitOnCharAux sep rest (c :: acc)

/-- Python `s.split(sep)` for a one-character separator. -/
def splitOnChar (sep : Char) (s : String) : List String :=
  splitOnCharAux sep s.data []

/-- The walk of `_resolve_ref` after the pointer has been split: for each
segment, `obj = obj.get(part)` (an `AttributeError` on a non-mapping);
`if obj is None: raise KeyError(...)` fires both when the segment is
absent and when it maps to `null`, so a broken step is `refNotFound`. -/
def resolveRefParts (doc : JSON) : List String → Except Err JSON
  | [] => .ok doc
  | p :: rest =>
      match doc with
      | .obj kvs =>
          match objGet kvs p with
          | none => .error .refNotFound
          | some .null => .error .refNotFound
          | some v => resolveRefParts v rest
      | _ => .error .attrError

/-- `_resolve_ref(ref_path)`: split `ref_path.replace('#/', '')` on `/`
and walk the document. -/
def resolveRefStr (doc : JSON) (ref : String) : Except Err JSON :=
  resolveRefParts doc (splitOnChar '/' (String.mk (dropHashSlash ref.data)))

/-- Inversion of `Except` bind: a bound computation succeeds exactly when
both stages do. -/
theorem bind_ok_iff {α β : Type} {x : Except Err α} {f : α → Except Err β} {b : β} :
    (x >>= f) = .ok b ↔ ∃ a, x = .ok a ∧ f a = .ok b := by
  cases x <;> simp [bind, Except.bind]

/-- Elementwise run of a resolver over the elements of a list, failing as
soon as one element fails (the body of the list comprehension in
`_resolve_all_refs`). -/
def resolveListGo (res : JSON → Except Err JSON) : List JSON → Except Err (List JSON)
  | [] => .ok []
  | e :: rest => do
      let e' ← res e
      let rest' ← resolveListGo res rest
      pure (e' :: rest')

/-- Elementwise run of a resolver over the values of a mapping, keeping
keys (the body of the dict comprehension in `_resolve_all_refs`). -/
def resolveObjGo (res : JSON → Except Err JSON) :
    List (String × JSON) → Except Err (List (String × JSON))
  | [] => .ok []
  | (k, v) :: rest => do
      let v' ← res v
      let rest' ← resolveObjGo res rest
      pure ((k, v') :: rest')

/-- `_resolve_all_refs(obj)`: a mapping holding `$ref` is replaced by the
recursively resolved target (`_resolve_ref` needs a string argument, else
`AttributeError`); any other mapping or list is rebuilt member by member;
scalars pass through. `fuel` bounds the recursion depth. -/
def resolveAllRefs : Nat → JSON → JSON → Except Err JSON
  | 0, _, _ => .error .fuel
  | fuel+1, doc, x =>
      match x with
      | .obj ms =>
          match objGet ms "$ref" with
          | some (.str r) => do
              let target ← resolveRefStr doc r
              resolveAllRefs fuel doc target
          | some _ => .error .attrError
          | none => do
              let ms' ← resolveObjGo (resolveAllRefs fuel doc) ms
              pure (.obj ms')
      | .arr xs => do
          let xs' ← resolveListGo (resolveAllRefs fuel doc) xs
          pure (.arr xs')
      | v => .ok v

/-- Deep `$ref`-freedom to depth `fuel`: no mapping reachable within
`fuel` levels carries a `$ref` key. -/
def refFreeB : Nat → JSON → Bool
  | 0, _ => false
  | fuel+1, x =>
      match x with
      | .obj ms => (objGet ms "$ref").isNone && ms.all (fun kv => refFreeB fuel kv.2)
      | .arr xs => xs.all (fun e => refFreeB fuel e)
      | _ => true

theorem refFreeB_mono {fuel : Nat} {x : JSON} (h : refFreeB fuel x = true) :
    refFreeB (fuel + 1) x = true := by
  induction fuel generalizing x with
  | zero => simp [refFreeB] at h
  | succ n ih =>
    cases x with
    | obj ms =>
      simp only [refFreeB, Bool.and_eq_true, List.all_eq_true] at h ⊢
      exact ⟨h.1, fun kv hkv => ih (h.2 kv hkv)⟩
    | arr xs =>
      simp only [refFreeB, List.all_eq_true] at h ⊢
      exact fun e he => ih (h e he)
    | null => rfl
    | bool b => rfl
    | num n => rfl
    | str s => rfl

theorem refFreeB_le {f g : Nat} {x : JSON} (hfg : f ≤ g) (h : refFreeB f x = true) :
    refFreeB g x = true := by
  induction hfg with
  | refl => exact h
  | step _ ih => exact refFreeB_mono ih

theorem resolveObjGo_id {res : JSON → Except Err JSON}
    {ms : List (String × JSON)} (h : ∀ kv ∈ ms, res kv.2 = .ok kv.2) :
    resolveObjGo res ms = .ok ms := by
  induction ms with
  | nil => rfl
  | cons kv rest ihr =>
    simp only [resolveObjGo, h kv (by simp),
      ihr (fun kv' hkv' => h kv' (by simp [hkv'])), bind, Except.bind, pure, Except.pure]

theorem resolveListGo_id {res : JSON → Except Err JSON}
    {xs : List JSON} (h : ∀ e ∈ xs, res e = .ok e) :
    resolveListGo res xs = .ok xs := by
  induction xs with
  | nil => rfl
  | cons e rest ihr =>
    simp only [resolveListGo, h e (by simp),
      ihr (fun e' he' => h e' (by simp [he'])), bind, Except.bind, pure, Except.pure]

/-- On a `$ref`-free value, the deep dereferencer is the identity. -/
theorem resolveAllRefs_refFree {fuel : Nat} {doc x : JSON}
    (h : refFreeB fuel x = true) : resolveAllRefs fuel doc x = .ok x := by
  induction fuel generalizing x with
  | zero => simp [refFreeB] at h
  | succ n ih =>
    cases x with
    | obj ms =>
      simp only [refFreeB, Bool.and_eq_true, List.all_eq_true,
        Option.isNone_iff_eq_none] at h
      simp only [resolveAllRefs, h.1,
        resolveObjGo_id (fun kv hkv => ih (h.2 kv hkv)), bind, Except.bind,
        pure, Except.pure]
    | arr xs =>
      simp only [refFreeB, List.all_eq_true] at h
      simp only [resolveAllRefs, resolveListGo_id (fun e he => ih (h e he)),
        bind, Except.bind, pure, Except.pure]
    | null => rfl
    | bool b => rfl
    | num n => rfl
    | str s => rfl

theorem resolveObjGo_keeps {res : JSON → Except Err JSON}
    {ms ms' : List (String × JSON)} (h : resolveObjGo res ms = .ok ms') :
    ms'.length = ms.length ∧
      ∀ i : Nat, ∀ hi : i < ms'.length, ∀ hi' : i < ms.length,
        (ms'.get ⟨i, hi⟩).1 = (ms.get ⟨i, hi'⟩).1 ∧
          res (ms.get ⟨i, hi'⟩).2 = .ok (ms'.get ⟨i, hi⟩).2 := by
  induction ms generalizing ms' with
  | nil =>
    simp only [resolveObjGo, Except.ok.injEq] at h
    subst h
    exact ⟨rfl, fun i hi hi' => absurd hi (by simp)⟩
  | cons kv rest ihr =>
    simp only [resolveObjGo, bind_ok_iff] at h
    obtain ⟨v', hv, rest', hrest, hmk⟩ := h
    simp only [pure, Except.pure, Except.ok.injEq] at hmk
    subst hmk
    obtain ⟨hlen, hpt⟩ := ihr hrest
    refine ⟨by simp [hlen], fun i hi hi' => ?_⟩
    match i with
    | 0 => exact ⟨rfl, hv⟩
    | j+1 =>
      exact hpt j (by simpa using hi) (by simpa using hi')

theorem resolveListGo_refFree {n : Nat} {doc : JSON}
    (ih : ∀ {x y : JSON}, resolveAllRefs n doc x = .ok y → refFreeB n y = true)
    {xs ys : List JSON} (h : resolveListGo (resolveAllRefs n doc) xs = .ok ys) :
    ∀ y ∈ ys, refFreeB n y = true := by
  induction xs generalizing ys with
  | nil =>
    simp only [resolveListGo, Except.ok.injEq] at h
    subst h
    simp
  | cons e rest ihr =>
    simp only [resolveListGo, bind_ok_iff] at h
    obtain ⟨e', he, rest', hrest, hmk⟩ := h
    simp only [pure, Except.pure, Except.ok.injEq] at hmk
    subst hmk
    intro y hy
    rcases List.mem_cons.mp hy with hy | hy
    · exact hy ▸ ih he
    · exact ihr hrest y hy

theorem resolveObjGo_refFree {n : Nat} {doc : JSON}
    (ih : ∀ {x y : JSON}, resolveAllRefs n doc x = .ok y → refFreeB n y = true)
    {ms ms' : List (String × JSON)}
    (h : resolveObjGo (resolveAllRefs n doc) ms = .ok ms') :
    ∀ kv ∈ ms', refFreeB n kv.2 = true := by
  induction ms generalizing ms' with
  | nil =>
    simp only [resolveObjGo, Except.ok.injEq] at h
    subst h
    simp
  | cons kv rest ihr =>
    simp only [resolveObjGo, bind_ok_iff] at h
    obtain ⟨v', hv, rest', hrest, hmk⟩ := h
    simp only [pure, Except.pure, Except.ok.injEq] at hmk
    subst hmk
    intro kv' hkv'
    rcases List.mem_cons.mp hkv' with hkv' | hkv'
    · subst hkv'; exact ih hv
    · exact ihr hrest kv' hkv'

theorem resolveObjGo_noRefKey {res : JSON → Except Err JSON}
    {ms ms' : List (String × JSON)} (h : resolveObjGo res ms = .ok ms')
    (hk : objGet ms "$ref" = none) : objGet ms' "$ref" = none := by
  induction ms generalizing ms' with
  | nil =>
    simp only [resolveObjGo, Except.ok.injEq] at h
    subst h
    exact hk
  | cons kv rest ihr =>
    simp only [resolveObjGo, bind_ok_iff] at h
    obtain ⟨v', hv, rest', hrest, hmk⟩ := h
    simp only [pure, Except.pure, Except.ok.injEq] at hmk
    subst hmk
    simp only [objGet] at hk ⊢
    split at hk
    · exact absurd hk (by simp)
    · next hne =>
      simp only [if_neg hne]
      exact ihr hrest hk

/-- A successful run of the deep dereferencer produces a `$ref`-free value
(to the same depth bound). -/
theorem resolveAllRefs_refFreeB {fuel : Nat} {doc x y : JSON}
    (h : resolveAllRefs fuel doc x = .ok y) : refFreeB fuel y = true := by
  induction fuel generalizing x y with
  | zero => simp [resolveAllRefs] at h
  | succ n ih =>
    cases x with
    | obj ms =>
      simp only [resolveAllRefs] at h
      match href : objGet ms "$ref" with
      | some (.str r) =>
        rw [href] at h
        simp only [bind_ok_iff] at h
        obtain ⟨target, htgt, hres⟩ := h
        exact refFreeB_mono (ih hres)
      | some .null => rw [href] at h; exact absurd h (by simp)
      | some (.bool b) => rw [href] at h; exact absurd h (by simp)
      | some (.num m) => rw [href] at h; exact absurd h (by simp)
      | some (.arr zs) => rw [href] at h; exact absurd h (by simp)
      | some (.obj zs) => rw [href] at h; exact absurd h (by simp)
      | none =>
        rw [href] at h
        simp only [bind_ok_iff] at h
        obtain ⟨ms', hgo, hmk⟩ := h
        simp only [pure, Except.pure, Except.ok.injEq] at hmk
        subst hmk
        simp only [refFreeB, Bool.and_eq_true, List.all_eq_true,
          Option.isNone_iff_eq_none]
        exact ⟨resolveObjGo_noRefKey hgo href,
          resolveObjGo_refFree (fun h' => ih h') hgo⟩
    | arr xs =>
      simp only [resolveAllRefs, bind_ok_iff] at h
      obtain ⟨ys, hgo, hmk⟩ := h
      simp only [pure, Except.pure, Except.ok.injEq] at hmk
      subst hmk
      simp only [refFreeB, List.all_eq_true]
      exact resolveListGo_refFree (fun h' => ih h') hgo
    | null => simp only [resolveAllRefs, Except.ok.injEq] at h; subst h; rfl
    | bool b => simp only [resolveAllRefs, Except.ok.injEq] at h; subst h; rfl
    | num m => simp only [resolveAllRefs, Except.ok.injEq] at h; subst h; rfl
    | str s => simp only [resolveAllRefs, Except.ok.injEq] at h; subst h; rfl

end OasPostman

namespace OasPostman

/-! ## Claims C1 and C2 -/

/-- C1.  Deep dereferencing is idempotent: whenever `_resolve_all_refs`
succeeds on an input `x` (which is exactly the acyclic/terminating case,
witnessed by a sufficient `fuel`), running it again on the result `y`
returns `y` unchanged, with the same fuel bound. -/
theorem c1_dereference_idempotent (fuel : Nat) (doc x y : JSON)
    (h : resolveAllRefs fuel doc x = .ok y) :
    resolveAllRefs fuel doc y = .ok y :=
  resolveAllRefs_refFree (resolveAllRefs_refFreeB h)

/-- Document used for concrete runs: `\x7bcomponents: \x7bschemas:
\x7bUser: \x7btype: object, properties: \x7bgid: \x7btype: string\x7d...`. -/
def sampleDoc : JSON :=
  .obj [("components", .obj [("schemas", .obj [
    ("User", .obj [("type", .str "object"),
      ("properties", .obj [("gid", .obj [("type", .str "string")])])]),
    ("UserRef", .obj [("$ref", .str "#/components/schemas/User")])])])]

theorem c1_dereference_idempotent_witness :
    resolveAllRefs 10 sampleDoc (.obj [("$ref", .str "#/components/schemas/UserRef")]) =
      .ok (.obj [("type", .str "object"),
        ("properties", .obj [("gid", .obj [("type", .str "string")])])]) ∧
    resolveAllRefs 10 sampleDoc
        (.obj [("type", .str "object"),
          ("properties", .obj [("gid", .obj [("type", .str "string")])])]) =
      .ok (.obj [("type", .str "object"),
        ("properties", .obj [("gid", .obj [("type", .str "string")])])]) :=
  ⟨by rfl, c1_dereference_idempotent 10 sampleDoc
    (.obj [("$ref", .str "#/components/schemas/UserRef")]) _ (by rfl)⟩

/-- Outcome of walking a pointer path through the document, following the
spec's words: the node at that path, or a broken step (a segment absent
from the current mapping, or mapping to `null`), or a step into a
non-mapping (outside the Document shape the spec assumes). -/
inductive WalkRes where
  | found (v : JSON)
  | missing
  | nonMapping

/-- Spec-side path walker (refinement comparator for C2, written from the
spec's words, not from the code): walk the segments; report `missing`
when a segment is absent or maps to `null`, `nonMapping` when asked to
step inside a non-mapping. -/
def specWalk : JSON → List String → WalkRes
  | v, [] => .found v
  | .obj kvs, p :: rest =>
      match objGet kvs p with
      | none => .missing
      | some .null => .missing
      | some v => specWalk v rest
  | _, _ :: _ => .nonMapping

theorem specWalk_missing_err {parts : List String} :
    ∀ {doc : JSON}, specWalk doc parts = .missing →
      resolveRefParts doc parts = .error .refNotFound := by
  induction parts with
  | nil => intro doc h; simp [specWalk] at h
  | cons p rest ih =>
    intro doc h
    cases doc with
    | obj kvs =>
      simp only [specWalk] at h
      simp only [resolveRefParts]
      match hg : objGet kvs p with
      | none => rfl
      | some .null => rfl
      | some (.bool b) => rw [hg] at h; exact ih h
      | some (.num n) => rw [hg] at h; exact ih h
      | some (.str s) => rw [hg] at h; exact ih h
      | some (.arr xs) => rw [hg] at h; exact ih h
      | some (.obj ms) => rw [hg] at h; exact ih h
    | null => simp [specWalk] at h
    | bool b => simp [specWalk] at h
    | num n => simp [specWalk] at h
    | str s => simp [specWalk] at h
    | arr xs => simp [specWalk] at h

theorem specWalk_found_ok {parts : List String} :
    ∀ {doc v : JSON}, specWalk doc parts = .found v →
      resolveRefParts doc parts = .ok v := by
  induction parts with
  | nil =>
    intro doc v h
    simp only [specWalk, WalkRes.found.injEq] at h
    subst h
    rfl
  | cons p rest ih =>
    intro doc v h
    cases doc with
    | obj kvs =>
      simp only [specWalk] at h
      simp only [resolveRefParts]
      match hg : objGet kvs p with
      | none => rw [hg] at h; exact absurd h (by simp)
      | some .null => rw [hg] at h; exact absurd h (by simp)
      | some (.bool b) => rw [hg] at h; exact ih h
      | some (.num n) => rw [hg] at h; exact ih h
      | some (.str s) => rw [hg] at h; exact ih h
      | some (.arr xs) => rw [hg] at h; exact ih h
      | some (.obj ms) => rw [hg] at h; exact ih h
    | null => simp [specWalk] at h
    | bool b => simp [specWalk] at h
    | num n => simp [specWalk] at h
    | str s => simp [specWalk] at h
    | arr xs => simp [specWalk] at h

theorem resolveRefParts_ne_null {parts : List String} :
    ∀ {doc v : JSON}, parts ≠ [] → resolveRefParts doc parts = .ok v →
      v ≠ .null := by
  induction parts with
  | nil => intro doc v h; exact absurd rfl h
  | cons p rest ih =>
    intro doc v _ h
    cases doc with
    | obj kvs =>
      simp only [resolveRefParts] at h
      match hg : objGet kvs p with
      | none => rw [hg] at h; exact absurd h (by simp)
      | some .null => rw [hg] at h; exact absurd h (by simp)
      | some (.bool b) =>
        rw [hg] at h
        cases rest with
        | nil =>
          simp only [resolveRefParts, Except.ok.injEq] at h
          subst h
          intro hc
          cases hc
        | cons q qs => exact ih (by simp) h
      | some (.num n) =>
        rw [hg] at h
        cases rest with
        | nil =>
          simp only [resolveRefParts, Except.ok.injEq] at h
          subst h
          intro hc
          cases hc
        | cons q qs => exact ih (by simp) h
      | some (.str s) =>
        rw [hg] at h
        cases rest with
        | nil =>
          simp only [resolveRefParts, Except.ok.injEq] at h
          subst h
          intro hc
          cases hc
        | cons q qs => exact ih (by simp) h
      | some (.arr xs) =>
        rw [hg] at h
        cases rest with
        | nil =>
          simp only [resolveRefParts, Except.ok.injEq] at h
          subst h
          intro hc
          cases hc
        | cons q qs => exact ih (by simp) h
      | some (.obj ms) =>
        rw [hg] at h
        cases rest with
        | nil =>
          simp only [resolveRefParts, Except.ok.injEq] at h
          subst h
          intro hc
          cases hc
        | cons q qs => exact ih (by simp) h
    | null => simp [resolveRefParts] at h
    | bool b => simp [resolveRefParts] at h
    | num n => simp [resolveRefParts] at h
    | str s => simp [resolveRefParts] at h
    | arr xs => simp [resolveRefParts] at h

/-- C2.  Reference resolution fails loudly: a pointer with a broken
segment (absent, or mapping to `null`) raises the `ReferenceNotFound`
error rather than returning anything; a pointer whose segments all exist
returns exactly the node at that path; and a successful resolution of a
nonempty pointer is never `null`.  The last conjunct ties the string form
`#/a/b/c` to the segment walk. -/
theorem c2_broken_ref_is_error (doc : JSON) (parts : List String) :
    (specWalk doc parts = .missing →
      resolveRefParts doc parts = .error .refNotFound) ∧
    (∀ v, specWalk doc parts = .found v → resolveRefParts doc parts = .ok v) ∧
    (∀ v, parts ≠ [] → resolveRefParts doc parts = .ok v → v ≠ .null) ∧
    resolveRefStr doc "#/a/b/c" = resolveRefParts doc ["a", "b", "c"] :=
  ⟨fun h => specWalk_missing_err h, fun _ h => specWalk_found_ok h,
   fun _ hne h => resolveRefParts_ne_null hne h, rfl⟩

theorem c2_broken_ref_is_error_witness :
    resolveRefParts sampleDoc ["components", "schemas", "Nope"] =
      .error .refNotFound ∧
    resolveRefParts sampleDoc ["components", "schemas", "User"] =
      .ok (.obj [("type", .str "object"),
        ("properties", .obj [("gid", .obj [("type", .str "string")])])]) ∧
    JSON.obj [("type", .str "object"),
        ("properties", .obj [("gid", .obj [("type", .str "string")])])] ≠
      JSON.null :=
  ⟨(c2_broken_ref_is_error sampleDoc ["components", "schemas", "Nope"]).1 rfl,
   (c2_broken_ref_is_error sampleDoc ["components", "schemas", "User"]).2.1 _ rfl,
   (c2_broken_ref_is_error sampleDoc ["components", "schemas", "User"]).2.2.1 _
     (by simp) rfl⟩

end OasPostman

namespace OasPostman

/-! ## Example synthesis (`_build_example_from_schema`,
`_build_object_example`, `_build_primitive_example`) -/

/-- Python `schema.get('type') == name` for a string literal `name`. -/
def isTypeStr (ty : Option JSON) (name : String) : Bool :=
  match ty with
  | some (.str s) => s = name
  | _ => false

/-- `_build_primitive_example(schema)`: an explicit `example` is returned
verbatim; else the first entry of `enum` (indexing can raise); else the
per-type placeholder table, whose `.get` raises `TypeError` on an
unhashable (list/mapping) `type` value and falls back to `"<value>"`
otherwise. -/
def buildPrimitive (ms : List (String × JSON)) : Except Err JSON :=
  match objGet ms "example" with
  | some ex => .ok ex
  | none =>
      match objGet ms "enum" with
      | some ev => pyIndex0 ev
      | none =>
          let ty := objGet ms "type"
          if isTypeStr ty "string" then .ok (.str "<string>")
          else if isTypeStr ty "number" then .ok (.num 0)
          else if isTypeStr ty "integer" then .ok (.num 0)
          else if isTypeStr ty "boolean" then .ok (.bool false)
          else
            match ty with
            | some (.arr _) => .error .typeError
            | some (.obj _) => .error .typeError
            | _ => .ok (.str "<value>")

/-- The `allOf` accumulation loop of `_build_example_from_schema`: build
each branch, and shallow-merge every branch whose example is a mapping
into the accumulator (later branches overwrite). -/
def buildAllOfGo (bld : JSON → Except Err JSON) :
    List JSON → List (String × JSON) → Except Err JSON
  | [], acc => .ok (.obj acc)
  | sub :: rest, acc => do
      let r ← bld sub
      match r with
      | .obj kvs => buildAllOfGo bld rest (objUpdate acc kvs)
      | _ => buildAllOfGo bld rest acc

/-- The property loop of `_build_object_example`: when `ignore_readonly`
is set, a property is skipped if its schema (which must then be a
mapping, else `AttributeError`) has a truthy `readOnly`; otherwise the
property's example is built and assigned. -/
def buildPropsGo (bld : JSON → Except Err JSON) (ro : Bool) :
    List (String × JSON) → List (String × JSON) → Except Err JSON
  | [], acc => .ok (.obj acc)
  | (k, pv) :: rest, acc => do
      let skip ←
        if ro then
          match pv with
          | .obj pkvs => .ok (pyTruthy ((objGet pkvs "readOnly").getD (.bool false)))
          | _ => .error .attrError
        else .ok false
      if skip then buildPropsGo bld ro rest acc
      else do
        let v ← bld pv
        buildPropsGo bld ro rest (objInsert acc k v)

/-- `_build_object_example(schema, ignore_readonly)`: iterate
`schema.get('properties', \x7b\x7d)` (whose `.items()` raises on a
non-mapping) through the property loop. -/
def buildObjectExample (bld : JSON → Except Err JSON) (ms : List (String × JSON))
    (ro : Bool) : Except Err JSON :=
  match (objGet ms "properties").getD (.obj []) with
  | .obj ps => buildPropsGo bld ro ps []
  | _ => .error .attrError

/-- `_build_example_from_schema(schema, ignore_readonly)`: a falsy schema
gives `null`; otherwise the schema is deeply dereferenced first, and the
result must be a mapping (every truthy non-mapping raises in the source,
at `'allOf' in schema` or `schema.get`); then `allOf` merge, the
object/array dispatch on `type` (a missing `items` defaults to the empty
schema), and the primitive fallback. -/
def buildExample : Nat → JSON → JSON → Bool → Except Err JSON
  | 0, _, _, _ => .error .fuel
  | fuel+1, doc, schema, ro =>
      if pyTruthy schema = false then .ok .null
      else do
        let rs ← resolveAllRefs (fuel+1) doc schema
        match rs with
        | .obj ms =>
            match objGet ms "allOf" with
            | some av => do
                let subs ← pyIter av
                buildAllOfGo (fun s => buildExample fuel doc s ro) subs []
            | none =>
                let ty := objGet ms "type"
                if isTypeStr ty "object" then
                  buildObjectExample (fun s => buildExample fuel doc s ro) ms ro
                else if isTypeStr ty "array" then do
                  let e ← buildExample fuel doc ((objGet ms "items").getD (.obj [])) ro
                  pure (.arr [e])
                else buildPrimitive ms
        | _ => .error .typeError

end OasPostman

namespace OasPostman

/-- Value-class tests used to state shape conformance. -/
def isObjB : JSON → Bool
  | .obj _ => true
  | _ => false

def isArrB : JSON → Bool
  | .arr _ => true
  | _ => false

def isStrB : JSON → Bool
  | .str _ => true
  | _ => false

def isNumB : JSON → Bool
  | .num _ => true
  | _ => false

def isBoolB : JSON → Bool
  | .bool _ => true
  | _ => false

/-- Conformance of a literal (an `example` or an `enum` entry) to a
declared primitive `type`. -/
def wfScalarOk (ty : Option JSON) (v : JSON) : Bool :=
  if isTypeStr ty "string" then isStrB v
  else if isTypeStr ty "number" then isNumB v
  else if isTypeStr ty "integer" then isNumB v
  else if isTypeStr ty "boolean" then isBoolB v
  else false

/-- Well-formedness of the primitive path of a schema: a declared
`example` conforms to the declared primitive type; else a declared `enum`
is a nonempty list of conforming entries; else the declared type must be
hashable (not a list or mapping). -/
def wfPrimB (ty : Option JSON) (ms : List (String × JSON)) : Bool :=
  match objGet ms "example" with
  | some ex => wfScalarOk ty ex
  | none =>
      match objGet ms "enum" with
      | some (.arr (e :: es)) => (e :: es).all (wfScalarOk ty)
      | some _ => false
      | none =>
          match ty with
          | some (.arr _) => false
          | some (.obj _) => false
          | _ => true

/-- Well-formedness of a schema for claim C3, to recursion depth `fuel`:
deeply `$ref`-free, no `allOf`/`anyOf`/`oneOf` keys, `properties` (when
given, under type `object`) a mapping of well-formed mapping-valued
property schemas, `items` (when given, under type `array`) well-formed,
and the primitive path as in `wfPrimB`.  Falsy values (including the
empty schema) are well-formed: the source synthesizes `null` for them. -/
def wfB : Nat → JSON → Bool
  | 0, _ => false
  | fuel+1, s =>
      refFreeB (fuel+1) s &&
      match s with
      | .obj [] => true
      | .obj ms =>
          (objGet ms "allOf").isNone && (objGet ms "anyOf").isNone &&
          (objGet ms "oneOf").isNone &&
          (let ty := objGet ms "type"
           if isTypeStr ty "object" then
             match objGet ms "properties" with
             | none => true
             | some (.obj ps) => ps.all (fun kv => isObjB kv.2 && wfB fuel kv.2)
             | some _ => false
           else if isTypeStr ty "array" then
             match objGet ms "items" with
             | none => true
             | some it => wfB fuel it
           else wfPrimB ty ms)
      | _ => pyTruthy s = false

/-- Shape conformance claimed by C3: the synthesized value matches the
declared `type` (object/array/string/number/integer/boolean); with a
falsy schema the value is the degenerate placeholder `null`, and with an
absent or unknown type it is the placeholder `"<value>"`. -/
def shapeOk (s v : JSON) : Bool :=
  match s with
  | .obj [] => scalarBEq v .null
  | .obj ms =>
      let ty := objGet ms "type"
      if isTypeStr ty "object" then isObjB v
      else if isTypeStr ty "array" then isArrB v
      else if isTypeStr ty "string" then isStrB v
      else if isTypeStr ty "number" then isNumB v
      else if isTypeStr ty "integer" then isNumB v
      else if isTypeStr ty "boolean" then isBoolB v
      else scalarBEq v (.str "<value>")
  | _ => scalarBEq v .null


/-- Shape of a value produced on the primitive path: the declared
primitive class, or the `"<value>"` placeholder for an absent or unknown
type. -/
def primShapeOk (ty : Option JSON) (v : JSON) : Bool :=
  if isTypeStr ty "string" then isStrB v
  else if isTypeStr ty "number" then isNumB v
  else if isTypeStr ty "integer" then isNumB v
  else if isTypeStr ty "boolean" then isBoolB v
  else scalarBEq v (.str "<value>")

theorem wfScalarOk_primShape {ty : Option JSON} {v : JSON}
    (h : wfScalarOk ty v = true) : primShapeOk ty v = true := by
  unfold wfScalarOk at h
  unfold primShapeOk
  by_cases h1 : isTypeStr ty "string" = true
  · simpa [h1] using h
  · simp only [eq_false_of_ne_true h1, if_false] at h ⊢
    by_cases h2 : isTypeStr ty "number" = true
    · simpa [h2] using h
    · simp only [eq_false_of_ne_true h2, if_false] at h ⊢
      by_cases h3 : isTypeStr ty "integer" = true
      · simpa [h3] using h
      · simp only [eq_false_of_ne_true h3, if_false] at h ⊢
        by_cases h4 : isTypeStr ty "boolean" = true
        · simpa [h4] using h
        · simp [eq_false_of_ne_true h4] at h

theorem buildPrimitive_total {ms : List (String × JSON)}
    (hw : wfPrimB (objGet ms "type") ms = true) :
    ∃ v, buildPrimitive ms = .ok v ∧ primShapeOk (objGet ms "type") v = true := by
  unfold wfPrimB at hw
  unfold buildPrimitive
  match hex : objGet ms "example" with
  | some ex =>
    rw [hex] at hw
    exact ⟨ex, rfl, wfScalarOk_primShape hw⟩
  | none =>
    rw [hex] at hw
    match hen : objGet ms "enum" with
    | some (.arr (e :: es)) =>
      rw [hen] at hw
      simp only [List.all_eq_true] at hw
      exact ⟨e, rfl, wfScalarOk_primShape (hw e (by simp))⟩
    | some .null => rw [hen] at hw; exact absurd hw (by simp)
    | some (.bool b) => rw [hen] at hw; exact absurd hw (by simp)
    | some (.num n) => rw [hen] at hw; exact absurd hw (by simp)
    | some (.str s) => rw [hen] at hw; exact absurd hw (by simp)
    | some (.arr []) => rw [hen] at hw; exact absurd hw (by simp)
    | some (.obj zs) => rw [hen] at hw; exact absurd hw (by simp)
    | none =>
      rw [hen] at hw
      by_cases h1 : isTypeStr (objGet ms "type") "string" = true
      · exact ⟨.str "<string>", by simp [h1], by simp [primShapeOk, h1, isStrB]⟩
      · have h1f := eq_false_of_ne_true h1
        by_cases h2 : isTypeStr (objGet ms "type") "number" = true
        · exact ⟨.num 0, by simp [h1f, h2], by simp [primShapeOk, h1f, h2, isNumB]⟩
        · have h2f := eq_false_of_ne_true h2
          by_cases h3 : isTypeStr (objGet ms "type") "integer" = true
          · exact ⟨.num 0, by simp [h1f, h2f, h3],
              by simp [primShapeOk, h1f, h2f, h3, isNumB]⟩
          · have h3f := eq_false_of_ne_true h3
            by_cases h4 : isTypeStr (objGet ms "type") "boolean" = true
            · exact ⟨.bool false, by simp [h1f, h2f, h3f, h4],
                by simp [primShapeOk, h1f, h2f, h3f, h4, isBoolB]⟩
            · have h4f := eq_false_of_ne_true h4
              match hty : objGet ms "type" with
              | none =>
                refine ⟨.str "<value>", ?_, ?_⟩
                · rw [hty] at h1f h2f h3f h4f
                  simp [h1f, h2f, h3f, h4f]
                · rw [hty] at h1f h2f h3f h4f
                  simp [primShapeOk, h1f, h2f, h3f, h4f, scalarBEq]
              | some .null =>
                refine ⟨.str "<value>", ?_, ?_⟩
                · rw [hty] at h1f h2f h3f h4f
                  simp [h1f, h2f, h3f, h4f]
                · rw [hty] at h1f h2f h3f h4f
                  simp [primShapeOk, h1f, h2f, h3f, h4f, scalarBEq]
              | some (.bool b) =>
                refine ⟨.str "<value>", ?_, ?_⟩
                · rw [hty] at h1f h2f h3f h4f
                  simp [h1f, h2f, h3f, h4f]
                · rw [hty] at h1f h2f h3f h4f
                  simp [primShapeOk, h1f, h2f, h3f, h4f, scalarBEq]
              | some (.num n) =>
                refine ⟨.str "<value>", ?_, ?_⟩
                · rw [hty] at h1f h2f h3f h4f
                  simp [h1f, h2f, h3f, h4f]
                · rw [hty] at h1f h2f h3f h4f
                  simp [primShapeOk, h1f, h2f, h3f, h4f, scalarBEq]
              | some (.str s) =>
                refine ⟨.str "<value>", ?_, ?_⟩
                · rw [hty] at h1f h2f h3f h4f
                  simp [h1f, h2f, h3f, h4f]
                · rw [hty] at h1f h2f h3f h4f
                  simp [primShapeOk, h1f, h2f, h3f, h4f, scalarBEq]
              | some (.arr xs) => rw [hty] at hw; exact absurd hw (by simp)
              | some (.obj zs) => rw [hty] at hw; exact absurd hw (by simp)

theorem buildPropsGo_total {fuel : Nat} {doc : JSON} {ro : Bool}
    (ih : ∀ {s : JSON}, wfB fuel s = true →
      ∃ v, buildExample fuel doc s ro = .ok v)
    {ps : List (String × JSON)}
    (hps : ∀ kv ∈ ps, isObjB kv.2 = true ∧ wfB fuel kv.2 = true) :
    ∀ acc, ∃ r, buildPropsGo (fun s => buildExample fuel doc s ro) ro ps acc =
      .ok (.obj r) := by
  induction ps with
  | nil => intro acc; exact ⟨acc, rfl⟩
  | cons kv rest ihr =>
    intro acc
    obtain ⟨hobj, hwf⟩ := hps kv (by simp)
    obtain ⟨k, pv⟩ := kv
    match pv, hobj with
    | .obj pkvs, _ =>
      obtain ⟨v, hv⟩ := ih hwf
      have hrest := ihr (fun kv' hkv' => hps kv' (by simp [hkv']))
      by_cases hskip : ro = true
      · subst hskip
        simp only [buildPropsGo, bind, Except.bind, pure, Except.pure]
        by_cases hroflag :
            pyTruthy ((objGet pkvs "readOnly").getD (.bool false)) = true
        · simp only [hroflag, if_true]
          exact hrest acc
        · simp only [eq_false_of_ne_true hroflag, if_false, hv]
          exact hrest (objInsert acc k v)
      · have hro : ro = false := eq_false_of_ne_true hskip
        subst hro
        simp only [buildPropsGo, bind, Except.bind, pure, Except.pure, if_false, hv]
        exact hrest (objInsert acc k v)

/-- C3.  On a well-formed, composition-free, reference-free schema the
synthesizer never raises, and the value it returns matches the declared
type, degrading to a placeholder on an absent or unknown type. -/
theorem c3_synthesis_total_and_shaped (fuel : Nat) (doc s : JSON) (ro : Bool)
    (h : wfB fuel s = true) :
    ∃ v, buildExample fuel doc s ro = .ok v ∧ shapeOk s v = true := by
  induction fuel generalizing s with
  | zero => simp [wfB] at h
  | succ n ih =>
    simp only [wfB, Bool.and_eq_true] at h
    obtain ⟨hrf, h⟩ := h
    cases s with
    | obj ms =>
      cases ms with
      | nil => exact ⟨.null, rfl, rfl⟩
      | cons m0 ms' =>
        simp only [Bool.and_eq_true, Option.isNone_iff_eq_none] at h
        obtain ⟨⟨⟨hallOf, hanyOf⟩, honeOf⟩, hty⟩ := h
        have htruthy : pyTruthy (.obj (m0 :: ms')) = true := by
          simp [pyTruthy]
        have hres : resolveAllRefs (n+1) doc (.obj (m0 :: ms')) =
            .ok (.obj (m0 :: ms')) := resolveAllRefs_refFree hrf
        simp only [buildExample, htruthy, Bool.true_eq_false, if_false,
          bind, Except.bind, hres, hallOf]
        by_cases hO : isTypeStr (objGet (m0 :: ms') "type") "object" = true
        · simp only [hO, if_true] at hty ⊢
          simp only [buildObjectExample]
          match hpq : objGet (m0 :: ms') "properties" with
          | none =>
            simp only [Option.getD]
            exact ⟨.obj [], rfl, by simp [shapeOk, hO, isObjB]⟩
          | some (.obj ps) =>
            rw [hpq] at hty
            simp only [List.all_eq_true, Bool.and_eq_true] at hty
            simp only [Option.getD]
            obtain ⟨r, hr⟩ := buildPropsGo_total
              (fun hwf => (ih _ hwf).imp (fun v hv => hv.1)) hty []
            exact ⟨.obj r, hr, by simp [shapeOk, hO, isObjB]⟩
          | some .null => rw [hpq] at hty; exact absurd hty (by simp)
          | some (.bool b) => rw [hpq] at hty; exact absurd hty (by simp)
          | some (.num nn) => rw [hpq] at hty; exact absurd hty (by simp)
          | some (.str st) => rw [hpq] at hty; exact absurd hty (by simp)
          | some (.arr xs) => rw [hpq] at hty; exact absurd hty (by simp)
        · have hOf := eq_false_of_ne_true hO
          simp only [hOf, if_false] at hty ⊢
          by_cases hA : isTypeStr (objGet (m0 :: ms') "type") "array" = true
          · simp only [hA, if_true] at hty ⊢
            match hiq : objGet (m0 :: ms') "items" with
            | none =>
              simp only [Option.getD]
              match n, hrf with
              | 0, hrf0 => simp [refFreeB] at hrf0
              | nn+1, _ =>
                exact ⟨.arr [.null], rfl, by simp [shapeOk, hOf, hA, isArrB]⟩
            | some it =>
              rw [hiq] at hty
              obtain ⟨v, hv, _⟩ := ih _ hty
              simp only [Option.getD, hv, pure, Except.pure]
              exact ⟨.arr [v], rfl, by simp [shapeOk, hOf, hA, isArrB]⟩
          · have hAf := eq_false_of_ne_true hA
            simp only [hAf, if_false] at hty ⊢
            obtain ⟨v, hv, hshape⟩ := buildPrimitive_total hty
            refine ⟨v, hv, ?_⟩
            simp only [shapeOk, hOf, hAf, if_false]
            simpa [primShapeOk, hOf, hAf] using hshape
    | null => exact ⟨.null, rfl, rfl⟩
    | bool b =>
      cases b with
      | false => exact ⟨.null, rfl, rfl⟩
      | true => simp [pyTruthy] at h
    | num nn =>
      simp only [pyTruthy] at h
      have : nn = 0 := by
        by_contra hne
        simp [hne] at h
      subst this
      exact ⟨.null, rfl, rfl⟩
    | str st =>
      simp only [pyTruthy] at h
      have : st = "" := by
        by_contra hne
        simp [hne] at h
      subst this
      exact ⟨.null, rfl, rfl⟩
    | arr xs =>
      cases xs with
      | nil => exact ⟨.null, rfl, rfl⟩
      | cons e es => simp [pyTruthy] at h

end OasPostman

namespace OasPostman

/-- Schema used for the C3 witness. -/
def c3Schema : JSON :=
  .obj [("type", .str "object"),
    ("properties", .obj [("name", .obj [("type", .str "string")])])]

theorem c3_synthesis_total_and_shaped_witness :
    wfB 5 c3Schema = true ∧
    ∃ v, buildExample 5 (.obj []) c3Schema false = .ok v ∧
      shapeOk c3Schema v = true :=
  ⟨by rfl, c3_synthesis_total_and_shaped 5 (.obj []) c3Schema false (by rfl)⟩

/-- Schema of the C6 example: an object with a read-only integer `id` and
a required string `name`. -/
def c6Schema : JSON :=
  .obj [("type", .str "object"),
    ("properties", .obj [
      ("id", .obj [("type", .str "integer"), ("readOnly", .bool true)]),
      ("name", .obj [("type", .str "string")])]),
    ("required", .arr [.str "name"])]

/-- C6.  Read-only suppression: on the example schema, synthesis with
read-only suppression yields exactly `\x7b"name": "<string>"\x7d` (the
read-only `id` omitted), and without suppression yields exactly
`\x7b"id": 0, "name": "<string>"\x7d`, in property declaration order. -/
theorem c6_readonly_suppression :
    buildExample 5 (.obj []) c6Schema true =
      .ok (.obj [("name", .str "<string>")]) ∧
    buildExample 5 (.obj []) c6Schema false =
      .ok (.obj [("id", .num 0), ("name", .str "<string>")]) :=
  ⟨by rfl, by rfl⟩

/-- A schema carrying both `type: array` and `allOf`, used to refute C5
as stated: the `allOf` branch of `_build_example_from_schema` runs before
the `type` dispatch and returns a mapping, not a one-element sequence. -/
def c5AllOfArray : JSON :=
  .obj [("type", .str "array"),
    ("allOf", .arr [.obj [("type", .str "object")]])]

/-- C5, counterexample.  A schema with `type: "array"` (but an `allOf`
key) synthesizes the mapping `\x7b\x7d`, not a sequence, refuting the
claim as stated for every schema with type array. -/
theorem c5_counterexample :
    buildExample 5 (.obj []) c5AllOfArray false = .ok (.obj []) ∧
    isArrB (.obj []) = false :=
  ⟨by rfl, rfl⟩

theorem objGet_some_nonempty {ms : List (String × JSON)} {k : String} {v : JSON}
    (h : objGet ms k = some v) : ms ≠ [] := by
  cases ms with
  | nil => simp [objGet] at h
  | cons m rest => simp

/-- C5, amended.  For a reference-free schema whose `type` is `"array"`
and which carries no `allOf` key, synthesis yields a one-element sequence
holding the `items` example (absent `items` is replaced by the empty
schema); when `items` is absent the element is `null` — the empty
schema's synthesized example — rather than a failure. -/
theorem c5_array_single_element (fuel : Nat) (doc e : JSON) (ro : Bool)
    (ms : List (String × JSON))
    (h1 : isTypeStr (objGet ms "type") "array" = true)
    (h2 : objGet ms "allOf" = none)
    (h3 : refFreeB (fuel+1) (.obj ms) = true)
    (h4 : buildExample fuel doc ((objGet ms "items").getD (.obj [])) ro = .ok e) :
    buildExample (fuel+1) doc (.obj ms) ro = .ok (.arr [e]) ∧
      (objGet ms "items" = none → e = .null) := by
  have hne : ms ≠ [] := by
    match hty : objGet ms "type" with
    | some tv => exact objGet_some_nonempty hty
    | none => rw [hty] at h1; simp [isTypeStr] at h1
  have htruthy : pyTruthy (.obj ms) = true := by
    cases ms with
    | nil => exact absurd rfl hne
    | cons m rest => simp [pyTruthy]
  have hO : isTypeStr (objGet ms "type") "object" = false := by
    match hty : objGet ms "type" with
    | some (.str s) =>
      rw [hty] at h1
      simp only [isTypeStr, decide_eq_true_eq] at h1
      subst h1
      simp [isTypeStr]
    | some .null => rw [hty] at h1; simp [isTypeStr] at h1
    | some (.bool b) => rw [hty] at h1; simp [isTypeStr] at h1
    | some (.num n) => rw [hty] at h1; simp [isTypeStr] at h1
    | some (.arr xs) => rw [hty] at h1; simp [isTypeStr] at h1
    | some (.obj zs) => rw [hty] at h1; simp [isTypeStr] at h1
    | none => rw [hty] at h1; simp [isTypeStr] at h1
  constructor
  · simp only [buildExample, htruthy, Bool.true_eq_false, if_false, bind,
      Except.bind, resolveAllRefs_refFree h3, h2, hO, if_false, h1, if_true,
      h4, pure, Except.pure]
    simp
  · intro hitems
    rw [hitems] at h4
    simp only [Option.getD] at h4
    match fuel, h4 with
    | k+1, h4 =>
      simp [buildExample, pyTruthy] at h4
      exact h4.symm

theorem c5_array_single_element_witness :
    buildExample 1 (.obj []) (.obj []) false = .ok .null ∧
    buildExample 2 (.obj []) (.obj [("type", .str "array")]) false =
      .ok (.arr [.null]) ∧
    JSON.null = .null :=
  ⟨by rfl,
   (c5_array_single_element 1 (.obj []) .null false [("type", .str "array")]
      (by rfl) (by rfl) (by rfl) (by rfl)).1,
   (c5_array_single_element 1 (.obj []) .null false [("type", .str "array")]
      (by rfl) (by rfl) (by rfl) (by rfl)).2 (by rfl)⟩

end OasPostman

namespace OasPostman

/-! ## Schema normalization (`_normalize_schema`) -/

/-- Key-uniqueness of a mapping, the invariant every real Python dict
satisfies (a YAML/JSON loader never produces duplicate keys). -/
def nodupKeysB : List (String × JSON) → Bool
  | [] => true
  | (k, _) :: rest => !(rest.any (fun kv => kv.1 == k)) && nodupKeysB rest

/-- Deep key-uniqueness: every mapping anywhere in the value has unique
keys.  This carves out exactly the values a Python run can encounter. -/
inductive NDeep : JSON → Prop where
  | null : NDeep .null
  | bool (b : Bool) : NDeep (.bool b)
  | num (n : Int) : NDeep (.num n)
  | str (s : String) : NDeep (.str s)
  | arr (xs : List JSON) : (∀ x ∈ xs, NDeep x) → NDeep (.arr xs)
  | obj (ms : List (String × JSON)) : nodupKeysB ms = true →
      (∀ kv ∈ ms, NDeep kv.2) → NDeep (.obj ms)

/-- The copy-through of `_normalize_schema`'s `allOf` loop: every key of
the normalized sub-schema except `properties`/`required`/`allOf` is
assigned into the accumulator. -/
def copyThrough (merged : List (String × JSON)) (nkvs : List (String × JSON)) :
    List (String × JSON) :=
  nkvs.foldl
    (fun m kv =>
      if kv.1 == "properties" || kv.1 == "required" || kv.1 == "allOf" then m
      else objInsert m kv.1 kv.2)
    merged

/-- Accumulator of the `allOf` merge loop: the copied-through keys, the
merged `properties`, and the concatenated `required` entries. -/
structure MergeSt where
  merged : List (String × JSON)
  mprops : List (String × JSON)
  mreq : List JSON

/-- One iteration of the `allOf` loop of `_normalize_schema`: normalize
the sub-schema (a non-mapping normalizes to itself and fails the
`isinstance` test, so it is skipped without a recursive call), then merge
its `properties` (via dict update), extend `required` (via iteration) and
copy through the remaining keys. -/
def normAllOfStep (norm : JSON → Except Err JSON) (st : MergeSt) (sub : JSON) :
    Except Err MergeSt :=
  match sub with
  | .obj skvs => do
      let n ← norm (.obj skvs)
      match n with
      | .obj nkvs => do
          let mprops' ←
            match objGet nkvs "properties" with
            | some pv => pyDictUpdate st.mprops pv
            | none => pure st.mprops
          let mreq' ←
            match objGet nkvs "required" with
            | some rv => do
                let l ← pyIter rv
                pure (st.mreq ++ l)
            | none => pure st.mreq
          pure ⟨copyThrough st.merged nkvs, mprops', mreq'⟩
      | _ => pure st
  | _ => pure st

/-- The `allOf` loop itself. -/
def normAllOfFold (norm : JSON → Except Err JSON) :
    List JSON → MergeSt → Except Err MergeSt
  | [], st => .ok st
  | sub :: rest, st => do
      let st' ← normAllOfStep norm st sub
      normAllOfFold norm rest st'

/-- The epilogue of the `allOf` branch: install `properties` when any
were collected and `required` as `list(set(...))` when any were
collected. -/
def normAllOfFinal (st : MergeSt) : Except Err JSON :=
  let m1 := if st.mprops.isEmpty then st.merged
            else objInsert st.merged "properties" (.obj st.mprops)
  if st.mreq.isEmpty then .ok (.obj m1)
  else do
    let dr ← pySetList st.mreq
    pure (.obj (objInsert m1 "required" (.arr dr)))

/-- The `anyOf`/`oneOf` selection loop: return the first normalized
sub-schema that is a mapping with a `properties` key (a non-mapping
sub-schema normalizes to itself and never qualifies, so it is skipped
without a recursive call). -/
def normPickGo (norm : JSON → Except Err JSON) :
    List JSON → Except Err (Option JSON)
  | [] => .ok none
  | sub :: rest =>
      match sub with
      | .obj skvs => do
          let n ← norm (.obj skvs)
          match n with
          | .obj nkvs =>
              if (objGet nkvs "properties").isSome then .ok (some (.obj nkvs))
              else normPickGo norm rest
          | _ => normPickGo norm rest
      | _ => normPickGo norm rest

/-- The nested-`properties` loop: normalize each property value (a
non-mapping value normalizes to itself) and assign it into the rebuilt
mapping. -/
def normPropsGo (norm : JSON → Except Err JSON) :
    List (String × JSON) → List (String × JSON) →
      Except Err (List (String × JSON))
  | [], acc => .ok acc
  | (k, v) :: rest, acc => do
      let v' ←
        match v with
        | .obj _ => norm v
        | _ => .ok v
      normPropsGo norm rest (objInsert acc k v')

/-- `_normalize_schema(schema)`: non-mappings pass through; an `allOf`
key triggers the merge loop; else an `anyOf`/`oneOf` key triggers the
selection heuristic (`schemas = schema.get('anyOf') or schema.get('oneOf')`,
a `TypeError` when that is `None`, then the pick loop, then
`_normalize_schema(schemas[0]) if schemas else schema`); else a
`properties` key (whose value must be a mapping, else `AttributeError`)
is normalized member-wise; else the schema is returned unchanged.
`fuel` bounds the recursion depth. -/
def normalizeF : Nat → JSON → Except Err JSON
  | 0, _ => .error .fuel
  | fuel+1, s =>
      match s with
      | .obj ms =>
          match objGet ms "allOf" with
          | some av => do
              let subs ← pyIter av
              let st ← normAllOfFold (normalizeF fuel) subs ⟨[], [], []⟩
              normAllOfFinal st
          | none =>
              if ((objGet ms "anyOf").isSome || (objGet ms "oneOf").isSome) = true
              then
                match pyOr (objGet ms "anyOf") (objGet ms "oneOf") with
                | none => .error .typeError
                | some sv => do
                    let subs ← pyIter sv
                    let pick ← normPickGo (normalizeF fuel) subs
                    match pick with
                    | some t => .ok t
                    | none =>
                        if pyTruthy sv then do
                          let i0 ← pyIndex0 sv
                          match i0 with
                          | .obj _ => normalizeF fuel i0
                          | _ => .ok i0
                        else .ok (.obj ms)
              else
                match objGet ms "properties" with
                | some (.obj ps) => do
                    let ps' ← normPropsGo (normalizeF fuel) ps []
                    .ok (.obj (objInsert ms "properties" (.obj ps')))
                | some _ => .error .attrError
                | none => .ok (.obj ms)
      | x => .ok x

end OasPostman

namespace OasPostman

/-! ## Association-list lemmas -/

theorem objGet_mem {l : List (String × JSON)} {k : String} {v : JSON}
    (h : objGet l k = some v) : (k, v) ∈ l := by
  induction l with
  | nil => simp [objGet] at h
  | cons kv rest ih =>
    simp only [objGet] at h
    split at h
    · next heq =>
      simp only [Option.some.injEq] at h
      subst heq h
      simp
    · simp [ih h]

theorem mem_objInsert {l : List (String × JSON)} {k : String} {v : JSON}
    {kv : String × JSON} (h : kv ∈ objInsert l k v) : kv = (k, v) ∨ kv ∈ l := by
  induction l with
  | nil => simpa [objInsert] using h
  | cons kv0 rest ih =>
    simp only [objInsert] at h
    split at h
    · rcases List.mem_cons.mp h with h | h
      · exact Or.inl h
      · exact Or.inr (by simp [h])
    · rcases List.mem_cons.mp h with h | h
      · exact Or.inr (by simp [h])
      · rcases ih h with h | h
        · exact Or.inl h
        · exact Or.inr (by simp [h])

theorem objGet_objInsert_self {l : List (String × JSON)} {k : String} {v : JSON} :
    objGet (objInsert l k v) k = some v := by
  induction l with
  | nil => simp [objInsert, objGet]
  | cons kv0 rest ih =>
    simp only [objInsert]
    split
    · next heq => simp [objGet]
    · next hne => simp only [objGet, if_neg hne, ih]

theorem objGet_objInsert_ne {l : List (String × JSON)} {k k' : String} {v : JSON}
    (h : k' ≠ k) : objGet (objInsert l k v) k' = objGet l k' := by
  induction l with
  | nil => simp only [objInsert, objGet, if_neg (Ne.symm h)]
  | cons kv0 rest ih =>
    obtain ⟨k0, v0⟩ := kv0
    simp only [objInsert]
    by_cases hk0 : k0 = k
    · simp only [if_pos hk0, objGet, if_neg (Ne.symm h)]
      rw [if_neg (fun hh : k0 = k' => h (hk0.symm.trans hh).symm)]
    · simp only [if_neg hk0, objGet]
      by_cases hk0' : k0 = k'
      · simp [if_pos hk0']
      · simp only [if_neg hk0', ih]

theorem objInsert_eq_of_get {l : List (String × JSON)} {k : String} {v : JSON}
    (h : objGet l k = some v) : objInsert l k v = l := by
  induction l with
  | nil => simp [objGet] at h
  | cons kv0 rest ih =>
    obtain ⟨k0, v0⟩ := kv0
    simp only [objGet] at h
    simp only [objInsert]
    split at h
    · next heq =>
      simp only [Option.some.injEq] at h
      simp [if_pos heq, heq, h]
    · next hne => simp [if_neg hne, ih h]

theorem objGet_none_objInsert {l : List (String × JSON)} {k : String} {v : JSON}
    (h : objGet l k = none) : objInsert l k v = l ++ [(k, v)] := by
  induction l with
  | nil => simp [objInsert]
  | cons kv0 rest ih =>
    obtain ⟨k0, v0⟩ := kv0
    simp only [objGet] at h
    split at h
    · exact absurd h (by simp)
    · next hne => simp [objInsert, if_neg hne, ih h]

theorem objGet_append {acc l2 : List (String × JSON)} {k : String} :
    objGet (acc ++ l2) k =
      match objGet acc k with
      | some v => some v
      | none => objGet l2 k := by
  induction acc with
  | nil => simp [objGet]
  | cons kv0 rest ih =>
    obtain ⟨k0, v0⟩ := kv0
    simp only [List.cons_append, objGet]
    by_cases hk0 : k0 = k
    · simp [if_pos hk0]
    · simp [if_neg hk0, ih]

theorem nodupKeysB_cons {kv : String × JSON} {rest : List (String × JSON)} :
    nodupKeysB (kv :: rest) = true ↔
      (∀ kv' ∈ rest, kv'.1 ≠ kv.1) ∧ nodupKeysB rest = true := by
  obtain ⟨k, v⟩ := kv
  simp [nodupKeysB, List.any_eq_false]

theorem nodupKeysB_objInsert {l : List (String × JSON)} {k : String} {v : JSON}
    (h : nodupKeysB l = true) : nodupKeysB (objInsert l k v) = true := by
  induction l with
  | nil => simp [objInsert, nodupKeysB]
  | cons kv0 rest ih =>
    rw [nodupKeysB_cons] at h
    simp only [objInsert]
    split
    · next heq =>
      rw [nodupKeysB_cons]
      exact ⟨fun kv' hkv' => heq ▸ h.1 kv' hkv', h.2⟩
    · next hne =>
      rw [nodupKeysB_cons]
      refine ⟨fun kv' hkv' => ?_, ih h.2⟩
      rcases mem_objInsert hkv' with h' | h'
      · subst h'
        simpa using fun hh => hne hh.symm
      · exact h.1 kv' h'

theorem objUpdate_fresh {new : List (String × JSON)} :
    ∀ {acc : List (String × JSON)},
      (∀ kv ∈ new, objGet acc kv.1 = none) → nodupKeysB new = true →
        objUpdate acc new = acc ++ new := by
  induction new with
  | nil => intro acc _ _; simp [objUpdate]
  | cons kv rest ih =>
    intro acc hfresh hnd
    obtain ⟨k, v⟩ := kv
    rw [nodupKeysB_cons] at hnd
    have h1 : objGet acc k = none := hfresh (k, v) (by simp)
    have step : objUpdate acc ((k, v) :: rest) =
        objUpdate (objInsert acc k v) rest := rfl
    rw [step, objGet_none_objInsert h1, ih ?_ hnd.2]
    · simp
    · intro kv' hkv'
      rw [objGet_append]
      have hrest : objGet acc kv'.1 = none := hfresh kv' (by simp [hkv'])
      rw [hrest]
      have hkne : kv'.1 ≠ k := hnd.1 kv' hkv'
      simp [objGet, if_neg (fun hh : k = kv'.1 => hkne hh.symm)]

theorem objUpdate_nil {l : List (String × JSON)} (h : nodupKeysB l = true) :
    objUpdate [] l = l := by
  have := @objUpdate_fresh l [] (fun kv _ => rfl) h
  simpa using this

theorem nodupKeysB_objUpdate {acc new : List (String × JSON)}
    (h : nodupKeysB acc = true) : nodupKeysB (objUpdate acc new) = true := by
  induction new generalizing acc with
  | nil => exact h
  | cons kv rest ih => exact ih (nodupKeysB_objInsert h)

theorem mem_objUpdate {acc new : List (String × JSON)} {kv : String × JSON}
    (h : kv ∈ objUpdate acc new) : kv ∈ acc ∨ kv ∈ new := by
  induction new generalizing acc with
  | nil => exact Or.inl h
  | cons kv0 rest ih =>
    rcases ih h with h' | h'
    · rcases mem_objInsert h' with h'' | h''
      · exact Or.inr (by simp [h''])
      · exact Or.inl h''
    · exact Or.inr (by simp [h'])

end OasPostman

namespace OasPostman

/-! ## Lemmas about `copyThrough`, `pyDictUpdate`, `pyIter`, `dedupAux` -/

/-- Short name for the key filter of the copy-through loop. -/
def excludedKey (k : String) : Bool :=
  k == "properties" || k == "required" || k == "allOf"

theorem copyThrough_cons {m : List (String × JSON)} {kv : String × JSON}
    {rest : List (String × JSON)} :
    copyThrough m (kv :: rest) =
      copyThrough (if excludedKey kv.1 then m else objInsert m kv.1 kv.2) rest := by
  simp only [copyThrough, List.foldl_cons, excludedKey]

theorem objGet_copyThrough_excluded {n : List (String × JSON)} {k : String}
    (hk : excludedKey k = true) :
    ∀ {m : List (String × JSON)}, objGet (copyThrough m n) k = objGet m k := by
  induction n with
  | nil => intro m; rfl
  | cons kv rest ih =>
    intro m
    rw [copyThrough_cons]
    by_cases he : excludedKey kv.1 = true
    · rw [if_pos he, ih]
    · rw [if_neg he, ih, objGet_objInsert_ne]
      intro hh
      subst hh
      exact he hk

theorem nodupKeysB_copyThrough {n : List (String × JSON)} :
    ∀ {m : List (String × JSON)}, nodupKeysB m = true →
      nodupKeysB (copyThrough m n) = true := by
  induction n with
  | nil => intro m h; exact h
  | cons kv rest ih =>
    intro m h
    rw [copyThrough_cons]
    by_cases he : excludedKey kv.1 = true
    · rw [if_pos he]; exact ih h
    · rw [if_neg he]; exact ih (nodupKeysB_objInsert h)

theorem mem_copyThrough {n : List (String × JSON)} {kv : String × JSON} :
    ∀ {m : List (String × JSON)}, kv ∈ copyThrough m n → kv ∈ m ∨ kv ∈ n := by
  induction n with
  | nil => intro m h; exact Or.inl h
  | cons kv0 rest ih =>
    intro m h
    rw [copyThrough_cons] at h
    by_cases he : excludedKey kv0.1 = true
    · rw [if_pos he] at h
      rcases ih h with h' | h'
      · exact Or.inl h'
      · exact Or.inr (by simp [h'])
    · rw [if_neg he] at h
      rcases ih h with h' | h'
      · rcases mem_objInsert h' with h'' | h''
        · exact Or.inr (by simp [h''])
        · exact Or.inl h''
      · exact Or.inr (by simp [h'])

theorem objGet_copyThrough {n : List (String × JSON)} {k : String}
    (hk : excludedKey k = false) (hnd : nodupKeysB n = true) :
    ∀ {m : List (String × JSON)},
      objGet (copyThrough m n) k =
        match objGet n k with
        | some v => some v
        | none => objGet m k := by
  induction n with
  | nil => intro m; rfl
  | cons kv0 rest ih =>
    intro m
    obtain ⟨k0, v0⟩ := kv0
    rw [nodupKeysB_cons] at hnd
    rw [copyThrough_cons]
    by_cases hkk : k0 = k
    · subst hkk
      rw [if_neg (by simp [hk])]
      have hrest : objGet rest k0 = none := by
        match hr : objGet rest k0 with
        | none => rfl
        | some w => exact absurd rfl (hnd.1 (k0, w) (objGet_mem hr))
      rw [ih hnd.2]
      simp [objGet, hrest, objGet_objInsert_self]
    · by_cases he : excludedKey k0 = true
      · rw [if_pos he, ih hnd.2]
        simp [objGet, if_neg hkk]
      · rw [if_neg he, ih hnd.2, objGet_objInsert_ne (fun hh => hkk hh.symm)]
        simp [objGet, if_neg hkk]

theorem pyPairsUpdate_nodup {xs : List JSON} :
    ∀ {acc out : List (String × JSON)}, pyPairsUpdate acc xs = .ok out →
      nodupKeysB acc = true → nodupKeysB out = true := by
  induction xs with
  | nil =>
    intro acc out h hacc
    simp only [pyPairsUpdate, Except.ok.injEq] at h
    exact h ▸ hacc
  | cons x rest ih =>
    intro acc out h hacc
    simp only [pyPairsUpdate] at h
    split at h
    · exact ih h (nodupKeysB_objInsert hacc)
    · exact absurd h (by simp)
    · exact absurd h (by simp)
    · exact absurd h (by simp)

theorem pyPairsUpdate_mem {xs : List JSON} :
    ∀ {acc out : List (String × JSON)} {kv : String × JSON},
      pyPairsUpdate acc xs = .ok out → kv ∈ out →
        kv ∈ acc ∨ .arr [.str kv.1, kv.2] ∈ xs := by
  induction xs with
  | nil =>
    intro acc out kv h hm
    simp only [pyPairsUpdate, Except.ok.injEq] at h
    exact Or.inl (h ▸ hm)
  | cons x rest ih =>
    intro acc out kv h hm
    simp only [pyPairsUpdate] at h
    split at h
    · rcases ih h hm with h' | h'
      · rcases mem_objInsert h' with h'' | h''
        · subst h''
          exact Or.inr (by simp)
        · exact Or.inl h''
      · exact Or.inr (by simp [h'])
    · exact absurd h (by simp)
    · exact absurd h (by simp)
    · exact absurd h (by simp)

theorem pyDictUpdate_nodup {pv : JSON} {acc out : List (String × JSON)}
    (h : pyDictUpdate acc pv = .ok out) (hacc : nodupKeysB acc = true) :
    nodupKeysB out = true := by
  match pv with
  | .obj kvs =>
    simp only [pyDictUpdate, Except.ok.injEq] at h
    exact h ▸ nodupKeysB_objUpdate hacc
  | .str s =>
    simp only [pyDictUpdate] at h
    split at h
    · simp only [Except.ok.injEq] at h
      exact h ▸ hacc
    · exact absurd h (by simp)
  | .null => simp [pyDictUpdate] at h
  | .bool b => simp [pyDictUpdate] at h
  | .num n => simp [pyDictUpdate] at h
  | .arr xs =>
    simp only [pyDictUpdate] at h
    exact pyPairsUpdate_nodup h hacc

end OasPostman

namespace OasPostman

theorem pyIter_falsy {sv : JSON} {l : List JSON} (h : pyIter sv = .ok l)
    (hf : pyTruthy sv = false) : l = [] := by
  match sv with
  | .arr xs =>
    simp only [pyIter, Except.ok.injEq] at h
    simp only [pyTruthy, Bool.not_eq_false'] at hf
    subst h
    exact List.isEmpty_iff.mp hf
  | .str s =>
    simp only [pyIter, Except.ok.injEq] at h
    simp only [pyTruthy] at hf
    have : s = "" := by
      by_contra hne
      simp [hne] at hf
    subst this h
    rfl
  | .obj ms =>
    simp only [pyIter, Except.ok.injEq] at h
    simp only [pyTruthy, Bool.not_eq_false'] at hf
    subst h
    simp [List.isEmpty_iff.mp hf]
  | .null => simp [pyIter] at h
  | .bool b => simp [pyIter] at h
  | .num n => simp [pyIter] at h

theorem scalarBEq_sound {x y : JSON} (h : scalarBEq x y = true) : x = y := by
  match x, y with
  | .null, .null => rfl
  | .bool a, .bool b => simp only [scalarBEq, beq_iff_eq] at h; rw [h]
  | .num a, .num b => simp only [scalarBEq, beq_iff_eq] at h; rw [h]
  | .str a, .str b => simp only [scalarBEq, beq_iff_eq] at h; rw [h]
  | .null, .bool b => simp [scalarBEq] at h
  | .null, .num n => simp [scalarBEq] at h
  | .null, .str s => simp [scalarBEq] at h
  | .null, .arr xs => simp [scalarBEq] at h
  | .null, .obj ms => simp [scalarBEq] at h
  | .bool a, .null => simp [scalarBEq] at h
  | .bool a, .num n => simp [scalarBEq] at h
  | .bool a, .str s => simp [scalarBEq] at h
  | .bool a, .arr xs => simp [scalarBEq] at h
  | .bool a, .obj ms => simp [scalarBEq] at h
  | .num a, .null => simp [scalarBEq] at h
  | .num a, .bool b => simp [scalarBEq] at h
  | .num a, .str s => simp [scalarBEq] at h
  | .num a, .arr xs => simp [scalarBEq] at h
  | .num a, .obj ms => simp [scalarBEq] at h
  | .str a, .null => simp [scalarBEq] at h
  | .str a, .bool b => simp [scalarBEq] at h
  | .str a, .num n => simp [scalarBEq] at h
  | .str a, .arr xs => simp [scalarBEq] at h
  | .str a, .obj ms => simp [scalarBEq] at h
  | .arr xs, y => simp [scalarBEq] at h
  | .obj ms, y => simp [scalarBEq] at h

theorem scalarBEq_refl {x : JSON} (h : pyHashable x = true) :
    scalarBEq x x = true := by
  match x with
  | .null => rfl
  | .bool b => simp [scalarBEq]
  | .num n => simp [scalarBEq]
  | .str s => simp [scalarBEq]
  | .arr xs => simp [pyHashable] at h
  | .obj ms => simp [pyHashable] at h

theorem any_scalarBEq_iff_mem {x : JSON} {seen : List JSON}
    (hx : pyHashable x = true) :
    seen.any (scalarBEq x) = true ↔ x ∈ seen := by
  constructor
  · intro h
    rcases List.any_eq_true.mp h with ⟨y, hy, hbeq⟩
    exact (scalarBEq_sound hbeq) ▸ hy
  · intro h
    exact List.any_eq_true.mpr ⟨x, h, scalarBEq_refl hx⟩

theorem mem_dedupAux_iff {xs : List JSON}
    (hall : ∀ y ∈ xs, pyHashable y = true) {v : JSON} :
    ∀ {seen : List JSON}, v ∈ dedupAux xs seen ↔ (v ∈ xs ∧ v ∉ seen) := by
  induction xs with
  | nil => intro seen; simp [dedupAux]
  | cons x rest ih =>
    intro seen
    have hx : pyHashable x = true := hall x (by simp)
    have hrest : ∀ y ∈ rest, pyHashable y = true :=
      fun y hy => hall y (by simp [hy])
    simp only [dedupAux]
    by_cases hseen : seen.any (scalarBEq x) = true
    · rw [if_pos hseen]
      rw [ih hrest]
      have hxseen : x ∈ seen := (any_scalarBEq_iff_mem hx).mp hseen
      constructor
      · rintro ⟨h1, h2⟩
        exact ⟨by simp [h1], h2⟩
      · rintro ⟨h1, h2⟩
        rcases List.mem_cons.mp h1 with h1 | h1
        · exact absurd (h1 ▸ hxseen) h2
        · exact ⟨h1, h2⟩
    · rw [if_neg hseen]
      have hxseen : x ∉ seen := fun hmem =>
        hseen ((any_scalarBEq_iff_mem hx).mpr hmem)
      constructor
      · intro h
        rcases List.mem_cons.mp h with h | h
        · exact ⟨by simp [h], h ▸ hxseen⟩
        · obtain ⟨h1, h2⟩ := (ih hrest).mp h
          simp only [List.mem_cons, not_or] at h2
          exact ⟨by simp [h1], h2.2⟩
      · rintro ⟨h1, h2⟩
        rcases List.mem_cons.mp h1 with h1 | h1
        · simp [h1]
        · by_cases hvx : v = x
          · simp [hvx]
          · refine List.mem_cons.mpr (Or.inr ((ih hrest).mpr ⟨h1, ?_⟩))
            simp [hvx, h2]

theorem mem_pySetList_iff {xs ys : List JSON} (h : pySetList xs = .ok ys)
    {v : JSON} : v ∈ ys ↔ v ∈ xs := by
  simp only [pySetList] at h
  split at h
  · next hall =>
    simp only [Except.ok.injEq] at h
    subst h
    rw [mem_dedupAux_iff (by simpa [List.all_eq_true] using hall)]
    simp
  · exact absurd h (by simp)

theorem dedupAux_nodup {xs : List JSON}
    (hall : ∀ y ∈ xs, pyHashable y = true) :
    ∀ {seen : List JSON}, (dedupAux xs seen).Nodup := by
  induction xs with
  | nil => intro seen; simp [dedupAux]
  | cons x rest ih =>
    intro seen
    have hrest : ∀ y ∈ rest, pyHashable y = true :=
      fun y hy => hall y (by simp [hy])
    simp only [dedupAux]
    split
    · exact ih hrest
    · refine List.nodup_cons.mpr ⟨fun hmem => ?_, ih hrest⟩
      obtain ⟨_, h2⟩ := (mem_dedupAux_iff hrest).mp hmem
      exact h2 (by simp)

theorem pySetList_nodup {xs ys : List JSON} (h : pySetList xs = .ok ys) :
    ys.Nodup := by
  simp only [pySetList] at h
  split at h
  · next hall =>
    simp only [Except.ok.injEq] at h
    subst h
    exact dedupAux_nodup (by simpa [List.all_eq_true] using hall)
  · exact absurd h (by simp)

end OasPostman

namespace OasPostman

/-! ## Fuel monotonicity of the normalizer -/

theorem normAllOfStep_mono {N N' : JSON → Except Err JSON}
    (hN : ∀ x r, N x = .ok r → N' x = .ok r) {st st' : MergeSt} {sub : JSON}
    (h : normAllOfStep N st sub = .ok st') :
    normAllOfStep N' st sub = .ok st' := by
  match sub with
  | .obj skvs =>
    simp only [normAllOfStep, bind_ok_iff] at h ⊢
    obtain ⟨n, hn, hrest⟩ := h
    exact ⟨n, hN _ _ hn, hrest⟩
  | .null => exact h
  | .bool b => exact h
  | .num n => exact h
  | .str s => exact h
  | .arr xs => exact h

theorem normAllOfFold_mono {N N' : JSON → Except Err JSON}
    (hN : ∀ x r, N x = .ok r → N' x = .ok r) {subs : List JSON} :
    ∀ {st st' : MergeSt}, normAllOfFold N subs st = .ok st' →
      normAllOfFold N' subs st = .ok st' := by
  induction subs with
  | nil => intro st st' h; exact h
  | cons sub rest ih =>
    intro st st' h
    simp only [normAllOfFold, bind_ok_iff] at h ⊢
    obtain ⟨st1, h1, h2⟩ := h
    exact ⟨st1, normAllOfStep_mono hN h1, ih h2⟩

theorem normPickGo_mono {N N' : JSON → Except Err JSON}
    (hN : ∀ x r, N x = .ok r → N' x = .ok r) {subs : List JSON} :
    ∀ {res : Option JSON}, normPickGo N subs = .ok res →
      normPickGo N' subs = .ok res := by
  induction subs with
  | nil => intro res h; exact h
  | cons sub rest ih =>
    intro res h
    match sub with
    | .obj skvs =>
      simp only [normPickGo, bind_ok_iff] at h ⊢
      obtain ⟨n, hn, hrest⟩ := h
      refine ⟨n, hN _ _ hn, ?_⟩
      match n, hrest with
      | .obj nkvs, hrest =>
        have hrest2 : (if (objGet nkvs "properties").isSome = true
            then (Except.ok (some (JSON.obj nkvs)) : Except Err (Option JSON))
            else normPickGo N rest) = .ok res := hrest
        show (if (objGet nkvs "properties").isSome = true
            then (Except.ok (some (JSON.obj nkvs)) : Except Err (Option JSON))
            else normPickGo N' rest) = .ok res
        by_cases hprops : (objGet nkvs "properties").isSome = true
        · rw [if_pos hprops] at hrest2 ⊢
          exact hrest2
        · rw [if_neg hprops] at hrest2 ⊢
          exact ih hrest2
      | .null, hrest => exact ih hrest
      | .bool b, hrest => exact ih hrest
      | .num n, hrest => exact ih hrest
      | .str s, hrest => exact ih hrest
      | .arr xs, hrest => exact ih hrest
    | .null => exact ih h
    | .bool b => exact ih h
    | .num n => exact ih h
    | .str s => exact ih h
    | .arr xs => exact ih h

theorem normPropsGo_mono {N N' : JSON → Except Err JSON}
    (hN : ∀ x r, N x = .ok r → N' x = .ok r) {ps : List (String × JSON)} :
    ∀ {acc out : List (String × JSON)}, normPropsGo N ps acc = .ok out →
      normPropsGo N' ps acc = .ok out := by
  induction ps with
  | nil => intro acc out h; exact h
  | cons kv rest ih =>
    intro acc out h
    obtain ⟨k, v⟩ := kv
    match v with
    | .obj vkvs =>
      simp only [normPropsGo, bind_ok_iff] at h ⊢
      obtain ⟨v', hv, hrest⟩ := h
      exact ⟨v', hN _ _ hv, ih hrest⟩
    | .null => exact ih h
    | .bool b => exact ih h
    | .num n => exact ih h
    | .str s => exact ih h
    | .arr xs => exact ih h

theorem normalizeF_mono {f : Nat} :
    ∀ {s t : JSON}, normalizeF f s = .ok t → normalizeF (f + 1) s = .ok t := by
  induction f with
  | zero => intro s t h; simp [normalizeF] at h
  | succ n ih =>
    intro s t h
    match s with
    | .null => exact h
    | .bool b => exact h
    | .num m => exact h
    | .str str => exact h
    | .arr xs => exact h
    | .obj ms =>
      simp only [normalizeF] at h ⊢
      split at h
      · next av heq =>
        simp only [bind_ok_iff] at h ⊢
        obtain ⟨subs, hsubs, st, hst, hfin⟩ := h
        exact ⟨subs, hsubs, st,
          normAllOfFold_mono (fun x r hx => ih hx) hst, hfin⟩
      · next heq =>
        split at h
        · next hcond =>
          rw [if_pos hcond]
          split at h
          · exact absurd h (by simp)
          · next sv hpo =>
            simp only [bind_ok_iff] at h ⊢
            obtain ⟨subs, hsubs, pick, hpick, hrest⟩ := h
            refine ⟨subs, hsubs, pick,
              normPickGo_mono (fun x r hx => ih hx) hpick, ?_⟩
            match pick, hrest with
            | some t0, hrest => exact hrest
            | none, hrest =>
              by_cases htr : pyTruthy sv = true
              · rw [htr] at hrest ⊢
                simp only [if_true] at hrest ⊢
                simp only [bind_ok_iff] at hrest ⊢
                obtain ⟨i0, hi0, hfin⟩ := hrest
                refine ⟨i0, hi0, ?_⟩
                match i0, hfin with
                | .obj zs, hfin => exact ih hfin
                | .null, hfin => exact hfin
                | .bool b, hfin => exact hfin
                | .num m, hfin => exact hfin
                | .str s2, hfin => exact hfin
                | .arr ys, hfin => exact hfin
              · rw [eq_false_of_ne_true htr] at hrest ⊢
                simp only [Bool.false_eq_true, if_false] at hrest ⊢
                exact hrest
        · next hcond =>
          rw [if_neg hcond]
          split at h
          · next ps hprops =>
            simp only [bind_ok_iff] at h ⊢
            obtain ⟨ps', hps, hfin⟩ := h
            exact ⟨ps', normPropsGo_mono (fun x r hx => ih hx) hps, hfin⟩
          · next hval hprops => exact absurd h (by simp)
          · next hprops => exact h

theorem normalizeF_le {f g : Nat} (hfg : f ≤ g) {s t : JSON}
    (h : normalizeF f s = .ok t) : normalizeF g s = .ok t := by
  induction hfg with
  | refl => exact h
  | step _ ih => exact normalizeF_mono ih

end OasPostman

namespace OasPostman

/-! ## Normalizer output invariants -/

theorem NDeep.obj_nodup {ms : List (String × JSON)} (h : NDeep (.obj ms)) :
    nodupKeysB ms = true := by
  cases h
  assumption

theorem NDeep.obj_mem {ms : List (String × JSON)} (h : NDeep (.obj ms))
    {kv : String × JSON} (hkv : kv ∈ ms) : NDeep kv.2 := by
  cases h
  next hvals => exact hvals kv hkv

theorem NDeep.arr_mem {xs : List JSON} (h : NDeep (.arr xs)) {x : JSON}
    (hx : x ∈ xs) : NDeep x := by
  cases h
  next hvals => exact hvals x hx

theorem NDeep_of_hashable {x : JSON} (h : pyHashable x = true) : NDeep x := by
  match x with
  | .null => exact NDeep.null
  | .bool b => exact NDeep.bool b
  | .num n => exact NDeep.num n
  | .str s => exact NDeep.str s
  | .arr xs => simp [pyHashable] at h
  | .obj ms => simp [pyHashable] at h

theorem pyIter_ndeep {v : JSON} {l : List JSON} (hnd : NDeep v)
    (h : pyIter v = .ok l) : ∀ x ∈ l, NDeep x := by
  match v with
  | .arr xs =>
    simp only [pyIter, Except.ok.injEq] at h
    subst h
    exact fun x hx => hnd.arr_mem hx
  | .str s =>
    simp only [pyIter, Except.ok.injEq] at h
    subst h
    intro x hx
    simp only [List.mem_map] at hx
    obtain ⟨c, _, hc⟩ := hx
    exact hc ▸ NDeep.str _
  | .obj ms =>
    simp only [pyIter, Except.ok.injEq] at h
    subst h
    intro x hx
    simp only [List.mem_map] at hx
    obtain ⟨kv, _, hc⟩ := hx
    exact hc ▸ NDeep.str _
  | .null => simp [pyIter] at h
  | .bool b => simp [pyIter] at h
  | .num n => simp [pyIter] at h

theorem pyIndex0_ndeep {v i0 : JSON} (hnd : NDeep v)
    (h : pyIndex0 v = .ok i0) : NDeep i0 := by
  match v with
  | .arr (x :: rest) =>
    simp only [pyIndex0, Except.ok.injEq] at h
    exact h ▸ hnd.arr_mem (by simp)
  | .arr [] => simp [pyIndex0] at h
  | .str s =>
    simp only [pyIndex0] at h
    split at h
    · simp only [Except.ok.injEq] at h
      exact h ▸ NDeep.str _
    · exact absurd h (by simp)
  | .obj ms => simp [pyIndex0] at h
  | .null => simp [pyIndex0] at h
  | .bool b => simp [pyIndex0] at h
  | .num n => simp [pyIndex0] at h

theorem pySetList_hashable {xs ys : List JSON} (h : pySetList xs = .ok ys) :
    ∀ y ∈ ys, pyHashable y = true := by
  intro y hy
  simp only [pySetList] at h
  split at h
  · next hall =>
    simp only [Except.ok.injEq] at h
    subst h
    have hall' : ∀ z ∈ xs, pyHashable z = true := by
      simpa [List.all_eq_true] using hall
    exact hall' y ((mem_dedupAux_iff hall').mp hy).1
  · exact absurd h (by simp)

theorem pyPairsUpdate_ndeep {xs : List JSON} (hval : ∀ x ∈ xs, NDeep x) :
    ∀ {acc out : List (String × JSON)}, pyPairsUpdate acc xs = .ok out →
      (∀ kv ∈ acc, NDeep kv.2) → ∀ kv ∈ out, NDeep kv.2 := by
  intro acc out h hacc kv hkv
  rcases pyPairsUpdate_mem h hkv with h' | h'
  · exact hacc kv h'
  · have h1 : NDeep (.arr [.str kv.1, kv.2]) := hval _ h'
    exact h1.arr_mem (by simp)

theorem pyDictUpdate_ndeep {pv : JSON} {acc out : List (String × JSON)}
    (h : pyDictUpdate acc pv = .ok out) (hacc : ∀ kv ∈ acc, NDeep kv.2)
    (hpv : NDeep pv) : ∀ kv ∈ out, NDeep kv.2 := by
  match pv with
  | .obj kvs =>
    simp only [pyDictUpdate, Except.ok.injEq] at h
    subst h
    intro kv hkv
    rcases mem_objUpdate hkv with h' | h'
    · exact hacc kv h'
    · exact hpv.obj_mem h'
  | .str s =>
    simp only [pyDictUpdate] at h
    split at h
    · simp only [Except.ok.injEq] at h
      exact h ▸ hacc
    · exact absurd h (by simp)
  | .arr xs =>
    simp only [pyDictUpdate] at h
    exact pyPairsUpdate_ndeep (fun x hx => hpv.arr_mem hx) h hacc
  | .null => simp [pyDictUpdate] at h
  | .bool b => simp [pyDictUpdate] at h
  | .num n => simp [pyDictUpdate] at h

theorem normPropsGo_nodup {N : JSON → Except Err JSON} {ps : List (String × JSON)} :
    ∀ {acc out : List (String × JSON)}, normPropsGo N ps acc = .ok out →
      nodupKeysB acc = true → nodupKeysB out = true := by
  induction ps with
  | nil =>
    intro acc out h hacc
    simp only [normPropsGo, Except.ok.injEq] at h
    exact h ▸ hacc
  | cons kv rest ih =>
    intro acc out h hacc
    obtain ⟨k, v⟩ := kv
    match v with
    | .obj vkvs =>
      simp only [normPropsGo, bind_ok_iff] at h
      obtain ⟨v', hv, hrest⟩ := h
      exact ih hrest (nodupKeysB_objInsert hacc)
    | .null => exact ih h (nodupKeysB_objInsert hacc)
    | .bool b => exact ih h (nodupKeysB_objInsert hacc)
    | .num n => exact ih h (nodupKeysB_objInsert hacc)
    | .str s => exact ih h (nodupKeysB_objInsert hacc)
    | .arr xs => exact ih h (nodupKeysB_objInsert hacc)

theorem normPropsGo_vals {N : JSON → Except Err JSON} {ps : List (String × JSON)} :
    ∀ {acc out : List (String × JSON)}, normPropsGo N ps acc = .ok out →
      ∀ kv ∈ out, kv ∈ acc ∨
        ∃ v0, (kv.1, v0) ∈ ps ∧
          ((isObjB v0 = true ∧ N v0 = .ok kv.2) ∨
            (isObjB v0 = false ∧ kv.2 = v0)) := by
  induction ps with
  | nil =>
    intro acc out h kv hkv
    simp only [normPropsGo, Except.ok.injEq] at h
    exact Or.inl (h ▸ hkv)
  | cons kv0 rest ih =>
    intro acc out h kv hkv
    obtain ⟨k, v⟩ := kv0
    have process : ∀ v' : JSON,
        ((isObjB v = true ∧ N v = .ok v') ∨ (isObjB v = false ∧ v' = v)) →
        normPropsGo N rest (objInsert acc k v') = .ok out →
        kv ∈ acc ∨
          ∃ v0, (kv.1, v0) ∈ (k, v) :: rest ∧
            ((isObjB v0 = true ∧ N v0 = .ok kv.2) ∨
              (isObjB v0 = false ∧ kv.2 = v0)) := by
      intro v' hv' hrest
      rcases ih hrest kv hkv with h' | h'
      · rcases mem_objInsert h' with h'' | h''
        · refine Or.inr ⟨v, by simp [h''], ?_⟩
          have hk2 : kv.2 = v' := by rw [h'']
          rcases hv' with ⟨ho, hn⟩ | ⟨ho, he⟩
          · exact Or.inl ⟨ho, hk2 ▸ hn⟩
          · exact Or.inr ⟨ho, he ▸ hk2⟩
        · exact Or.inl h''
      · obtain ⟨v0, hv0, hrest2⟩ := h'
        exact Or.inr ⟨v0, by simp [hv0], hrest2⟩
    match v, h with
    | .obj vkvs, h =>
      simp only [normPropsGo, bind_ok_iff] at h
      obtain ⟨v', hv, hrest⟩ := h
      exact process v' (Or.inl ⟨rfl, hv⟩) hrest
    | .null, h => exact process _ (Or.inr ⟨rfl, rfl⟩) h
    | .bool b, h => exact process _ (Or.inr ⟨rfl, rfl⟩) h
    | .num n, h => exact process _ (Or.inr ⟨rfl, rfl⟩) h
    | .str s, h => exact process _ (Or.inr ⟨rfl, rfl⟩) h
    | .arr xs, h => exact process _ (Or.inr ⟨rfl, rfl⟩) h

theorem normPropsGo_fixed {N : JSON → Except Err JSON} {ps : List (String × JSON)}
    (hnd : nodupKeysB ps = true)
    (hfix : ∀ kv ∈ ps, isObjB kv.2 = true → N kv.2 = .ok kv.2) :
    ∀ {acc : List (String × JSON)}, (∀ kv ∈ ps, objGet acc kv.1 = none) →
      normPropsGo N ps acc = .ok (acc ++ ps) := by
  induction ps with
  | nil => intro acc _; simp [normPropsGo]
  | cons kv0 rest ih =>
    intro acc hfresh
    obtain ⟨k, v⟩ := kv0
    rw [nodupKeysB_cons] at hnd
    have hne : ∀ kv' ∈ rest, objGet (objInsert acc k v) kv'.1 = none := by
      intro kv' hkv'
      rw [objGet_none_objInsert (hfresh (k, v) (by simp)), objGet_append,
        hfresh kv' (by simp [hkv'])]
      have hkne : kv'.1 ≠ k := hnd.1 kv' hkv'
      simp [objGet, if_neg (fun hh : k = kv'.1 => hkne hh.symm)]
    have hrest := ih hnd.2
      (fun kv' hkv' => hfix kv' (by simp [hkv'])) hne
    have happ : objInsert acc k v ++ rest = acc ++ (k, v) :: rest := by
      rw [objGet_none_objInsert (hfresh (k, v) (by simp))]
      simp
    match v, hrest with
    | .obj vkvs, hrest =>
      have hv : N (.obj vkvs) = .ok (.obj vkvs) :=
        hfix (k, .obj vkvs) (by simp) rfl
      simp only [normPropsGo, bind_ok_iff]
      exact ⟨.obj vkvs, hv, by rw [hrest, happ]⟩
    | .null, hrest => show normPropsGo N rest _ = _; rw [hrest, happ]
    | .bool b, hrest => show normPropsGo N rest _ = _; rw [hrest, happ]
    | .num n, hrest => show normPropsGo N rest _ = _; rw [hrest, happ]
    | .str s, hrest => show normPropsGo N rest _ = _; rw [hrest, happ]
    | .arr xs, hrest => show normPropsGo N rest _ = _; rw [hrest, happ]

end OasPostman

namespace OasPostman

/-- Invariant of every value returned by `_normalize_schema`: a mapping
output never carries `allOf`; if it carries `anyOf`/`oneOf` then the
`schemas = anyOf or oneOf` expression is a falsy empty iterable (which is
what made the normalizer return it unchanged); otherwise its
`properties`, when present, is a mapping whose mapping-valued entries are
fixed points of the normalizer at fuel `f`. -/
def OutOK (f : Nat) : JSON → Prop
  | .obj tms =>
      objGet tms "allOf" = none ∧
      (((objGet tms "anyOf").isSome || (objGet tms "oneOf").isSome) = true →
        ∃ sv, pyOr (objGet tms "anyOf") (objGet tms "oneOf") = some sv ∧
          pyIter sv = .ok [] ∧ pyTruthy sv = false) ∧
      (objGet tms "anyOf" = none → objGet tms "oneOf" = none →
        (objGet tms "properties" = none ∨
          ∃ ps, objGet tms "properties" = some (.obj ps) ∧
            ∀ kv ∈ ps, isObjB kv.2 = true → normalizeF f kv.2 = .ok kv.2))
  | _ => True

theorem OutOK_mono {f : Nat} {t : JSON} (h : OutOK f t) : OutOK (f + 1) t := by
  match t with
  | .obj tms =>
    obtain ⟨h1, h2, h3⟩ := h
    refine ⟨h1, h2, fun ha ho => ?_⟩
    rcases h3 ha ho with h' | ⟨ps, hps, hfix⟩
    · exact Or.inl h'
    · exact Or.inr ⟨ps, hps, fun kv hkv hobj => normalizeF_mono (hfix kv hkv hobj)⟩
  | .null => trivial
  | .bool b => trivial
  | .num n => trivial
  | .str s => trivial
  | .arr xs => trivial

/-- A value satisfying the output invariant is a fixed point of the
normalizer. -/
theorem normalizeF_fix {f : Nat} {t : JSON} (ho : OutOK f t) (hnd : NDeep t) :
    normalizeF (f + 1) t = .ok t := by
  match t with
  | .null => rfl
  | .bool b => rfl
  | .num n => rfl
  | .str s => rfl
  | .arr xs => rfl
  | .obj tms =>
    obtain ⟨hallOf, hany, hprops⟩ := ho
    simp only [normalizeF, hallOf]
    by_cases hcond : ((objGet tms "anyOf").isSome || (objGet tms "oneOf").isSome) = true
    · obtain ⟨sv, hpo, hiter, hfal⟩ := hany hcond
      rw [if_pos hcond, hpo]
      simp only [hiter, bind, Except.bind, normPickGo, hfal, Bool.false_eq_true,
        if_false]
    · rw [if_neg hcond]
      simp only [Bool.or_eq_true, Option.isSome_iff_exists, not_or, not_exists] at hcond
      have hanyN : objGet tms "anyOf" = none := by
        match hx : objGet tms "anyOf" with
        | none => rfl
        | some w => exact absurd hx (hcond.1 w)
      have honeN : objGet tms "oneOf" = none := by
        match hx : objGet tms "oneOf" with
        | none => rfl
        | some w => exact absurd hx (hcond.2 w)
      rcases hprops hanyN honeN with hnone | ⟨ps, hps, hfix⟩
      · rw [hnone]
      · rw [hps]
        have hndps : nodupKeysB ps = true :=
          (hnd.obj_mem (objGet_mem hps)).obj_nodup
        have hgo : normPropsGo (normalizeF f) ps [] = .ok ps := by
          have := @normPropsGo_fixed (normalizeF f) ps hndps hfix [] (fun kv _ => rfl)
          simpa using this
        simp only [bind_ok_iff]
        exact ⟨ps, hgo, by rw [objInsert_eq_of_get hps]⟩

end OasPostman

namespace OasPostman

/-- Invariant carried through the `allOf` merge loop: accumulators have
unique keys and deep-unique values; the copied-through mapping never
holds `properties`/`required`/`allOf`; its `anyOf`/`oneOf` keys, if any,
make `anyOf or oneOf` a falsy empty iterable; and while no `anyOf`/`oneOf`
key has been copied, every mapping-valued merged property is a normalizer
fixed point. -/
def MergeInv (f : Nat) (st : MergeSt) : Prop :=
  nodupKeysB st.merged = true ∧
  nodupKeysB st.mprops = true ∧
  (∀ kv ∈ st.merged, NDeep kv.2) ∧
  (∀ kv ∈ st.mprops, NDeep kv.2) ∧
  objGet st.merged "properties" = none ∧
  objGet st.merged "required" = none ∧
  objGet st.merged "allOf" = none ∧
  (((objGet st.merged "anyOf").isSome || (objGet st.merged "oneOf").isSome) = true →
    ∃ sv, pyOr (objGet st.merged "anyOf") (objGet st.merged "oneOf") = some sv ∧
      pyIter sv = .ok [] ∧ pyTruthy sv = false) ∧
  (objGet st.merged "anyOf" = none → objGet st.merged "oneOf" = none →
    ∀ kv ∈ st.mprops, isObjB kv.2 = true → normalizeF f kv.2 = .ok kv.2)

theorem pyOr_falsy_inversion {a : Option JSON} {b : Option JSON} {sv : JSON}
    (h : pyOr a b = some sv) (hf : pyTruthy sv = false) :
    (∀ x, a = some x → pyTruthy x = false) ∧
      (a = none → b = some sv) ∧ ((∃ x, a = some x) → b = some sv) := by
  match a with
  | none =>
    simp only [pyOr] at h
    refine ⟨?_, ?_, ?_⟩
    · intro x hx
      cases hx
    · intro _
      exact h
    · rintro ⟨x, hx⟩
      cases hx
  | some x =>
    simp only [pyOr] at h
    by_cases htx : pyTruthy x = true
    · rw [if_pos htx] at h
      simp only [Option.some.injEq] at h
      exact absurd (h ▸ htx) (by simp [hf])
    · rw [if_neg htx] at h
      refine ⟨?_, ?_, ?_⟩
      · intro y hy
        simp only [Option.some.injEq] at hy
        exact hy ▸ eq_false_of_ne_true htx
      · intro hc
        cases hc
      · intro _
        exact h

theorem merged_anyOf_inv {merged nkvs : List (String × JSON)}
    (hndn : nodupKeysB nkvs = true)
    (hOutAny : ((objGet nkvs "anyOf").isSome || (objGet nkvs "oneOf").isSome) = true →
      ∃ sv, pyOr (objGet nkvs "anyOf") (objGet nkvs "oneOf") = some sv ∧
        pyIter sv = .ok [] ∧ pyTruthy sv = false)
    (hMergedAny : ((objGet merged "anyOf").isSome || (objGet merged "oneOf").isSome) = true →
      ∃ sv, pyOr (objGet merged "anyOf") (objGet merged "oneOf") = some sv ∧
        pyIter sv = .ok [] ∧ pyTruthy sv = false) :
    ((objGet (copyThrough merged nkvs) "anyOf").isSome ||
        (objGet (copyThrough merged nkvs) "oneOf").isSome) = true →
      ∃ sv, pyOr (objGet (copyThrough merged nkvs) "anyOf")
          (objGet (copyThrough merged nkvs) "oneOf") = some sv ∧
        pyIter sv = .ok [] ∧ pyTruthy sv = false := by
  have hA := objGet_copyThrough (n := nkvs) (k := "anyOf") (m := merged)
    (by rfl) hndn
  have hO := objGet_copyThrough (n := nkvs) (k := "oneOf") (m := merged)
    (by rfl) hndn
  intro hcond
  match haN : objGet nkvs "anyOf" with
  | some a =>
    obtain ⟨svn, hpo, hit, hf⟩ := hOutAny (by simp [haN])
    rw [haN] at hpo
    obtain ⟨hfalsy, _, hbn⟩ := pyOr_falsy_inversion hpo hf
    have hta : pyTruthy a = false := hfalsy a rfl
    have hoN : objGet nkvs "oneOf" = some svn := hbn ⟨a, rfl⟩
    rw [haN] at hA
    rw [hoN] at hO
    refine ⟨svn, ?_, hit, hf⟩
    rw [hA, hO]
    simp [pyOr, hta]
  | none =>
    rw [haN] at hA
    match hoN : objGet nkvs "oneOf" with
    | some o =>
      obtain ⟨svn, hpo, hit, hf⟩ := hOutAny (by simp [hoN])
      rw [haN, hoN] at hpo
      simp only [pyOr, Option.some.injEq] at hpo
      subst hpo
      rw [hoN] at hO
      match haM : objGet merged "anyOf" with
      | none =>
        refine ⟨o, ?_, hit, hf⟩
        rw [hA, hO, haM]
        simp [pyOr]
      | some am =>
        obtain ⟨svm, hpom, _, hfm⟩ := hMergedAny (by simp [haM])
        rw [haM] at hpom
        have htam : pyTruthy am = false :=
          (pyOr_falsy_inversion hpom hfm).1 am rfl
        refine ⟨o, ?_, hit, hf⟩
        rw [hA, hO, haM]
        simp [pyOr, htam]
    | none =>
      rw [hoN] at hO
      rw [hA, hO] at hcond ⊢
      exact hMergedAny hcond

theorem normAllOfStep_inv {f : Nat}
    (hN : ∀ x r, normalizeF f x = .ok r → NDeep x → OutOK f r ∧ NDeep r)
    {st st' : MergeSt} {sub : JSON} (hsub : NDeep sub)
    (h : normAllOfStep (normalizeF f) st sub = .ok st')
    (hinv : MergeInv f st) : MergeInv f st' := by
  obtain ⟨hnd1, hnd2, hdeep1, hdeep2, hprM, hreqM, hallM, hanyM, hfixM⟩ := hinv
  match sub with
  | .null => exact (show st' = st by simp only [normAllOfStep, pure, Except.pure, Except.ok.injEq] at h; exact h.symm) ▸
      ⟨hnd1, hnd2, hdeep1, hdeep2, hprM, hreqM, hallM, hanyM, hfixM⟩
  | .bool b => exact (show st' = st by simp only [normAllOfStep, pure, Except.pure, Except.ok.injEq] at h; exact h.symm) ▸
      ⟨hnd1, hnd2, hdeep1, hdeep2, hprM, hreqM, hallM, hanyM, hfixM⟩
  | .num n => exact (show st' = st by simp only [normAllOfStep, pure, Except.pure, Except.ok.injEq] at h; exact h.symm) ▸
      ⟨hnd1, hnd2, hdeep1, hdeep2, hprM, hreqM, hallM, hanyM, hfixM⟩
  | .str s => exact (show st' = st by simp only [normAllOfStep, pure, Except.pure, Except.ok.injEq] at h; exact h.symm) ▸
      ⟨hnd1, hnd2, hdeep1, hdeep2, hprM, hreqM, hallM, hanyM, hfixM⟩
  | .arr xs => exact (show st' = st by simp only [normAllOfStep, pure, Except.pure, Except.ok.injEq] at h; exact h.symm) ▸
      ⟨hnd1, hnd2, hdeep1, hdeep2, hprM, hreqM, hallM, hanyM, hfixM⟩
  | .obj skvs =>
    simp only [normAllOfStep, bind_ok_iff] at h
    obtain ⟨n, hn, hrest⟩ := h
    match n, hrest with
    | .null, hrest => exact (show st' = st by simp only [pure, Except.pure, Except.ok.injEq] at hrest; exact hrest.symm) ▸
        ⟨hnd1, hnd2, hdeep1, hdeep2, hprM, hreqM, hallM, hanyM, hfixM⟩
    | .bool b, hrest => exact (show st' = st by simp only [pure, Except.pure, Except.ok.injEq] at hrest; exact hrest.symm) ▸
        ⟨hnd1, hnd2, hdeep1, hdeep2, hprM, hreqM, hallM, hanyM, hfixM⟩
    | .num m, hrest => exact (show st' = st by simp only [pure, Except.pure, Except.ok.injEq] at hrest; exact hrest.symm) ▸
        ⟨hnd1, hnd2, hdeep1, hdeep2, hprM, hreqM, hallM, hanyM, hfixM⟩
    | .str s2, hrest => exact (show st' = st by simp only [pure, Except.pure, Except.ok.injEq] at hrest; exact hrest.symm) ▸
        ⟨hnd1, hnd2, hdeep1, hdeep2, hprM, hreqM, hallM, hanyM, hfixM⟩
    | .arr ys, hrest => exact (show st' = st by simp only [pure, Except.pure, Except.ok.injEq] at hrest; exact hrest.symm) ▸
        ⟨hnd1, hnd2, hdeep1, hdeep2, hprM, hreqM, hallM, hanyM, hfixM⟩
    | .obj nkvs, hrest =>
      obtain ⟨hOut, hNDn⟩ := hN _ _ hn hsub
      obtain ⟨hnAll, hnAny, hnProps⟩ := hOut
      have hndn : nodupKeysB nkvs = true := hNDn.obj_nodup
      have hA := objGet_copyThrough (n := nkvs) (k := "anyOf")
        (m := st.merged) (by rfl) hndn
      have hO := objGet_copyThrough (n := nkvs) (k := "oneOf")
        (m := st.merged) (by rfl) hndn
      have core : ∀ mp mreq2,
          (objGet nkvs "properties" = none ∧ mp = st.mprops ∨
            ∃ pv, objGet nkvs "properties" = some pv ∧
              pyDictUpdate st.mprops pv = .ok mp) →
          MergeInv f ⟨copyThrough st.merged nkvs, mp, mreq2⟩ := by
        intro mp mreq2 hmp
        have hmpnodup : nodupKeysB mp = true := by
          rcases hmp with ⟨_, rfl⟩ | ⟨pv, _, hupd⟩
          · exact hnd2
          · exact pyDictUpdate_nodup hupd hnd2
        have hmpdeep : ∀ kv ∈ mp, NDeep kv.2 := by
          rcases hmp with ⟨_, rfl⟩ | ⟨pv, hpv0, hupd⟩
          · exact hdeep2
          · exact pyDictUpdate_ndeep hupd hdeep2 (hNDn.obj_mem (objGet_mem hpv0))
        refine ⟨nodupKeysB_copyThrough hnd1, hmpnodup, ?_, hmpdeep,
          ?_, ?_, ?_, ?_, ?_⟩
        · intro kv hkv
          rcases mem_copyThrough hkv with h' | h'
          · exact hdeep1 kv h'
          · exact hNDn.obj_mem h'
        · exact (objGet_copyThrough_excluded (by rfl)).trans hprM
        · exact (objGet_copyThrough_excluded (by rfl)).trans hreqM
        · exact (objGet_copyThrough_excluded (by rfl)).trans hallM
        · exact merged_anyOf_inv hndn hnAny hanyM
        · intro hanyC honeC kv hkv hobj
          simp only at hanyC honeC
          rw [hA] at hanyC
          rw [hO] at honeC
          have haN : objGet nkvs "anyOf" = none := by
            match hx : objGet nkvs "anyOf" with
            | none => rfl
            | some w => rw [hx] at hanyC; exact absurd hanyC (by simp)
          have hoN : objGet nkvs "oneOf" = none := by
            match hx : objGet nkvs "oneOf" with
            | none => rfl
            | some w => rw [hx] at honeC; exact absurd honeC (by simp)
          rw [haN] at hanyC
          rw [hoN] at honeC
          have hold := hfixM hanyC honeC
          rcases hmp with ⟨hpv0, rfl⟩ | ⟨pv, hpv0, hupd⟩
          · exact hold kv hkv hobj
          · rcases hnProps haN hoN with hpnone | ⟨ps, hps, hfixN⟩
            · rw [hpv0] at hpnone
              exact absurd hpnone (by simp)
            · rw [hpv0] at hps
              simp only [Option.some.injEq] at hps
              subst hps
              simp only [pyDictUpdate, Except.ok.injEq] at hupd
              subst hupd
              rcases mem_objUpdate hkv with h' | h'
              · exact hold kv h' hobj
              · exact hfixN kv h' hobj
      match hpv : objGet nkvs "properties" with
      | none =>
        simp only [hpv] at hrest
        match hrv : objGet nkvs "required" with
        | none =>
          simp only [hrv, pure_bind] at hrest
          simp only [pure, Except.pure, Except.ok.injEq] at hrest
          exact hrest ▸ core _ _ (Or.inl ⟨hpv, rfl⟩)
        | some rv =>
          simp only [hrv, pure_bind] at hrest
          simp only [bind_ok_iff] at hrest
          obtain ⟨l, hl, hpure⟩ := hrest
          simp only [pure, Except.pure, Except.ok.injEq] at hpure
          exact hpure ▸ core _ _ (Or.inl ⟨hpv, rfl⟩)
      | some pv =>
        simp only [hpv] at hrest
        simp only [bind_ok_iff] at hrest
        obtain ⟨mp, hmp, hrest2⟩ := hrest
        match hrv : objGet nkvs "required" with
        | none =>
          simp only [hrv, pure_bind] at hrest2
          simp only [pure, Except.pure, Except.ok.injEq] at hrest2
          exact hrest2 ▸ core _ _ (Or.inr ⟨pv, hpv, hmp⟩)
        | some rv =>
          simp only [hrv, pure_bind] at hrest2
          simp only [bind_ok_iff] at hrest2
          obtain ⟨l, hl, hpure⟩ := hrest2
          simp only [pure, Except.pure, Except.ok.injEq] at hpure
          exact hpure ▸ core _ _ (Or.inr ⟨pv, hpv, hmp⟩)

theorem normAllOfFold_inv {f : Nat}
    (hN : ∀ x r, normalizeF f x = .ok r → NDeep x → OutOK f r ∧ NDeep r) :
    ∀ {subs : List JSON} {st st' : MergeSt},
      (∀ x ∈ subs, NDeep x) →
      normAllOfFold (normalizeF f) subs st = .ok st' →
      MergeInv f st → MergeInv f st' := by
  intro subs
  induction subs with
  | nil =>
    intro st st' _ h hinv
    simp only [normAllOfFold, Except.ok.injEq] at h
    exact h ▸ hinv
  | cons sub rest ih =>
    intro st st' hdeep h hinv
    simp only [normAllOfFold, bind_ok_iff] at h
    obtain ⟨st1, h1, h2⟩ := h
    exact ih (fun x hx => hdeep x (by simp [hx])) h2
      (normAllOfStep_inv hN (hdeep sub (by simp)) h1 hinv)

theorem normPickGo_ok_some {N : JSON → Except Err JSON} :
    ∀ {subs : List JSON} {t : JSON},
      normPickGo N subs = .ok (some t) →
      ∃ s, s ∈ subs ∧ N s = .ok t := by
  intro subs
  induction subs with
  | nil =>
    intro t h
    simp [normPickGo] at h
  | cons sub rest ih =>
    intro t h
    simp only [normPickGo] at h
    split at h
    · next skvs =>
      simp only [bind_ok_iff] at h
      obtain ⟨n, hn, hrest⟩ := h
      split at hrest
      · next nkvs =>
        split at hrest
        · next hp =>
          simp only [Except.ok.injEq, Option.some.injEq] at hrest
          exact ⟨.obj skvs, by simp, hrest ▸ hn⟩
        · next hp =>
          obtain ⟨s, hs, hNs⟩ := ih hrest
          exact ⟨s, by simp [hs], hNs⟩
      · obtain ⟨s, hs, hNs⟩ := ih hrest
        exact ⟨s, by simp [hs], hNs⟩
    · obtain ⟨s, hs, hNs⟩ := ih h
      exact ⟨s, by simp [hs], hNs⟩

theorem normAllOfFinal_out {f : Nat} {st : MergeSt} {t : JSON}
    (h : normAllOfFinal st = .ok t) (hinv : MergeInv f st) :
    OutOK f t ∧ NDeep t := by
  obtain ⟨hnd1, hnd2, hdeep1, hdeep2, hprM, hreqM, hallM, hanyM, hfixM⟩ := hinv
  have hm1 : ∃ m1,
      (if st.mprops.isEmpty then st.merged
       else objInsert st.merged "properties" (.obj st.mprops)) = m1 ∧
      nodupKeysB m1 = true ∧ (∀ kv ∈ m1, NDeep kv.2) ∧
      objGet m1 "allOf" = none ∧ objGet m1 "required" = none ∧
      objGet m1 "anyOf" = objGet st.merged "anyOf" ∧
      objGet m1 "oneOf" = objGet st.merged "oneOf" ∧
      (objGet m1 "properties" = none ∨
        objGet m1 "properties" = some (.obj st.mprops)) := by
    by_cases he : st.mprops.isEmpty
    · exact ⟨st.merged, by rw [if_pos he], hnd1, hdeep1, hallM, hreqM, rfl, rfl,
        Or.inl hprM⟩
    · refine ⟨objInsert st.merged "properties" (.obj st.mprops),
        by rw [if_neg he], nodupKeysB_objInsert hnd1, ?_, ?_, ?_, ?_, ?_,
        Or.inr objGet_objInsert_self⟩
      · intro kv hkv
        rcases mem_objInsert hkv with h' | h'
        · subst h'
          exact NDeep.obj _ hnd2 hdeep2
        · exact hdeep1 kv h'
      · exact (objGet_objInsert_ne (by decide)).trans hallM
      · exact (objGet_objInsert_ne (by decide)).trans hreqM
      · exact objGet_objInsert_ne (by decide)
      · exact objGet_objInsert_ne (by decide)
  obtain ⟨m1, hm1eq, hm1nd, hm1deep, hm1all, hm1req, hm1any, hm1one, hm1props⟩ := hm1
  simp only [normAllOfFinal, hm1eq] at h
  by_cases hre : st.mreq.isEmpty
  · rw [if_pos hre] at h
    simp only [Except.ok.injEq] at h
    subst h
    refine ⟨⟨hm1all, ?_, ?_⟩, NDeep.obj _ hm1nd hm1deep⟩
    · rw [hm1any, hm1one]
      exact hanyM
    · intro ha ho
      rcases hm1props with hp | hp
      · exact Or.inl hp
      · exact Or.inr ⟨st.mprops, hp, hfixM (hm1any ▸ ha) (hm1one ▸ ho)⟩
  · rw [if_neg hre] at h
    simp only [bind_ok_iff] at h
    obtain ⟨dr, hdr, hpure⟩ := h
    simp only [pure, Except.pure, Except.ok.injEq] at hpure
    subst hpure
    have hgall : objGet (objInsert m1 "required" (.arr dr)) "allOf" =
        objGet m1 "allOf" := objGet_objInsert_ne (by decide)
    have hgany : objGet (objInsert m1 "required" (.arr dr)) "anyOf" =
        objGet m1 "anyOf" := objGet_objInsert_ne (by decide)
    have hgone : objGet (objInsert m1 "required" (.arr dr)) "oneOf" =
        objGet m1 "oneOf" := objGet_objInsert_ne (by decide)
    have hgprops : objGet (objInsert m1 "required" (.arr dr)) "properties" =
        objGet m1 "properties" := objGet_objInsert_ne (by decide)
    refine ⟨⟨hgall.trans hm1all, ?_, ?_⟩, ?_⟩
    · rw [hgany, hgone, hm1any, hm1one]
      exact hanyM
    · intro ha ho
      rw [hgprops]
      rcases hm1props with hp | hp
      · exact Or.inl hp
      · exact Or.inr ⟨st.mprops, hp,
          hfixM (hm1any ▸ hgany ▸ ha) (hm1one ▸ hgone ▸ ho)⟩
    · refine NDeep.obj _ (nodupKeysB_objInsert hm1nd) ?_
      intro kv hkv
      rcases mem_objInsert hkv with h' | h'
      · subst h'
        exact NDeep.arr _ (fun x hx =>
          NDeep_of_hashable (pySetList_hashable hdr x hx))
      · exact hm1deep kv h'

/-- Main output lemma of the normalizer: a successful normalization of a
Python-representable value yields a Python-representable value satisfying
the output invariant (no `allOf` key; any `anyOf`/`oneOf` key is falsy
and emptily iterable; mapping-valued merged properties are fixed points). -/
theorem normalizeF_out : ∀ (f : Nat) {s t : JSON},
    normalizeF f s = .ok t → NDeep s → OutOK f t ∧ NDeep t := by
  intro f
  induction f with
  | zero =>
    intro s t h _
    simp [normalizeF] at h
  | succ f ih =>
    intro s t h hnd
    match s, h, hnd with
    | .null, h, hnd =>
      simp only [normalizeF, Except.ok.injEq] at h
      subst h
      exact ⟨trivial, hnd⟩
    | .bool b, h, hnd =>
      simp only [normalizeF, Except.ok.injEq] at h
      subst h
      exact ⟨trivial, hnd⟩
    | .num n, h, hnd =>
      simp only [normalizeF, Except.ok.injEq] at h
      subst h
      exact ⟨trivial, hnd⟩
    | .str s0, h, hnd =>
      simp only [normalizeF, Except.ok.injEq] at h
      subst h
      exact ⟨trivial, hnd⟩
    | .arr xs, h, hnd =>
      simp only [normalizeF, Except.ok.injEq] at h
      subst h
      exact ⟨trivial, hnd⟩
    | .obj ms, h, hnd =>
      simp only [normalizeF] at h
      match hall : objGet ms "allOf" with
      | some av =>
        simp only [hall, bind_ok_iff] at h
        obtain ⟨subs, hsubs, st, hfold, hfinal⟩ := h
        have hMI := normAllOfFold_inv (fun x r hx hnx => ih hx hnx)
          (pyIter_ndeep (hnd.obj_mem (objGet_mem hall)) hsubs) hfold
          ⟨rfl, rfl, by simp, by simp, rfl, rfl, rfl, by simp [objGet], by simp⟩
        obtain ⟨ho, hn2⟩ := normAllOfFinal_out hfinal hMI
        exact ⟨OutOK_mono ho, hn2⟩
      | none =>
        simp only [hall] at h
        by_cases hcond :
            ((objGet ms "anyOf").isSome || (objGet ms "oneOf").isSome) = true
        · rw [if_pos hcond] at h
          match hpo : pyOr (objGet ms "anyOf") (objGet ms "oneOf") with
          | none =>
            rw [hpo] at h
            exact Except.noConfusion h
          | some sv =>
            have hndsv : NDeep sv := by
              match hA : objGet ms "anyOf" with
              | some a =>
                rw [hA] at hpo
                simp only [pyOr] at hpo
                split at hpo
                · simp only [Option.some.injEq] at hpo
                  exact hpo ▸ hnd.obj_mem (objGet_mem hA)
                · exact hnd.obj_mem (objGet_mem hpo)
              | none =>
                rw [hA] at hpo
                simp only [pyOr] at hpo
                exact hnd.obj_mem (objGet_mem hpo)
            simp only [hpo, bind_ok_iff] at h
            obtain ⟨subs, hsubs, pick, hpick, h3⟩ := h
            match pick, hpick, h3 with
            | some t0, hpick, h3 =>
              have h4 : Except.ok t0 = Except.ok t := h3
              simp only [Except.ok.injEq] at h4
              obtain ⟨s0, hs0mem, hs0⟩ := normPickGo_ok_some hpick
              have hres := ih hs0 (pyIter_ndeep hndsv hsubs s0 hs0mem)
              exact h4 ▸ ⟨OutOK_mono hres.1, hres.2⟩
            | none, hpick, h3 =>
              have h4 : (if pyTruthy sv then do
                  let i0 ← pyIndex0 sv
                  match i0 with
                  | .obj _ => normalizeF f i0
                  | _ => .ok i0
                else .ok (.obj ms)) = .ok t := h3
              by_cases htr : pyTruthy sv = true
              · rw [if_pos htr] at h4
                simp only [bind_ok_iff] at h4
                obtain ⟨i0, hi0, h5⟩ := h4
                have hndi0 : NDeep i0 := pyIndex0_ndeep hndsv hi0
                match i0, h5, hndi0 with
                | .obj ikvs, h5, hndi0 =>
                  have h6 : normalizeF f (.obj ikvs) = .ok t := h5
                  have hres := ih h6 hndi0
                  exact ⟨OutOK_mono hres.1, hres.2⟩
                | .null, h5, hndi0 =>
                  have h6 : Except.ok JSON.null = Except.ok t := h5
                  simp only [Except.ok.injEq] at h6
                  subst h6
                  exact ⟨trivial, hndi0⟩
                | .bool b, h5, hndi0 =>
                  have h6 : Except.ok (JSON.bool b) = Except.ok t := h5
                  simp only [Except.ok.injEq] at h6
                  subst h6
                  exact ⟨trivial, hndi0⟩
                | .num n, h5, hndi0 =>
                  have h6 : Except.ok (JSON.num n) = Except.ok t := h5
                  simp only [Except.ok.injEq] at h6
                  subst h6
                  exact ⟨trivial, hndi0⟩
                | .str s1, h5, hndi0 =>
                  have h6 : Except.ok (JSON.str s1) = Except.ok t := h5
                  simp only [Except.ok.injEq] at h6
                  subst h6
                  exact ⟨trivial, hndi0⟩
                | .arr ys, h5, hndi0 =>
                  have h6 : Except.ok (JSON.arr ys) = Except.ok t := h5
                  simp only [Except.ok.injEq] at h6
                  subst h6
                  exact ⟨trivial, hndi0⟩
              · rw [if_neg htr] at h4
                simp only [Except.ok.injEq] at h4
                subst h4
                have h: subs = [] := pyIter_falsy hsubs (eq_false_of_ne_true htr)
                refine ⟨⟨hall, ?_, ?_⟩, hnd⟩
                · intro _
                  exact ⟨sv, hpo, h ▸ hsubs, eq_false_of_ne_true htr⟩
                · intro ha ho
                  rw [ha, ho] at hcond
                  simp at hcond
        · rw [if_neg hcond] at h
          match hp : objGet ms "properties" with
          | none =>
            simp only [hp, Except.ok.injEq] at h
            subst h
            exact ⟨⟨hall, fun hc => absurd hc hcond, fun _ _ => Or.inl hp⟩, hnd⟩
          | some pv =>
            rw [hp] at h
            match pv, hp, h with
            | .obj ps, hp, h =>
              simp only [bind_ok_iff] at h
              obtain ⟨ps2, hps2, hpure⟩ := h
              have hpure2 : Except.ok
                  (JSON.obj (objInsert ms "properties" (.obj ps2))) =
                  Except.ok t := hpure
              simp only [Except.ok.injEq] at hpure2
              subst hpure2
              have hndps : NDeep (.obj ps) := hnd.obj_mem (objGet_mem hp)
              have hvals : ∀ kv ∈ ps2, kv ∈ ([] : List (String × JSON)) ∨
                  ∃ v0, (kv.1, v0) ∈ ps ∧
                    ((isObjB v0 = true ∧ normalizeF f v0 = .ok kv.2) ∨
                      (isObjB v0 = false ∧ kv.2 = v0)) :=
                normPropsGo_vals hps2
              have hdeep2 : ∀ kv ∈ ps2, NDeep kv.2 := by
                intro kv hkv
                rcases hvals kv hkv with h' | ⟨v0, hv0, h'⟩
                · cases h'
                · rcases h' with ⟨_, hnm⟩ | ⟨_, he⟩
                  · exact (ih hnm (hndps.obj_mem hv0)).2
                  · exact he ▸ hndps.obj_mem hv0
              have hfix2 : ∀ kv ∈ ps2, isObjB kv.2 = true →
                  normalizeF (f + 1) kv.2 = .ok kv.2 := by
                intro kv hkv hobj
                rcases hvals kv hkv with h' | ⟨v0, hv0, h'⟩
                · cases h'
                · rcases h' with ⟨_, hnm⟩ | ⟨hno, he⟩
                  · obtain ⟨ho2, hn2⟩ := ih hnm (hndps.obj_mem hv0)
                    exact normalizeF_fix ho2 hn2
                  · rw [he] at hobj
                    exact absurd hobj (by simp [hno])
              have hgall : objGet (objInsert ms "properties" (.obj ps2))
                  "allOf" = objGet ms "allOf" := objGet_objInsert_ne (by decide)
              have hgany : objGet (objInsert ms "properties" (.obj ps2))
                  "anyOf" = objGet ms "anyOf" := objGet_objInsert_ne (by decide)
              have hgone : objGet (objInsert ms "properties" (.obj ps2))
                  "oneOf" = objGet ms "oneOf" := objGet_objInsert_ne (by decide)
              refine ⟨⟨hgall.trans hall, ?_, ?_⟩, ?_⟩
              · intro hc
                rw [hgany, hgone] at hc
                exact absurd hc hcond
              · intro _ _
                exact Or.inr ⟨ps2, objGet_objInsert_self, hfix2⟩
              · refine NDeep.obj _ (nodupKeysB_objInsert hnd.obj_nodup) ?_
                intro kv hkv
                rcases mem_objInsert hkv with h' | h'
                · subst h'
                  exact NDeep.obj _ (normPropsGo_nodup hps2 rfl) hdeep2
                · exact hnd.obj_mem h'
            | .null, hp, h => exact Except.noConfusion h
            | .bool b, hp, h => exact Except.noConfusion h
            | .num n, hp, h => exact Except.noConfusion h
            | .str s1, hp, h => exact Except.noConfusion h
            | .arr ys, hp, h => exact Except.noConfusion h

theorem objGet_eq_none_iff {l : List (String × JSON)} {k : String} :
    objGet l k = none ↔ ∀ kv ∈ l, kv.1 ≠ k := by
  induction l with
  | nil => simp [objGet]
  | cons kv0 rest ih =>
    obtain ⟨k0, v0⟩ := kv0
    simp only [objGet]
    by_cases hk : k0 = k
    · rw [if_pos hk]
      simp only [List.forall_mem_cons]
      constructor
      · intro h
        cases h
      · intro h
        exact absurd hk h.1
    · rw [if_neg hk, ih]
      simp only [List.forall_mem_cons]
      exact ⟨fun h => ⟨hk, h⟩, fun h => h.2⟩

theorem copyThrough_eq_append :
    ∀ {m acc : List (String × JSON)},
      (∀ kv ∈ m, objGet acc kv.1 = none) → nodupKeysB m = true →
      copyThrough acc m =
        acc ++ m.filter (fun kv => ! excludedKey kv.1) := by
  intro m
  induction m with
  | nil =>
    intro acc _ _
    simp [copyThrough]
  | cons kv0 rest ih =>
    intro acc hfresh hnd
    obtain ⟨k, v⟩ := kv0
    rw [nodupKeysB_cons] at hnd
    rw [copyThrough_cons]
    by_cases hex : excludedKey k = true
    · rw [if_pos hex, ih (fun kv hkv => hfresh kv (by simp [hkv])) hnd.2,
        List.filter_cons]
      simp [hex]
    · rw [if_neg hex]
      have hfr : ∀ kv ∈ rest, objGet (objInsert acc k v) kv.1 = none := by
        intro kv hkv
        rw [objGet_none_objInsert (hfresh (k, v) (by simp)), objGet_append,
          hfresh kv (by simp [hkv])]
        have hkne : kv.1 ≠ k := hnd.1 kv hkv
        simp [objGet, if_neg (fun hh : k = kv.1 => hkne hh.symm)]
      rw [ih hfr hnd.2, objGet_none_objInsert (hfresh (k, v) (by simp)),
        List.filter_cons]
      simp [hex]

theorem normAllOfFold_single {norm : JSON → Except Err JSON} {c : JSON}
    {st : MergeSt} :
    normAllOfFold norm [c] st = normAllOfStep norm st c := by
  cases hs : normAllOfStep norm st c with
  | ok st2 =>
    simp only [normAllOfFold, hs]
    rfl
  | error e =>
    simp only [normAllOfFold, hs]
    rfl

theorem normAllOfFold_append {norm : JSON → Except Err JSON} :
    ∀ {xs ys : List JSON} {st : MergeSt},
      normAllOfFold norm (xs ++ ys) st =
        normAllOfFold norm xs st >>= normAllOfFold norm ys := by
  intro xs
  induction xs with
  | nil =>
    intro ys st
    simp only [List.nil_append, normAllOfFold]
    rfl
  | cons x rest ih =>
    intro ys st
    simp only [List.cons_append, normAllOfFold]
    cases hs : normAllOfStep norm st x with
    | ok st2 =>
      show (Except.ok st2 >>= fun st3 => normAllOfFold norm (rest ++ ys) st3) =
        (Except.ok st2 >>= fun st3 => normAllOfFold norm rest st3) >>=
          normAllOfFold norm ys
      show normAllOfFold norm (rest ++ ys) st2 =
        normAllOfFold norm rest st2 >>= normAllOfFold norm ys
      exact ih
    | error e => rfl

theorem objGet_objUpdate {ps : List (String × JSON)} {k : String} :
    ∀ {acc : List (String × JSON)}, nodupKeysB ps = true →
      objGet (objUpdate acc ps) k =
        match objGet ps k with
        | some v => some v
        | none => objGet acc k := by
  induction ps with
  | nil =>
    intro acc _
    rfl
  | cons kv0 rest ih =>
    intro acc hnd
    obtain ⟨k0, v0⟩ := kv0
    rw [nodupKeysB_cons] at hnd
    have hstep : objUpdate acc ((k0, v0) :: rest) =
        objUpdate (objInsert acc k0 v0) rest := rfl
    rw [hstep, ih hnd.2]
    simp only [objGet]
    by_cases hk : k0 = k
    · subst hk
      have hrest : objGet rest k0 = none :=
        objGet_eq_none_iff.mpr (fun kv hkv => hnd.1 kv hkv)
      simp [hrest, objGet_objInsert_self]
    · rw [if_neg hk]
      cases hg : objGet rest k with
      | some v => rfl
      | none => exact objGet_objInsert_ne (fun hh : k = k0 => hk hh.symm)

/-- Bounded decidable test for [[NDeep]]. -/
def NDeepB : Nat → JSON → Bool
  | 0, _ => false
  | fuel+1, .obj ms => nodupKeysB ms && ms.all (fun kv => NDeepB fuel kv.2)
  | fuel+1, .arr xs => xs.all (fun x => NDeepB fuel x)
  | _+1, _ => true

theorem NDeepB_sound : ∀ {fuel : Nat} {x : JSON},
    NDeepB fuel x = true → NDeep x := by
  intro fuel
  induction fuel with
  | zero =>
    intro x h
    simp [NDeepB] at h
  | succ f ih =>
    intro x h
    match x with
    | .null => exact NDeep.null
    | .bool b => exact NDeep.bool b
    | .num n => exact NDeep.num n
    | .str s => exact NDeep.str s
    | .arr xs =>
      simp only [NDeepB, List.all_eq_true] at h
      exact NDeep.arr _ (fun y hy => ih (h y hy))
    | .obj ms =>
      simp only [NDeepB, Bool.and_eq_true, List.all_eq_true] at h
      exact NDeep.obj _ h.1 (fun kv hkv => ih (h.2 kv hkv))

/-- The `required` entries one `allOf` branch contributes to the merge:
the iteration of the normalized sub-schema mapping's `required` value. -/
def branchReq (norm : JSON → Except Err JSON) (sub : JSON) : List JSON :=
  match sub with
  | .obj skvs =>
      match norm (.obj skvs) with
      | .ok (.obj nkvs) =>
          match objGet nkvs "required" with
          | some rv =>
              match pyIter rv with
              | .ok l => l
              | .error _ => []
          | none => []
      | _ => []
  | _ => []

theorem ok_bind {α β : Type} {a : α} {f : α → Except Err β} :
    (Except.ok a >>= f) = f a := rfl

theorem normAllOfStep_obj_eval {norm : JSON → Except Err JSON}
    {skvs nkvs : List (String × JSON)}
    (hn : norm (.obj skvs) = .ok (.obj nkvs)) (st : MergeSt) :
    normAllOfStep norm st (.obj skvs) = (do
      let mprops2 ←
        match objGet nkvs "properties" with
        | some pv => pyDictUpdate st.mprops pv
        | none => pure st.mprops
      let mreq2 ←
        match objGet nkvs "required" with
        | some rv => do
            let l ← pyIter rv
            pure (st.mreq ++ l)
        | none => pure st.mreq
      pure ⟨copyThrough st.merged nkvs, mprops2, mreq2⟩) := by
  have hn2 : norm (.obj skvs) = pure (.obj nkvs) := hn
  simp only [normAllOfStep, hn2, pure_bind]

theorem normAllOfStep_congr {norm1 norm2 : JSON → Except Err JSON}
    (hag : ∀ x r, norm1 x = .ok r → norm2 x = .ok r)
    {m mp : List (String × JSON)} {mr1 : List JSON} (mr2 : List JSON)
    {sub : JSON} {st1 : MergeSt}
    (h : normAllOfStep norm1 ⟨m, mp, mr1⟩ sub = .ok st1) :
    ∃ mm pp, st1 = ⟨mm, pp, mr1 ++ branchReq norm1 sub⟩ ∧
      normAllOfStep norm2 ⟨m, mp, mr2⟩ sub =
        .ok ⟨mm, pp, mr2 ++ branchReq norm1 sub⟩ := by
  match sub with
  | .null =>
    have h1 : st1 = ⟨m, mp, mr1⟩ := by
      simp only [normAllOfStep, pure, Except.pure, Except.ok.injEq] at h
      exact h.symm
    exact ⟨m, mp, by simp [h1, branchReq],
      by simp [normAllOfStep, branchReq, pure, Except.pure]⟩
  | .bool b =>
    have h1 : st1 = ⟨m, mp, mr1⟩ := by
      simp only [normAllOfStep, pure, Except.pure, Except.ok.injEq] at h
      exact h.symm
    exact ⟨m, mp, by simp [h1, branchReq],
      by simp [normAllOfStep, branchReq, pure, Except.pure]⟩
  | .num n =>
    have h1 : st1 = ⟨m, mp, mr1⟩ := by
      simp only [normAllOfStep, pure, Except.pure, Except.ok.injEq] at h
      exact h.symm
    exact ⟨m, mp, by simp [h1, branchReq],
      by simp [normAllOfStep, branchReq, pure, Except.pure]⟩
  | .str s =>
    have h1 : st1 = ⟨m, mp, mr1⟩ := by
      simp only [normAllOfStep, pure, Except.pure, Except.ok.injEq] at h
      exact h.symm
    exact ⟨m, mp, by simp [h1, branchReq],
      by simp [normAllOfStep, branchReq, pure, Except.pure]⟩
  | .arr xs =>
    have h1 : st1 = ⟨m, mp, mr1⟩ := by
      simp only [normAllOfStep, pure, Except.pure, Except.ok.injEq] at h
      exact h.symm
    exact ⟨m, mp, by simp [h1, branchReq],
      by simp [normAllOfStep, branchReq, pure, Except.pure]⟩
  | .obj skvs =>
    have hex : ∃ n, norm1 (.obj skvs) = .ok n := by
      simp only [normAllOfStep, bind_ok_iff] at h
      obtain ⟨n, hn, _⟩ := h
      exact ⟨n, hn⟩
    obtain ⟨n, hn⟩ := hex
    have hn2 := hag _ _ hn
    match n, hn, hn2 with
    | .null, hn, hn2 =>
      have hn3 : norm1 (.obj skvs) = pure .null := hn
      have hn4 : norm2 (.obj skvs) = pure .null := hn2
      have h1 : st1 = ⟨m, mp, mr1⟩ := by
        simp only [normAllOfStep, hn3, pure_bind, ok_bind, pure, Except.pure,
          Except.ok.injEq] at h
        exact h.symm
      have hbr : branchReq norm1 (.obj skvs) = [] := by
        simp [branchReq, hn]
      exact ⟨m, mp, by simp [h1, hbr],
        by simp [normAllOfStep, hn4, pure_bind, ok_bind, hbr, pure, Except.pure]⟩
    | .bool b, hn, hn2 =>
      have hn3 : norm1 (.obj skvs) = pure (.bool b) := hn
      have hn4 : norm2 (.obj skvs) = pure (.bool b) := hn2
      have h1 : st1 = ⟨m, mp, mr1⟩ := by
        simp only [normAllOfStep, hn3, pure_bind, ok_bind, pure, Except.pure,
          Except.ok.injEq] at h
        exact h.symm
      have hbr : branchReq norm1 (.obj skvs) = [] := by
        simp [branchReq, hn]
      exact ⟨m, mp, by simp [h1, hbr],
        by simp [normAllOfStep, hn4, pure_bind, ok_bind, hbr, pure, Except.pure]⟩
    | .num nn, hn, hn2 =>
      have hn3 : norm1 (.obj skvs) = pure (.num nn) := hn
      have hn4 : norm2 (.obj skvs) = pure (.num nn) := hn2
      have h1 : st1 = ⟨m, mp, mr1⟩ := by
        simp only [normAllOfStep, hn3, pure_bind, ok_bind, pure, Except.pure,
          Except.ok.injEq] at h
        exact h.symm
      have hbr : branchReq norm1 (.obj skvs) = [] := by
        simp [branchReq, hn]
      exact ⟨m, mp, by simp [h1, hbr],
        by simp [normAllOfStep, hn4, pure_bind, ok_bind, hbr, pure, Except.pure]⟩
    | .str s, hn, hn2 =>
      have hn3 : norm1 (.obj skvs) = pure (.str s) := hn
      have hn4 : norm2 (.obj skvs) = pure (.str s) := hn2
      have h1 : st1 = ⟨m, mp, mr1⟩ := by
        simp only [normAllOfStep, hn3, pure_bind, ok_bind, pure, Except.pure,
          Except.ok.injEq] at h
        exact h.symm
      have hbr : branchReq norm1 (.obj skvs) = [] := by
        simp [branchReq, hn]
      exact ⟨m, mp, by simp [h1, hbr],
        by simp [normAllOfStep, hn4, pure_bind, ok_bind, hbr, pure, Except.pure]⟩
    | .arr xs, hn, hn2 =>
      have hn3 : norm1 (.obj skvs) = pure (.arr xs) := hn
      have hn4 : norm2 (.obj skvs) = pure (.arr xs) := hn2
      have h1 : st1 = ⟨m, mp, mr1⟩ := by
        simp only [normAllOfStep, hn3, pure_bind, ok_bind, pure, Except.pure,
          Except.ok.injEq] at h
        exact h.symm
      have hbr : branchReq norm1 (.obj skvs) = [] := by
        simp [branchReq, hn]
      exact ⟨m, mp, by simp [h1, hbr],
        by simp [normAllOfStep, hn4, pure_bind, ok_bind, hbr, pure, Except.pure]⟩
    | .obj nkvs, hn, hn2 =>
      rw [normAllOfStep_obj_eval hn] at h
      rw [normAllOfStep_obj_eval hn2]
      have hbr : branchReq norm1 (.obj skvs) =
          (match objGet nkvs "required" with
            | some rv =>
                match pyIter rv with
                | .ok l => l
                | .error _ => []
            | none => []) := by
        simp [branchReq, hn]
      match hpv : objGet nkvs "properties" with
      | none =>
        simp only [hpv, pure_bind, ok_bind] at h ⊢
        match hrv : objGet nkvs "required" with
        | none =>
          simp only [hrv, pure_bind, ok_bind, pure, Except.pure, Except.ok.injEq] at h ⊢
          rw [hbr]
          simp only [hrv]
          exact ⟨copyThrough m nkvs, mp, by rw [← h]; simp, by simp⟩
        | some rv =>
          simp only [hrv, bind_ok_iff, ok_bind, pure, Except.pure,
            Except.ok.injEq] at h
          obtain ⟨l, hl, hp⟩ := h
          rw [hbr]
          have hl2 : pyIter rv = pure l := hl
          simp only [hrv, hl2, pure_bind, ok_bind, pure, Except.pure]
          exact ⟨copyThrough m nkvs, mp, hp.symm, by rfl⟩
      | some pv =>
        simp only [hpv, bind_ok_iff, ok_bind] at h
        obtain ⟨mp2, hmp2, h⟩ := h
        have hmp3 : pyDictUpdate mp pv = pure mp2 := hmp2
        simp only [hpv, hmp3, pure_bind, ok_bind]
        match hrv : objGet nkvs "required" with
        | none =>
          simp only [hrv, pure_bind, ok_bind, pure, Except.pure, Except.ok.injEq] at h ⊢
          rw [hbr]
          simp only [hrv]
          exact ⟨copyThrough m nkvs, mp2, by rw [← h]; simp, by simp⟩
        | some rv =>
          simp only [hrv, bind_ok_iff, ok_bind, pure, Except.pure,
            Except.ok.injEq] at h
          obtain ⟨l, hl, hp⟩ := h
          rw [hbr]
          have hl2 : pyIter rv = pure l := hl
          simp only [hrv, hl2, pure_bind, ok_bind, pure, Except.pure]
          exact ⟨copyThrough m nkvs, mp2, hp.symm, by rfl⟩

/-- `{'allOf': branches}`, the schema shape whose merge C4 concerns. -/
def allOfJ (branches : List JSON) : JSON := .obj [("allOf", .arr branches)]

/-- The `properties` value of a merged mapping (none for non-mappings). -/
def jsonProps : JSON → Option JSON
  | .obj kvs => objGet kvs "properties"
  | _ => none

/-- The `required` entries of a merged mapping (empty when absent or not
a list). -/
def jsonRequired : JSON → List JSON
  | .obj kvs =>
      match objGet kvs "required" with
      | some (.arr l) => l
      | _ => []
  | _ => []

theorem normAllOfFinal_shape {st : MergeSt} {t : JSON}
    (h : normAllOfFinal st = .ok t)
    (hpr : objGet st.merged "properties" = none)
    (hrq : objGet st.merged "required" = none) :
    jsonProps t =
      (if st.mprops.isEmpty then none else some (.obj st.mprops)) ∧
    ((st.mreq.isEmpty = true ∧ jsonRequired t = []) ∨
      (st.mreq.isEmpty = false ∧ pySetList st.mreq = .ok (jsonRequired t))) := by
  have hm1p : objGet (if st.mprops.isEmpty then st.merged
      else objInsert st.merged "properties" (.obj st.mprops)) "properties" =
      (if st.mprops.isEmpty then none else some (.obj st.mprops)) := by
    by_cases he : st.mprops.isEmpty
    · rw [if_pos he, if_pos he, hpr]
    · rw [if_neg he, if_neg he]
      exact objGet_objInsert_self
  have hm1r : objGet (if st.mprops.isEmpty then st.merged
      else objInsert st.merged "properties" (.obj st.mprops)) "required" =
      none := by
    by_cases he : st.mprops.isEmpty
    · rw [if_pos he, hrq]
    · rw [if_neg he]
      exact (objGet_objInsert_ne (by decide)).trans hrq
  simp only [normAllOfFinal] at h
  by_cases hre : st.mreq.isEmpty
  · rw [if_pos hre] at h
    simp only [Except.ok.injEq] at h
    subst h
    refine ⟨?_, Or.inl ⟨hre, ?_⟩⟩
    · simpa [jsonProps] using hm1p
    · simp only [jsonRequired, hm1r]
  · rw [if_neg hre] at h
    simp only [bind_ok_iff] at h
    obtain ⟨dr, hdr, hp⟩ := h
    simp only [pure, Except.pure, Except.ok.injEq] at hp
    subst hp
    refine ⟨?_, Or.inr ⟨eq_false_of_ne_true hre, ?_⟩⟩
    · simp only [jsonProps]
      rw [objGet_objInsert_ne (by decide), hm1p]
    · simp only [jsonRequired, objGet_objInsert_self]
      exact hdr

theorem normAllOfStep_of_final {f : Nat} {norm : JSON → Except Err JSON}
    {st : MergeSt} {M : JSON}
    (hinv : MergeInv f st) (hfin : normAllOfFinal st = .ok M)
    (hfix : norm M = .ok M) :
    ∃ mreq2, normAllOfStep norm ⟨[], [], []⟩ M =
        .ok ⟨st.merged, st.mprops, mreq2⟩ ∧
      (∀ v, v ∈ mreq2 ↔ v ∈ st.mreq) ∧ mreq2.isEmpty = st.mreq.isEmpty := by
  obtain ⟨hnd1, hnd2, hdeep1, hdeep2, hprM, hreqM, hallM, hanyM, hfixM⟩ := hinv
  have hmerged_filter :
      st.merged.filter (fun kv => ! excludedKey kv.1) = st.merged := by
    rw [List.filter_eq_self]
    intro kv hkv
    have h1 := objGet_eq_none_iff.mp hprM kv hkv
    have h2 := objGet_eq_none_iff.mp hreqM kv hkv
    have h3 := objGet_eq_none_iff.mp hallM kv hkv
    simp [excludedKey, h1, h2, h3]
  have hexp : excludedKey "properties" = true := rfl
  have hexr : excludedKey "required" = true := rfl
  simp only [normAllOfFinal] at hfin
  by_cases hmp : st.mprops.isEmpty
  · rw [if_pos hmp] at hfin
    have hmpnil : st.mprops = [] := List.isEmpty_iff.mp hmp
    by_cases hre : st.mreq.isEmpty
    · rw [if_pos hre] at hfin
      simp only [Except.ok.injEq] at hfin
      subst hfin
      have hct : copyThrough [] st.merged = st.merged := by
        rw [@copyThrough_eq_append st.merged [] (fun kv _ => rfl) hnd1, hmerged_filter]
        simp
      refine ⟨[], ?_, ?_, ?_⟩
      · rw [normAllOfStep_obj_eval hfix]
        simp only [hprM, hreqM, pure_bind, ok_bind, pure, Except.pure, hct,
          hmpnil]
      · intro v
        simp [List.isEmpty_iff.mp hre]
      · simp [hre]
    · rw [if_neg hre] at hfin
      simp only [bind_ok_iff] at hfin
      obtain ⟨dr, hdr, hp⟩ := hfin
      simp only [pure, Except.pure, Except.ok.injEq] at hp
      subst hp
      have hne : st.mreq ≠ [] := by
        intro hnil
        rw [hnil] at hre
        exact hre rfl
      have hm2 : objInsert st.merged "required" (.arr dr) =
          st.merged ++ [("required", .arr dr)] := objGet_none_objInsert hreqM
      have hnd2b : nodupKeysB (objInsert st.merged "required" (.arr dr)) =
          true := nodupKeysB_objInsert hnd1
      have hct : copyThrough [] (objInsert st.merged "required" (.arr dr)) =
          st.merged := by
        rw [@copyThrough_eq_append (objInsert st.merged "required" (.arr dr))
          [] (fun kv _ => rfl) hnd2b, hm2, List.filter_append, hmerged_filter]
        simp [hexr]
      have hgp : objGet (objInsert st.merged "required" (.arr dr))
          "properties" = none := (objGet_objInsert_ne (by decide)).trans hprM
      have hgr : objGet (objInsert st.merged "required" (.arr dr))
          "required" = some (.arr dr) := objGet_objInsert_self
      refine ⟨dr, ?_, ?_, ?_⟩
      · rw [normAllOfStep_obj_eval hfix]
        simp only [hgp, hgr, pyIter, pure_bind, ok_bind, pure, Except.pure,
          hct, hmpnil, List.nil_append]
      · intro v
        rw [mem_pySetList_iff hdr]
      · obtain ⟨x, hx⟩ := List.exists_mem_of_ne_nil st.mreq hne
        have hxdr : x ∈ dr := (mem_pySetList_iff hdr).mpr hx
        have hdrne : dr ≠ [] := by
          intro hnil
          rw [hnil] at hxdr
          cases hxdr
        have h1 : dr.isEmpty = false := by
          match hq : dr with
          | [] => exact absurd rfl hdrne
          | a :: l => rfl
        have h2 : st.mreq.isEmpty = false := by
          match hq : st.mreq with
          | [] => exact absurd hq hne
          | a :: l => rfl
        rw [h1, h2]
  · rw [if_neg hmp] at hfin
    have hm1 : objInsert st.merged "properties" (.obj st.mprops) =
        st.merged ++ [("properties", .obj st.mprops)] :=
      objGet_none_objInsert hprM
    have hnd1b : nodupKeysB (objInsert st.merged "properties"
        (.obj st.mprops)) = true := nodupKeysB_objInsert hnd1
    have hct1 : copyThrough []
        (objInsert st.merged "properties" (.obj st.mprops)) = st.merged := by
      rw [@copyThrough_eq_append (objInsert st.merged "properties"
          (.obj st.mprops)) [] (fun kv _ => rfl) hnd1b, hm1,
        List.filter_append, hmerged_filter]
      simp [hexp]
    have hgp1 : objGet (objInsert st.merged "properties" (.obj st.mprops))
        "properties" = some (.obj st.mprops) := objGet_objInsert_self
    have hgr1 : objGet (objInsert st.merged "properties" (.obj st.mprops))
        "required" = none := (objGet_objInsert_ne (by decide)).trans hreqM
    have hdu : pyDictUpdate [] (.obj st.mprops) = pure st.mprops := by
      show Except.ok (objUpdate [] st.mprops) = pure st.mprops
      rw [objUpdate_nil hnd2]
      rfl
    by_cases hre : st.mreq.isEmpty
    · rw [if_pos hre] at hfin
      simp only [Except.ok.injEq] at hfin
      subst hfin
      refine ⟨[], ?_, ?_, ?_⟩
      · rw [normAllOfStep_obj_eval hfix]
        simp only [hgp1, hgr1, hdu, pure_bind, ok_bind, pure, Except.pure,
          hct1]
      · intro v
        simp [List.isEmpty_iff.mp hre]
      · simp [hre]
    · rw [if_neg hre] at hfin
      simp only [bind_ok_iff] at hfin
      obtain ⟨dr, hdr, hp⟩ := hfin
      simp only [pure, Except.pure, Except.ok.injEq] at hp
      subst hp
      have hne : st.mreq ≠ [] := by
        intro hnil
        rw [hnil] at hre
        exact hre rfl
      have hm2b : objInsert (objInsert st.merged "properties"
            (.obj st.mprops)) "required" (.arr dr) =
          objInsert st.merged "properties" (.obj st.mprops) ++
            [("required", .arr dr)] := objGet_none_objInsert hgr1
      have hnd2c : nodupKeysB (objInsert (objInsert st.merged "properties"
          (.obj st.mprops)) "required" (.arr dr)) = true :=
        nodupKeysB_objInsert hnd1b
      have hct2 : copyThrough [] (objInsert (objInsert st.merged "properties"
          (.obj st.mprops)) "required" (.arr dr)) = st.merged := by
        rw [@copyThrough_eq_append (objInsert (objInsert st.merged
            "properties" (.obj st.mprops)) "required" (.arr dr)) []
          (fun kv _ => rfl) hnd2c, hm2b, hm1,
          List.filter_append, List.filter_append, hmerged_filter]
        simp [hexp, hexr]
      have hgp2 : objGet (objInsert (objInsert st.merged "properties"
          (.obj st.mprops)) "required" (.arr dr)) "properties" =
          some (.obj st.mprops) :=
        (objGet_objInsert_ne (by decide)).trans hgp1
      have hgr2 : objGet (objInsert (objInsert st.merged "properties"
          (.obj st.mprops)) "required" (.arr dr)) "required" =
          some (.arr dr) := objGet_objInsert_self
      refine ⟨dr, ?_, ?_, ?_⟩
      · rw [normAllOfStep_obj_eval hfix]
        simp only [hgp2, hgr2, hdu, pyIter, pure_bind, ok_bind, pure,
          Except.pure, hct2, List.nil_append]
      · intro v
        rw [mem_pySetList_iff hdr]
      · obtain ⟨x, hx⟩ := List.exists_mem_of_ne_nil st.mreq hne
        have hxdr : x ∈ dr := (mem_pySetList_iff hdr).mpr hx
        have hdrne : dr ≠ [] := by
          intro hnil
          rw [hnil] at hxdr
          cases hxdr
        have h1 : dr.isEmpty = false := by
          match hq : dr with
          | [] => exact absurd rfl hdrne
          | a :: l => rfl
        have h2 : st.mreq.isEmpty = false := by
          match hq : st.mreq with
          | [] => exact absurd hq hne
          | a :: l => rfl
        rw [h1, h2]

theorem normalizeF_allOfJ {f : Nat} {branches : List JSON} :
    normalizeF (f + 1) (allOfJ branches) =
      (normAllOfFold (normalizeF f) branches ⟨[], [], []⟩ >>=
        normAllOfFinal) := by
  have hg : objGet [("allOf", JSON.arr branches)] "allOf" =
      some (.arr branches) := rfl
  simp only [allOfJ, normalizeF, hg, pyIter, ok_bind]

/-- **C4.** The `allOf` merge is associative over property sets: for
branch schemas `A`, `B`, `C` (Python-representable, i.e. deeply
key-unique), when `{'allOf': [A, B]}` normalizes to `M` and
`{'allOf': [A, B, C]}` normalizes to `X`, then `{'allOf': [M, C]}`
normalizes to some `Y` whose `properties` mapping equals that of `X`
exactly (so later branches win on same-named conflicts in both runs
alike, witnessed by the last conjunct: any property of the normalized
last branch `C` appears verbatim in the merged mapping), and whose
`required` entries form the same duplicate-free set as `X`, namely the
union of the `required` sets contributed by the three branches. -/
theorem c4_allof_merge_associative {f : Nat} {A B C M X : JSON}
    (hA : NDeep A) (hB : NDeep B) (hC : NDeep C)
    (hM : normalizeF (f + 1) (allOfJ [A, B]) = .ok M)
    (hX : normalizeF (f + 1) (allOfJ [A, B, C]) = .ok X) :
    ∃ Y, normalizeF (f + 2) (allOfJ [M, C]) = .ok Y ∧
      jsonProps Y = jsonProps X ∧
      (∀ v, v ∈ jsonRequired Y ↔ v ∈ jsonRequired X) ∧
      (jsonRequired Y).Nodup ∧ (jsonRequired X).Nodup ∧
      (∀ v, v ∈ jsonRequired X ↔
        (v ∈ branchReq (normalizeF f) A ∨ v ∈ branchReq (normalizeF f) B ∨
          v ∈ branchReq (normalizeF f) C)) ∧
      (∀ nkvs pkvs k v, normalizeF f C = .ok (.obj nkvs) →
        objGet nkvs "properties" = some (.obj pkvs) →
        objGet pkvs k = some v →
        ∃ xkvs, jsonProps X = some (.obj xkvs) ∧ objGet xkvs k = some v) := by
  have hgAB : objGet [("allOf", JSON.arr [A, B])] "allOf" =
      some (.arr [A, B]) := rfl
  have hgABC : objGet [("allOf", JSON.arr [A, B, C])] "allOf" =
      some (.arr [A, B, C]) := rfl
  simp only [allOfJ, normalizeF, hgAB, pyIter, ok_bind, bind_ok_iff] at hM
  simp only [allOfJ, normalizeF, hgABC, pyIter, ok_bind, bind_ok_iff] at hX
  obtain ⟨stAB, hfoldAB, hfinAB⟩ := hM
  obtain ⟨stABC, hfoldABC0, hfinABC⟩ := hX
  have hfoldABC : normAllOfStep (normalizeF f) stAB C = .ok stABC := by
    have h1 : normAllOfFold (normalizeF f) ([A, B] ++ [C]) ⟨[], [], []⟩ =
        .ok stABC := hfoldABC0
    rw [normAllOfFold_append, hfoldAB, ok_bind, normAllOfFold_single] at h1
    exact h1
  have hN : ∀ x r, normalizeF f x = .ok r → NDeep x → OutOK f r ∧ NDeep r :=
    fun x r hx hnx => normalizeF_out f hx hnx
  have hdAB : ∀ x ∈ [A, B], NDeep x := by
    intro x hx
    simp only [List.mem_cons, List.not_mem_nil, or_false] at hx
    rcases hx with rfl | rfl
    · exact hA
    · exact hB
  have hinit : MergeInv f ⟨[], [], []⟩ :=
    ⟨rfl, rfl, by simp, by simp, rfl, rfl, rfl, by simp [objGet], by simp⟩
  have hinvAB : MergeInv f stAB := normAllOfFold_inv hN hdAB hfoldAB hinit
  have hinvABC : MergeInv f stABC := normAllOfStep_inv hN hC hfoldABC hinvAB
  obtain ⟨hoM, hnM⟩ := normAllOfFinal_out hfinAB hinvAB
  have hMfix : normalizeF (f + 1) M = .ok M := normalizeF_fix hoM hnM
  obtain ⟨mreqM, hstepM, hmemM, hempM⟩ :=
    normAllOfStep_of_final hinvAB hfinAB hMfix
  obtain ⟨mm, pp, hstABC, hstepC2⟩ :=
    normAllOfStep_congr (fun x r hx => normalizeF_mono hx) mreqM hfoldABC
  have hAB2 : (normAllOfStep (normalizeF f) ⟨[], [], []⟩ A >>=
      fun st2 => normAllOfFold (normalizeF f) [B] st2) = .ok stAB := hfoldAB
  simp only [bind_ok_iff] at hAB2
  obtain ⟨stA, hstepA, hfoldB⟩ := hAB2
  rw [normAllOfFold_single] at hfoldB
  obtain ⟨mmA, ppA, hstA, hstepA2⟩ :=
    normAllOfStep_congr (fun x r hx => normalizeF_mono hx) [] hstepA
  obtain ⟨mmB, ppB, hstAB2, hstepB2⟩ :=
    normAllOfStep_congr (fun x r hx => normalizeF_mono hx) [] hfoldB
  have hmreqAB : stAB.mreq =
      branchReq (normalizeF f) A ++ branchReq (normalizeF f) B := by
    rw [hstAB2, hstA]
    simp
  have hfoldMC : normAllOfFold (normalizeF (f + 1)) [M, C] ⟨[], [], []⟩ =
      .ok ⟨mm, pp, mreqM ++ branchReq (normalizeF f) C⟩ := by
    show (normAllOfStep (normalizeF (f + 1)) ⟨[], [], []⟩ M >>=
      fun st2 => normAllOfFold (normalizeF (f + 1)) [C] st2) =
      .ok ⟨mm, pp, mreqM ++ branchReq (normalizeF f) C⟩
    rw [hstepM, ok_bind, normAllOfFold_single]
    exact hstepC2
  have hgMC : objGet [("allOf", JSON.arr [M, C])] "allOf" =
      some (.arr [M, C]) := rfl
  have hrunY : normalizeF (f + 2) (allOfJ [M, C]) =
      normAllOfFinal ⟨mm, pp, mreqM ++ branchReq (normalizeF f) C⟩ := by
    have h1 : normalizeF (f + 1 + 1) (allOfJ [M, C]) =
        (normAllOfFold (normalizeF (f + 1)) [M, C] ⟨[], [], []⟩ >>=
          normAllOfFinal) := normalizeF_allOfJ
    rw [show f + 2 = f + 1 + 1 from rfl, h1, hfoldMC, ok_bind]
  have hprmm : objGet mm "properties" = none := by
    have h1 := hinvABC.2.2.2.2.1
    rw [hstABC] at h1
    exact h1
  have hrqmm : objGet mm "required" = none := by
    have h1 := hinvABC.2.2.2.2.2.1
    rw [hstABC] at h1
    exact h1
  obtain ⟨hXp, hXr⟩ := normAllOfFinal_shape hfinABC hinvABC.2.2.2.2.1
    hinvABC.2.2.2.2.2.1
  have hppX : stABC.mprops = pp := by rw [hstABC]
  rw [hppX] at hXp
  have hmrX : stABC.mreq = stAB.mreq ++ branchReq (normalizeF f) C := by
    rw [hstABC]
  have happle : ∀ (xs ys : List JSON),
      (xs ++ ys).isEmpty = (xs.isEmpty && ys.isEmpty) := by
    intro xs ys
    cases xs with
    | nil => simp
    | cons a l => rfl
  have hempRel : (mreqM ++ branchReq (normalizeF f) C).isEmpty =
      (stAB.mreq ++ branchReq (normalizeF f) C).isEmpty := by
    rw [happle, happle, hempM]
  have hLW : ∀ nkvs pkvs k v, normalizeF f C = .ok (.obj nkvs) →
      objGet nkvs "properties" = some (.obj pkvs) → objGet pkvs k = some v →
      ∃ xkvs, jsonProps X = some (.obj xkvs) ∧ objGet xkvs k = some v := by
    intro nkvs pkvs k v hCn hpk hv
    match C, hC, hCn, hfoldABC with
    | .null, hC, hCn, hfoldABC2 =>
      match f, hCn with
      | 0, hCn => exact absurd hCn (by simp [normalizeF])
      | g+1, hCn =>
        simp only [normalizeF] at hCn
        exact absurd hCn (by simp)
    | .bool b, hC, hCn, hfoldABC2 =>
      match f, hCn with
      | 0, hCn => exact absurd hCn (by simp [normalizeF])
      | g+1, hCn =>
        simp only [normalizeF] at hCn
        exact absurd hCn (by simp)
    | .num n, hC, hCn, hfoldABC2 =>
      match f, hCn with
      | 0, hCn => exact absurd hCn (by simp [normalizeF])
      | g+1, hCn =>
        simp only [normalizeF] at hCn
        exact absurd hCn (by simp)
    | .str s, hC, hCn, hfoldABC2 =>
      match f, hCn with
      | 0, hCn => exact absurd hCn (by simp [normalizeF])
      | g+1, hCn =>
        simp only [normalizeF] at hCn
        exact absurd hCn (by simp)
    | .arr xs, hC, hCn, hfoldABC2 =>
      match f, hCn with
      | 0, hCn => exact absurd hCn (by simp [normalizeF])
      | g+1, hCn =>
        simp only [normalizeF] at hCn
        exact absurd hCn (by simp)
    | .obj cs, hC, hCn, hfoldABC2 =>
      have hstep := hfoldABC2
      rw [normAllOfStep_obj_eval hCn] at hstep
      have hdu : pyDictUpdate stAB.mprops (.obj pkvs) =
          pure (objUpdate stAB.mprops pkvs) := rfl
      simp only [hpk, hdu, pure_bind] at hstep
      have hppU : pp = objUpdate stAB.mprops pkvs := by
        match hrv : objGet nkvs "required" with
        | none =>
          simp only [hrv, pure_bind, pure, Except.pure,
            Except.ok.injEq] at hstep
          rw [hstABC] at hstep
          simp only [MergeSt.mk.injEq] at hstep
          exact hstep.2.1.symm
        | some rv =>
          simp only [hrv, bind_ok_iff, ok_bind, pure, Except.pure,
            Except.ok.injEq] at hstep
          obtain ⟨l, hl, hstep2⟩ := hstep
          rw [hstABC] at hstep2
          simp only [MergeSt.mk.injEq] at hstep2
          exact hstep2.2.1.symm
      have hndpk : nodupKeysB pkvs = true := by
        have hout := normalizeF_out f hCn hC
        exact (hout.2.obj_mem (objGet_mem hpk)).obj_nodup
      have hgv : objGet pp k = some v := by
        rw [hppU, objGet_objUpdate hndpk, hv]
      have hppne : pp.isEmpty = false := by
        match hq : pp with
        | [] => exact absurd hgv (by simp [objGet])
        | a :: l => rfl
      refine ⟨pp, ?_, hgv⟩
      rw [hXp, hppne]
      simp
  rcases hXr with ⟨hreX, hreqXnil⟩ | ⟨hreX, hsetX⟩
  · have hYre : (mreqM ++ branchReq (normalizeF f) C).isEmpty = true := by
      rw [hempRel, ← hmrX]
      exact hreX
    have hfinY : normAllOfFinal ⟨mm, pp, mreqM ++ branchReq (normalizeF f) C⟩ =
        .ok (.obj (if pp.isEmpty then mm
          else objInsert mm "properties" (.obj pp))) := by
      simp only [normAllOfFinal]
      rw [if_pos hYre]
    obtain ⟨hYp, hYr⟩ := normAllOfFinal_shape hfinY hprmm hrqmm
    rcases hYr with ⟨_, hreqYnil⟩ | ⟨hcon, _⟩
    · have hnil : stAB.mreq ++ branchReq (normalizeF f) C = [] := by
        rw [← hmrX]
        exact List.isEmpty_iff.mp hreX
      have h1 := List.append_eq_nil.mp hnil
      have h2 := List.append_eq_nil.mp (by rw [← hmreqAB]; exact h1.1)
      refine ⟨_, hrunY.trans hfinY, hYp.trans hXp.symm, ?_, ?_, ?_, ?_, hLW⟩
      · intro v
        rw [hreqYnil, hreqXnil]
      · rw [hreqYnil]
        exact List.nodup_nil
      · rw [hreqXnil]
        exact List.nodup_nil
      · intro v
        rw [hreqXnil]
        simp [h1.2, h2.1, h2.2]
    · rw [hYre] at hcon
      cases hcon
  · have hhash : ∀ x ∈ stABC.mreq, pyHashable x = true := by
      simp only [pySetList] at hsetX
      split at hsetX
      · next hall => simpa [List.all_eq_true] using hall
      · exact absurd hsetX (by simp)
    have hhashY : (mreqM ++ branchReq (normalizeF f) C).all pyHashable =
        true := by
      rw [List.all_eq_true]
      intro x hx
      apply hhash
      rw [hmrX]
      rcases List.mem_append.mp hx with h1 | h1
      · exact List.mem_append.mpr (Or.inl ((hmemM x).mp h1))
      · exact List.mem_append.mpr (Or.inr h1)
    have hsetY : pySetList (mreqM ++ branchReq (normalizeF f) C) =
        .ok (dedupAux (mreqM ++ branchReq (normalizeF f) C) []) := by
      simp only [pySetList, hhashY, if_true]
    have hYre : (mreqM ++ branchReq (normalizeF f) C).isEmpty = false := by
      rw [hempRel, ← hmrX]
      exact hreX
    have hfinY : normAllOfFinal ⟨mm, pp, mreqM ++ branchReq (normalizeF f) C⟩ =
        .ok (.obj (objInsert (if pp.isEmpty then mm
            else objInsert mm "properties" (.obj pp)) "required"
          (.arr (dedupAux (mreqM ++ branchReq (normalizeF f) C) [])))) := by
      simp only [normAllOfFinal]
      rw [if_neg (by simp [hYre]), hsetY, ok_bind]
      rfl
    obtain ⟨hYp, hYr⟩ := normAllOfFinal_shape hfinY hprmm hrqmm
    rcases hYr with ⟨hcon, _⟩ | ⟨_, hsetY2⟩
    · rw [hYre] at hcon
      cases hcon
    · have htrans : ∀ v, v ∈ mreqM ++ branchReq (normalizeF f) C ↔
          v ∈ stABC.mreq := by
        intro v
        rw [hmrX, List.mem_append, List.mem_append, hmemM v]
      refine ⟨_, hrunY.trans hfinY, hYp.trans hXp.symm, ?_, ?_, ?_, ?_, hLW⟩
      · intro v
        rw [mem_pySetList_iff hsetY2, htrans v, mem_pySetList_iff hsetX]
      · exact pySetList_nodup hsetY2
      · exact pySetList_nodup hsetX
      · intro v
        rw [mem_pySetList_iff hsetX, hmrX, hmreqAB]
        simp [List.mem_append, or_assoc]

def c4A : JSON :=
  .obj [("properties", .obj [("a", .obj [("type", .str "string")])]),
    ("required", .arr [.str "a"])]

def c4B : JSON :=
  .obj [("properties", .obj [("b", .obj [("type", .str "integer")])]),
    ("required", .arr [.str "b"])]

def c4C : JSON :=
  .obj [("properties", .obj [("b", .obj [("type", .str "boolean")])]),
    ("required", .arr [.str "a", .str "c"])]

def c4M : JSON :=
  .obj [("properties", .obj [("a", .obj [("type", .str "string")]),
    ("b", .obj [("type", .str "integer")])]),
    ("required", .arr [.str "a", .str "b"])]

def c4X : JSON :=
  .obj [("properties", .obj [("a", .obj [("type", .str "string")]),
    ("b", .obj [("type", .str "boolean")])]),
    ("required", .arr [.str "a", .str "b", .str "c"])]

theorem c4_allof_merge_associative_witness :
    ∃ Y, normalizeF 4 (allOfJ [c4M, c4C]) = .ok Y ∧
      jsonProps Y = jsonProps c4X ∧
      (∀ v, v ∈ jsonRequired Y ↔ v ∈ jsonRequired c4X) ∧
      (jsonRequired Y).Nodup ∧ (jsonRequired c4X).Nodup ∧
      (∀ v, v ∈ jsonRequired c4X ↔
        (v ∈ branchReq (normalizeF 2) c4A ∨ v ∈ branchReq (normalizeF 2) c4B ∨
          v ∈ branchReq (normalizeF 2) c4C)) ∧
      (∀ nkvs pkvs k v, normalizeF 2 c4C = .ok (.obj nkvs) →
        objGet nkvs "properties" = some (.obj pkvs) →
        objGet pkvs k = some v →
        ∃ xkvs, jsonProps c4X = some (.obj xkvs) ∧ objGet xkvs k = some v) :=
  c4_allof_merge_associative (@NDeepB_sound 5 c4A rfl)
    (@NDeepB_sound 5 c4B rfl) (@NDeepB_sound 5 c4C rfl) (by rfl) (by rfl)

/-- Python `len(v)`: length of a string, list or mapping; `TypeError`
otherwise. -/
def pyLen : JSON → Except Err Nat
  | .str s => .ok s.length
  | .arr xs => .ok xs.length
  | .obj ms => .ok ms.length
  | _ => .error .typeError

/-- Python `v[:10]` on the sliceable values. -/
def pySlice10 : JSON → Except Err JSON
  | .arr xs => .ok (.arr (xs.take 10))
  | .str s => .ok (.str (String.mk (s.data.take 10)))
  | _ => .error .typeError

/-- Python `repr(v)` (which `str(v)` matches for every non-string value
here): `None`/`True`/`False`, decimal numerals, `'`-quoted strings
(quote escaping inside the string is not modelled; the values exercised
contain no quotes), bracketed lists and mappings.  `fuel` bounds the
recursion depth. -/
def pyReprF : Nat → JSON → Except Err String
  | 0, _ => .error .fuel
  | _+1, .null => .ok "None"
  | _+1, .bool true => .ok "True"
  | _+1, .bool false => .ok "False"
  | _+1, .num n => .ok (toString n)
  | _+1, .str s => .ok ("\x27" ++ s ++ "\x27")
  | fuel+1, .arr xs => do
      let ss ← xs.mapM (pyReprF fuel)
      .ok ("[" ++ String.intercalate ", " ss ++ "]")
  | fuel+1, .obj ms => do
      let ss ← ms.mapM (fun kv => do
        let vs ← pyReprF fuel kv.2
        pure ("\x27" ++ kv.1 ++ "\x27: " ++ vs))
      .ok ("\x7b" ++ String.intercalate ", " ss ++ "\x7d")

/-- Python `str(v)` as an f-string renders it. -/
def pyStrF (fuel : Nat) : JSON → Except Err String
  | .str s => .ok s
  | v => pyReprF fuel v

/-- The back-tick quoting and comma-joining of `_get_enum_values`. -/
def enumJoin (ss : List String) : String :=
  String.intercalate ", " (ss.map (fun s => "`" ++ s ++ "`"))

/-- `_get_enum_values(field_schema)`: an absent or falsy `enum` renders
as the empty cell; at most 10 entries render fully; more than 10 render
the first 10 followed by the `(+N more)` suffix. -/
def getEnumValues (fuel : Nat) (field_schema : JSON) : Except Err String :=
  match field_schema with
  | .obj ms =>
      match objGet ms "enum" with
      | none => .ok ""
      | some e =>
          if pyTruthy e then do
            let n ← pyLen e
            if n ≤ 10 then do
              let opts ← pyIter e
              let ss ← opts.mapM (pyStrF fuel)
              .ok (enumJoin ss)
            else do
              let sliced ← pySlice10 e
              let opts ← pyIter sliced
              let ss ← opts.mapM (pyStrF fuel)
              .ok (enumJoin ss ++ ", ... (+" ++ toString (n - 10) ++ " more)")
          else .ok ""
  | _ => .error .attrError

theorem mapM_ok_take {α β : Type} {g : α → Except Err β} :
    ∀ {xs : List α} {ss : List β}, xs.mapM g = .ok ss →
      ∀ n, (xs.take n).mapM g = .ok (ss.take n) := by
  intro xs
  induction xs with
  | nil =>
    intro ss h n
    simp only [List.mapM_nil, pure, Except.pure, Except.ok.injEq] at h
    subst h
    simp only [List.take_nil]
    rfl
  | cons x rest ih =>
    intro ss h n
    simp only [List.mapM_cons, bind_ok_iff, pure, Except.pure,
      Except.ok.injEq] at h
    obtain ⟨b, hb, bs, hbs, hp⟩ := h
    subst hp
    match n with
    | 0 => rfl
    | m+1 =>
      simp only [List.take_succ_cons, List.mapM_cons, hb, ok_bind, ih hbs m,
        pure, Except.pure]

/-- **C7.** Enum cell truncation: with at most 10 enum entries the cell
is every entry back-tick-quoted and comma-joined; with more than 10 it is
exactly the first 10, back-tick-quoted and comma-joined, followed by
`, ... (+N more)` where `N` counts the entries beyond 10. -/
theorem c7_enum_truncation {fuel : Nat} {ms : List (String × JSON)}
    {xs : List JSON} {ss : List String}
    (he : objGet ms "enum" = some (.arr xs))
    (hmap : xs.mapM (pyStrF fuel) = .ok ss) :
    (xs.length ≤ 10 →
      getEnumValues fuel (.obj ms) = .ok (enumJoin ss)) ∧
    (10 < xs.length →
      getEnumValues fuel (.obj ms) =
        .ok (enumJoin (ss.take 10) ++ ", ... (+" ++
          toString (xs.length - 10) ++ " more)")) := by
  constructor
  · intro hle
    simp only [getEnumValues, he]
    match xs, hmap, hle with
    | [], hmap, hle =>
      have hss : ss = [] := by
        simp only [List.mapM_nil, pure, Except.pure, Except.ok.injEq] at hmap
        exact hmap.symm
      subst hss
      rfl
    | x :: rest, hmap, hle =>
      rw [if_pos (show pyTruthy (.arr (x :: rest)) = true from rfl)]
      have hmap2 : (x :: rest).mapM (pyStrF fuel) = pure ss := hmap
      simp only [pyLen, ok_bind, if_pos hle, pyIter, hmap2, pure_bind]
  · intro hgt
    simp only [getEnumValues, he]
    match xs, hmap, hgt with
    | [], hmap, hgt => exact absurd hgt (by simp)
    | x :: rest, hmap, hgt =>
      rw [if_pos (show pyTruthy (.arr (x :: rest)) = true from rfl)]
      have hnle : ¬((x :: rest).length ≤ 10) := by omega
      have htake : ((x :: rest).take 10).mapM (pyStrF fuel) =
          pure (ss.take 10) := mapM_ok_take hmap 10
      simp only [pyLen, ok_bind, if_neg hnle, pySlice10, pyIter, htake,
        pure_bind]

def c7Enum : List JSON :=
  [.num 1, .num 2, .num 3, .num 4, .num 5, .num 6, .num 7, .num 8, .num 9,
    .num 10, .num 11]

def c7Strs : List String :=
  ["1", "2", "3", "4", "5", "6", "7", "8", "9", "10", "11"]

theorem c7_enum_truncation_witness :
    ((c7Enum.length ≤ 10 →
      getEnumValues 3 (.obj [("enum", .arr c7Enum)]) = .ok (enumJoin c7Strs)) ∧
    (10 < c7Enum.length →
      getEnumValues 3 (.obj [("enum", .arr c7Enum)]) =
        .ok (enumJoin (c7Strs.take 10) ++ ", ... (+" ++
          toString (c7Enum.length - 10) ++ " more)"))) ∧
    getEnumValues 3 (.obj [("enum", .arr c7Enum)]) =
      .ok "`1`, `2`, `3`, `4`, `5`, `6`, `7`, `8`, `9`, `10`, ... (+1 more)" :=
  ⟨c7_enum_truncation rfl rfl, by rfl⟩

/-- Substring containment on character lists. -/
def listInfixOf (pat : List Char) : List Char → Bool
  | [] => pat.isEmpty
  | c :: rest => pat.isPrefixOf (c :: rest) || listInfixOf pat rest

/-- Python `k in v`: key membership for mappings, element membership for
lists, substring test for strings, `TypeError` otherwise. -/
def pyInKey (k : String) : JSON → Except Err Bool
  | .obj ms => .ok (objGet ms k).isSome
  | .arr xs => .ok (xs.any (fun x => scalarBEq x (.str k)))
  | .str s => .ok (listInfixOf k.data s.data)
  | _ => .error .typeError

def isWS (c : Char) : Bool :=
  c = ' ' || c = Char.ofNat 9 || c = Char.ofNat 10 || c = Char.ofNat 13

def digitVal (c : Char) : Option Nat :=
  if c.toNat ≥ 48 && c.toNat ≤ 57 then some (c.toNat - 48) else none

def digitsToNatGo : List Char → Nat → Option Nat
  | [], acc => some acc
  | c :: rest, acc =>
      match digitVal c with
      | some d => digitsToNatGo rest (acc * 10 + d)
      | none => none

def digitsToNat : List Char → Option Nat
  | [] => none
  | cs => digitsToNatGo cs 0

/-- Python `int(s)` on a string: strip whitespace, an optional sign, then
decimal digits; anything else raises `ValueError`. -/
def pyInt (s : String) : Except Err Int :=
  let cs := ((s.data.dropWhile isWS).reverse.dropWhile isWS).reverse
  match cs with
  | '-' :: rest =>
      match digitsToNat rest with
      | some n => .ok (-(n : Int))
      | none => .error .valueError
  | '+' :: rest =>
      match digitsToNat rest with
      | some n => .ok (n : Int)
      | none => .error .valueError
  | _ =>
      match digitsToNat cs with
      | some n => .ok (n : Int)
      | none => .error .valueError

/-- Models Python's `http.HTTPStatus` table: the phrase of each member,
`none` for codes that raise `ValueError` in the constructor. -/
def httpStatusPhrase : Int → Option String
  | 100 => some "Continue"
  | 101 => some "Switching Protocols"
  | 102 => some "Processing"
  | 103 => some "Early Hints"
  | 200 => some "OK"
  | 201 => some "Created"
  | 202 => some "Accepted"
  | 203 => some "Non-Authoritative Information"
  | 204 => some "No Content"
  | 205 => some "Reset Content"
  | 206 => some "Partial Content"
  | 207 => some "Multi-Status"
  | 208 => some "Already Reported"
  | 226 => some "IM Used"
  | 300 => some "Multiple Choices"
  | 301 => some "Moved Permanently"
  | 302 => some "Found"
  | 303 => some "See Other"
  | 304 => some "Not Modified"
  | 305 => some "Use Proxy"
  | 307 => some "Temporary Redirect"
  | 308 => some "Permanent Redirect"
  | 400 => some "Bad Request"
  | 401 => some "Unauthorized"
  | 402 => some "Payment Required"
  | 403 => some "Forbidden"
  | 404 => some "Not Found"
  | 405 => some "Method Not Allowed"
  | 406 => some "Not Acceptable"
  | 407 => some "Proxy Authentication Required"
  | 408 => some "Request Timeout"
  | 409 => some "Conflict"
  | 410 => some "Gone"
  | 411 => some "Length Required"
  | 412 => some "Precondition Failed"
  | 413 => some "Request Entity Too Large"
  | 414 => some "Request-URI Too Long"
  | 415 => some "Unsupported Media Type"
  | 416 => some "Requested Range Not Satisfiable"
  | 417 => some "Expectation Failed"
  | 418 => some "I\x27m a Teapot"
  | 421 => some "Misdirected Request"
  | 422 => some "Unprocessable Entity"
  | 423 => some "Locked"
  | 424 => some "Failed Dependency"
  | 425 => some "Too Early"
  | 426 => some "Upgrade Required"
  | 428 => some "Precondition Required"
  | 429 => some "Too Many Requests"
  | 431 => some "Request Header Fields Too Large"
  | 451 => some "Unavailable For Legal Reasons"
  | 500 => some "Internal Server Error"
  | 501 => some "Not Implemented"
  | 502 => some "Bad Gateway"
  | 503 => some "Service Unavailable"
  | 504 => some "Gateway Timeout"
  | 505 => some "HTTP Version Not Supported"
  | 506 => some "Variant Also Negotiates"
  | 507 => some "Insufficient Storage"
  | 508 => some "Loop Detected"
  | 510 => some "Not Extended"
  | 511 => some "Network Authentication Required"
  | _ => none

/-- The character rewriting of `_resolve_request_path`:
`{` becomes `:` and `}` is dropped. -/
def pathChars : List Char → List Char
  | [] => []
  | c :: rest =>
      if c = '\x7b' then ':' :: pathChars rest
      else if c = '\x7d' then pathChars rest
      else c :: pathChars rest

/-- `_resolve_request_path(path)`: rewrite the parameter braces, split on
`/` and drop the leading empty segment. -/
def resolveRequestPath (path : String) : List String :=
  (splitOnChar '/' (String.mk (pathChars path.data))).drop 1

/-- `_build_original_request(method, path, params)`. -/
def buildOriginalRequest (method path : String) (params : JSON) :
    Except Err JSON :=
  match params with
  | .obj pms => .ok (.obj [
      ("method", .str method),
      ("url", .obj [
        ("host", .arr [.str "\x7b\x7bbaseUrl\x7d\x7d"]),
        ("path", .arr ((resolveRequestPath path).map JSON.str)),
        ("variable", (objGet pms "path").getD (.arr [])),
        ("query", (objGet pms "query").getD (.arr []))]),
      ("header", .arr [
        .obj [("key", .str "Accept"), ("value", .str "application/json")],
        .obj [("key", .str "Authorization"),
          ("value", .str "Bearer <token>")]]),
      ("body", .obj [])])
  | _ => .error .attrError

def jsonIndent (n : Nat) : String := String.mk (List.replicate n ' ')

/-- Python `json.dumps(v, indent=2)` at a given current indentation
level (string escaping is not modelled; the strings exercised need
none). -/
def dumpsF : Nat → Nat → JSON → Except Err String
  | 0, _, _ => .error .fuel
  | _+1, _, .null => .ok "null"
  | _+1, _, .bool true => .ok "true"
  | _+1, _, .bool false => .ok "false"
  | _+1, _, .num n => .ok (toString n)
  | _+1, _, .str s => .ok ("\"" ++ s ++ "\"")
  | _+1, _, .arr [] => .ok "[]"
  | fuel+1, ind, .arr xs => do
      let ss ← xs.mapM (dumpsF fuel (ind + 2))
      .ok ("[\n" ++ String.intercalate ",\n"
          (ss.map (fun s => jsonIndent (ind + 2) ++ s)) ++
        "\n" ++ jsonIndent ind ++ "]")
  | _+1, _, .obj [] => .ok "\x7b\x7d"
  | fuel+1, ind, .obj ms => do
      let ss ← ms.mapM (fun kv => do
        let vs ← dumpsF fuel (ind + 2) kv.2
        pure (jsonIndent (ind + 2) ++ "\"" ++ kv.1 ++ "\": " ++ vs))
      .ok ("\x7b\n" ++ String.intercalate ",\n" ss ++ "\n" ++
        jsonIndent ind ++ "\x7d")

/-- Field access on a mapping value. -/
def jsonGet : JSON → String → Option JSON
  | .obj ms, k => objGet ms k
  | _, _ => none

/-- One iteration of the loop of `_resolve_responses`, building the
response-example mapping for a single `(status_code, response_schema)`
entry: resolve a `$ref` response, process the first content entry into a
synthesized body, look up the status phrase (any failure inside the
`try` gives `Unknown`), and assemble the fields; `int(status_code)` for
the `code` field runs outside the `try` and propagates its
`ValueError`. -/
def resolveResponseItem (fuel : Nat) (doc : JSON) (sc : String) (rs0 : JSON)
    (method path : String) (params : JSON) : Except Err JSON := do
  let hasRef ← pyInKey "$ref" rs0
  let rs ←
    if hasRef then
      match rs0 with
      | .obj ms =>
          match objGet ms "$ref" with
          | some (.str r) => resolveRefStr doc r
          | some _ => .error .attrError
          | none => .error .keyError
      | _ => .error .typeError
    else pure rs0
  let content ←
    if pyTruthy rs then
      match rs with
      | .obj ms => pure ((objGet ms "content").getD (.obj []))
      | _ => .error .attrError
    else pure (.obj [])
  let bodyct ←
    if pyTruthy content then
      match content with
      | .obj ((k, vv) :: _) => do
          let cms ←
            match vv with
            | .obj cms => pure cms
            | _ => .error .attrError
          let schema := (objGet cms "schema").getD (.obj [])
          let resolved ← resolveAllRefs fuel doc schema
          let rb ← buildExample fuel doc resolved false
          pure ((some rb, some k) : Option JSON × Option String)
      | _ => .error .attrError
    else pure ((none, none) : Option JSON × Option String)
  let descr ←
    match rs with
    | .obj ms => pure ((objGet ms "description").getD (.str ""))
    | _ => .error .attrError
  let ds ← pyStrF fuel descr
  let orig ← buildOriginalRequest method path params
  let code ← pyInt sc
  let statusText :=
    match pyInt sc with
    | .ok n => (httpStatusPhrase n).getD "Unknown"
    | .error _ => "Unknown"
  let body ←
    match bodyct.1 with
    | some v => if pyTruthy v then dumpsF fuel 0 v else pure ""
    | none => pure ""
  let headers :=
    match bodyct.2 with
    | some c =>
        if c = "" then JSON.arr []
        else .arr [.obj [("key", .str "Content-Type"), ("value", .str c)]]
    | none => JSON.arr []
  let plang : String :=
    if bodyct.2 = some "application/json" then "json" else "text"
  pure (.obj [("name", .str ("[" ++ sc ++ "] " ++ ds)),
    ("originalRequest", orig),
    ("code", .num code),
    ("status", .str statusText),
    ("header", headers),
    ("body", .str body),
    ("_postman_previewlanguage", .str plang)])

def c8Resp : JSON := .obj [("description", .str "Created thing"),
  ("content", .obj [("application/json", .obj [("schema",
    .obj [("type", .str "object"),
      ("properties", .obj [("id", .obj [("type", .str "integer")])])])])])]

/-- **C8** (counterexample).  The standard phrase table does contain
status 201 (phrase `Created`), so a response declared for 201 renders
status text `Created`, not `Unknown`; and a non-integer status code
string such as `default` makes the conversion fail outright, because
`int(status_code)` for the `code` field runs outside the `try`. -/
theorem c8_counterexample :
    httpStatusPhrase 201 = some "Created" ∧
    (JSON.str "Created") ≠ (JSON.str "Unknown") ∧
    (∃ r, resolveResponseItem 5 (.obj []) "201" c8Resp "GET"
        "/users/\x7buser_gid\x7d" (.obj []) = .ok r ∧
      jsonGet r "status" = some (.str "Created") ∧
      jsonGet r "code" = some (.num 201)) ∧
    (∀ r, resolveResponseItem 5 (.obj []) "default" c8Resp "GET" "/x"
        (.obj []) ≠ .ok r) :=
  ⟨rfl, by simp, ⟨_, rfl, rfl, rfl⟩, fun r h => Except.noConfusion h⟩

/-- **C8** (amended).  For a `$ref`-free response entry without content
whose status code string parses as an integer absent from the standard
phrase table, the conversion of that entry does not fail: it renders
status text `Unknown` and preserves the numeric code. -/
theorem c8_unknown_status {fuel : Nat} {doc : JSON} {sc : String} {n : Int}
    {ms pms : List (String × JSON)} {method path : String} {ds : String}
    (href : objGet ms "$ref" = none)
    (hcontent : objGet ms "content" = none)
    (hn : pyInt sc = .ok n)
    (hphrase : httpStatusPhrase n = none)
    (hds : pyStrF fuel ((objGet ms "description").getD (.str "")) = .ok ds) :
    ∃ r, resolveResponseItem fuel doc sc (.obj ms) method path (.obj pms) =
        .ok r ∧
      jsonGet r "status" = some (.str "Unknown") ∧
      jsonGet r "code" = some (.num n) := by
  have hoc : pyTruthy (JSON.obj []) = false := rfl
  refine ⟨.obj [("name", .str ("[" ++ sc ++ "] " ++ ds)),
    ("originalRequest", .obj [
      ("method", .str method),
      ("url", .obj [
        ("host", .arr [.str "\x7b\x7bbaseUrl\x7d\x7d"]),
        ("path", .arr ((resolveRequestPath path).map JSON.str)),
        ("variable", (objGet pms "path").getD (.arr [])),
        ("query", (objGet pms "query").getD (.arr []))]),
      ("header", .arr [
        .obj [("key", .str "Accept"), ("value", .str "application/json")],
        .obj [("key", .str "Authorization"),
          ("value", .str "Bearer <token>")]]),
      ("body", .obj [])]),
    ("code", .num n),
    ("status", .str "Unknown"),
    ("header", .arr []),
    ("body", .str ""),
    ("_postman_previewlanguage", .str "text")], ?_, rfl, rfl⟩
  by_cases htr : pyTruthy (.obj ms) = true
  · simp only [resolveResponseItem, pyInKey, href, Option.isSome_none,
      Bool.false_eq_true, if_false, ok_bind, pure_bind, htr, if_true,
      hcontent, Option.getD_none, hoc, hds, hn, hphrase,
      buildOriginalRequest]
    rfl
  · simp only [resolveResponseItem, pyInKey, href, Option.isSome_none,
      Bool.false_eq_true, if_false, ok_bind, pure_bind, htr, hoc, hds, hn,
      hphrase, buildOriginalRequest]
    rfl

def c8Ms : List (String × JSON) := [("description", .str "out of band")]

theorem c8_unknown_status_witness :
    ∃ r, resolveResponseItem 3 (.obj []) "299" (.obj c8Ms) "GET" "/users"
        (.obj []) = .ok r ∧
      jsonGet r "status" = some (.str "Unknown") ∧
      jsonGet r "code" = some (.num 299) :=
  c8_unknown_status rfl rfl rfl rfl rfl

/-- **C10.** The body of a rendered response example is the empty string
whenever the synthesized example value is falsy (`None`, `\x7b\x7d`, `[]`,
`0`, `False`, `""`); only a truthy example value is serialized (with
indent 2) into the body. -/
theorem c10_falsy_body_empty {fuel : Nat} {doc sv v : JSON} {sc : String}
    {n : Int} {ms cms pms rest : List (String × JSON)} {ct : String}
    {method path ds : String}
    (href : objGet ms "$ref" = none)
    (hcontent : objGet ms "content" = some (.obj ((ct, .obj cms) :: rest)))
    (hschema : resolveAllRefs fuel doc ((objGet cms "schema").getD (.obj []))
      = .ok sv)
    (hbuild : buildExample fuel doc sv false = .ok v)
    (hds : pyStrF fuel ((objGet ms "description").getD (.str "")) = .ok ds)
    (hn : pyInt sc = .ok n) :
    (pyTruthy v = false →
      ∃ r, resolveResponseItem fuel doc sc (.obj ms) method path (.obj pms) =
          .ok r ∧ jsonGet r "body" = some (.str "")) ∧
    (∀ bs, pyTruthy v = true → dumpsF fuel 0 v = .ok bs →
      ∃ r, resolveResponseItem fuel doc sc (.obj ms) method path (.obj pms) =
          .ok r ∧ jsonGet r "body" = some (.str bs)) := by
  have hne := objGet_some_nonempty hcontent
  have htr : pyTruthy (.obj ms) = true := by
    match hq : ms with
    | [] => exact absurd rfl hne
    | m :: l => rfl
  have hctr : pyTruthy (JSON.obj ((ct, .obj cms) :: rest)) = true := rfl
  constructor
  · intro hfal
    simp only [resolveResponseItem, pyInKey, href, Option.isSome_none,
      Bool.false_eq_true, if_false, ok_bind, pure_bind, htr, if_true,
      hcontent, Option.getD_some, hctr, hschema, hbuild, hfal, hds, hn,
      buildOriginalRequest]
    exact ⟨_, rfl, rfl⟩
  · intro bs htv hbs
    simp only [resolveResponseItem, pyInKey, href, Option.isSome_none,
      Bool.false_eq_true, if_false, ok_bind, pure_bind, htr, if_true,
      hcontent, Option.getD_some, hctr, hschema, hbuild, htv, hbs, hds, hn,
      buildOriginalRequest]
    exact ⟨_, rfl, rfl⟩

def c10Ms : List (String × JSON) :=
  [("content", .obj [("application/json", .obj [("schema",
    .obj [("type", .str "object")])])])]

theorem c10_falsy_body_empty_witness :
    ((pyTruthy (JSON.obj []) = false →
      ∃ r, resolveResponseItem 5 (.obj []) "200" (.obj c10Ms) "GET" "/users"
          (.obj []) = .ok r ∧ jsonGet r "body" = some (.str "")) ∧
    (∀ bs, pyTruthy (JSON.obj []) = true →
      dumpsF 5 0 (JSON.obj []) = .ok bs →
      ∃ r, resolveResponseItem 5 (.obj []) "200" (.obj c10Ms) "GET" "/users"
          (.obj []) = .ok r ∧ jsonGet r "body" = some (.str bs))) ∧
    pyTruthy (JSON.obj []) = false :=
  ⟨c10_falsy_body_empty rfl rfl rfl rfl rfl rfl, rfl⟩

/-- Python regex class `\s`. -/
def isPySpace (c : Char) : Bool :=
  c = ' ' || c.toNat = 9 || c.toNat = 10 || c.toNat = 11 ||
    c.toNat = 12 || c.toNat = 13

/-- The tail of `\]\s+\(` once at least one whitespace character has
been seen: skip whitespace until the `(`. -/
def afterWSGo : List Char → Option (List Char)
  | [] => none
  | c :: rest =>
      if c = '(' then some rest
      else if isPySpace c then afterWSGo rest
      else none

/-- Match `\s+\(` (one-or-more whitespace then `(`) and return the text
after the `(`; backtracking cannot produce other matches, since no
whitespace character equals `(`. -/
def afterWS : List Char → Option (List Char)
  | [] => none
  | c :: rest => if isPySpace c then afterWSGo rest else none

/-- `re.sub(r'\]\s+\(', '](', content)` as the scan it performs: a match
can only start at `]`; on a match the replacement is emitted and the
scan resumes after it.  `fuel` bounds the characters processed. -/
def sub1Go : Nat → List Char → List Char
  | 0, cs => cs
  | _+1, [] => []
  | fuel+1, c :: rest =>
      if c = ']' then
        match afterWS rest with
        | some suffix => ']' :: '(' :: sub1Go fuel suffix
        | none => ']' :: sub1Go fuel rest
      else c :: sub1Go fuel rest

/-- The maximal run of characters other than `stop`, with the rest. -/
def readRun (stop : Char) : List Char → List Char × List Char
  | [] => ([], [])
  | c :: rest =>
      if c = stop then ([], c :: rest)
      else
        let p := readRun stop rest
        (c :: p.1, p.2)

/-- `([^\]]+)\]` (the greedy run is forced: every shorter run is
followed by a non-`]` character). -/
def readName (cs : List Char) : Option (List Char × List Char) :=
  let p := readRun ']' cs
  if p.1 = [] then none
  else
    match p.2 with
    | ']' :: s2 => some (p.1, s2)
    | _ => none

/-- `(?<!:)(/[^\)]+)\)` after the `(`: the lookbehind always holds,
because the character before the tested position is the `(` itself,
never `:`. -/
def readTarget : List Char → Option (List Char × List Char)
  | [] => none
  | c :: cs2 =>
      if c = '/' then
        let p := readRun ')' cs2
        if p.1 = [] then none
        else
          match p.2 with
          | ')' :: s2 => some ('/' :: p.1, s2)
          | _ => none
      else none

/-- One attempted match of `\[([^\]]+)\]\((?<!:)(/[^\)]+)\)` just after
an opening `[`. -/
def readLink (cs : List Char) : Option (List Char × List Char × List Char) :=
  match readName cs with
  | some (name, s1) =>
      match s1 with
      | c :: s2 =>
          if c = '(' then
            match readTarget s2 with
            | some (target, s3) => some (name, target, s3)
            | none => none
          else none
      | [] => none
  | none => none

def baseChars : List Char := "https://developers.asana.com".data

/-- `re.sub(r'\[([^\]]+)\]\((?<!:)(/[^\)]+)\)', fr'[\1](BASE\2)',
content)` as the scan it performs: a match can only start at `[`; on a
match the rewritten link is emitted and the scan resumes after it. -/
def sub2Go : Nat → List Char → List Char
  | 0, cs => cs
  | _+1, [] => []
  | fuel+1, c :: rest =>
      if c = '[' then
        match readLink rest with
        | some (name, target, suffix) =>
            '[' :: (name ++ ']' :: '(' ::
              (baseChars ++ target ++ ')' :: sub2Go fuel suffix))
        | none => '[' :: sub2Go fuel rest
      else c :: sub2Go fuel rest

/-- The rewriting `_build_dev_docs_urls` applies to every markdown
content string: the whitespace collapse, then the relative-link
absolutization. -/
def rewriteContent (fuel : Nat) (s : String) : String :=
  String.mk (sub2Go fuel (sub1Go fuel s.data))

theorem readRun_no_stop {stop : Char} :
    ∀ {pre suffix : List Char}, (∀ c ∈ pre, c ≠ stop) →
      readRun stop (pre ++ stop :: suffix) = (pre, stop :: suffix) := by
  intro pre
  induction pre with
  | nil =>
    intro suffix _
    simp [readRun]
  | cons c rest ih =>
    intro suffix h
    have hc : c ≠ stop := h c (by simp)
    have hih := @ih suffix (fun x hx => h x (by simp [hx]))
    simp [readRun, if_neg hc, hih]

theorem afterWSGo_spaces :
    ∀ {ws post : List Char}, (∀ c ∈ ws, isPySpace c = true) →
      afterWSGo (ws ++ '(' :: post) = some post := by
  intro ws
  induction ws with
  | nil =>
    intro post _
    simp [afterWSGo]
  | cons c rest ih =>
    intro post h
    have hc : isPySpace c = true := h c (by simp)
    have hcp : c ≠ '(' := by
      intro hcc
      rw [hcc] at hc
      exact absurd hc (by decide)
    rw [List.cons_append, show afterWSGo (c :: (rest ++ '(' :: post)) =
      if c = '(' then some (rest ++ '(' :: post)
      else if isPySpace c then afterWSGo (rest ++ '(' :: post)
      else none from rfl, if_neg hcp, if_pos hc]
    exact ih (fun x hx => h x (by simp [hx]))

theorem afterWS_spaces {w : Char} {ws post : List Char}
    (h : ∀ c ∈ w :: ws, isPySpace c = true) :
    afterWS ((w :: ws) ++ '(' :: post) = some post := by
  have hw : isPySpace w = true := h w (by simp)
  rw [List.cons_append, show afterWS (w :: (ws ++ '(' :: post)) =
    if isPySpace w then afterWSGo (ws ++ '(' :: post) else none from rfl,
    if_pos hw]
  exact afterWSGo_spaces (fun c hc => h c (by simp [hc]))

theorem sub1Go_collapse {fuel : Nat} {w : Char} {ws post : List Char}
    (h : ∀ c ∈ w :: ws, isPySpace c = true) :
    sub1Go (fuel + 1) (']' :: ((w :: ws) ++ '(' :: post)) =
      ']' :: '(' :: sub1Go fuel post := by
  rw [show sub1Go (fuel + 1) (']' :: ((w :: ws) ++ '(' :: post)) =
    if ']' = ']' then
      match afterWS ((w :: ws) ++ '(' :: post) with
      | some suffix => ']' :: '(' :: sub1Go fuel suffix
      | none => ']' :: sub1Go fuel ((w :: ws) ++ '(' :: post)
    else ']' :: sub1Go fuel ((w :: ws) ++ '(' :: post) from rfl,
    if_pos rfl, afterWS_spaces h]

theorem readName_exact {name suffix : List Char} (hne : name ≠ [])
    (h : ∀ c ∈ name, c ≠ ']') :
    readName (name ++ ']' :: suffix) = some (name, suffix) := by
  simp only [readName, readRun_no_stop h]
  rw [if_neg hne]

theorem readTarget_exact {target suffix : List Char} (hne : target ≠ [])
    (h : ∀ c ∈ target, c ≠ ')') :
    readTarget ('/' :: (target ++ ')' :: suffix)) =
      some ('/' :: target, suffix) := by
  simp only [readTarget, if_true, readRun_no_stop h]
  rw [if_neg hne]

theorem readTarget_not_slash {c : Char} {cs : List Char} (h : c ≠ '/') :
    readTarget (c :: cs) = none := by
  simp only [readTarget]
  rw [if_neg h]

theorem readLink_exact {name target suffix : List Char}
    (hn : name ≠ []) (h1 : ∀ c ∈ name, c ≠ ']')
    (ht : target ≠ []) (h2 : ∀ c ∈ target, c ≠ ')') :
    readLink (name ++ ']' :: '(' :: '/' :: (target ++ ')' :: suffix)) =
      some (name, '/' :: target, suffix) := by
  simp only [readLink, readName_exact hn h1, if_true,
    readTarget_exact ht h2]

theorem readLink_not_slash {name : List Char} {u0 : Char}
    {urest post : List Char}
    (hn : name ≠ []) (h1 : ∀ c ∈ name, c ≠ ']') (hu : u0 ≠ '/') :
    readLink (name ++ ']' :: '(' :: u0 :: (urest ++ ')' :: post)) =
      none := by
  simp only [readLink, readName_exact hn h1, if_true,
    readTarget_not_slash hu]

theorem sub2Go_rewrite {fuel : Nat} {name target post : List Char}
    (hn : name ≠ []) (h1 : ∀ c ∈ name, c ≠ ']')
    (ht : target ≠ []) (h2 : ∀ c ∈ target, c ≠ ')') :
    sub2Go (fuel + 1)
        ('[' :: (name ++ ']' :: '(' :: '/' :: (target ++ ')' :: post))) =
      '[' :: (name ++ ']' :: '(' ::
        (baseChars ++ ('/' :: target) ++ ')' :: sub2Go fuel post)) := by
  rw [show sub2Go (fuel + 1)
      ('[' :: (name ++ ']' :: '(' :: '/' :: (target ++ ')' :: post))) =
    if '[' = '[' then
      match readLink (name ++ ']' :: '(' :: '/' :: (target ++ ')' :: post))
        with
      | some (nm, tg, suffix) =>
          '[' :: (nm ++ ']' :: '(' ::
            (baseChars ++ tg ++ ')' :: sub2Go fuel suffix))
      | none => '[' :: sub2Go fuel
          (name ++ ']' :: '(' :: '/' :: (target ++ ')' :: post))
    else '[' :: sub2Go fuel
        (name ++ ']' :: '(' :: '/' :: (target ++ ')' :: post)) from rfl,
    if_pos rfl, readLink_exact hn h1 ht h2]

theorem sub2Go_copy :
    ∀ {pre rest : List Char} {fuel : Nat}, (∀ c ∈ pre, c ≠ '[') →
      sub2Go (pre.length + fuel) (pre ++ rest) = pre ++ sub2Go fuel rest := by
  intro pre
  induction pre with
  | nil =>
    intro rest fuel _
    simp
  | cons c rest2 ih =>
    intro rest fuel h
    have hc : c ≠ '[' := h c (by simp)
    have harith : (c :: rest2).length + fuel = (rest2.length + fuel) + 1 := by
      simp only [List.length_cons]
      omega
    rw [harith, List.cons_append, show sub2Go ((rest2.length + fuel) + 1)
      (c :: (rest2 ++ rest)) =
      if c = '[' then
        match readLink (rest2 ++ rest) with
        | some (nm, tg, suffix) =>
            '[' :: (nm ++ ']' :: '(' ::
              (baseChars ++ tg ++ ')' :: sub2Go (rest2.length + fuel) suffix))
        | none => '[' :: sub2Go (rest2.length + fuel) (rest2 ++ rest)
      else c :: sub2Go (rest2.length + fuel) (rest2 ++ rest) from rfl,
      if_neg hc, ih (fun x hx => h x (by simp [hx]))]
    rfl

theorem sub2Go_absolute {fuel : Nat} {name urest post : List Char}
    {u0 : Char}
    (hn : name ≠ []) (h1 : ∀ c ∈ name, c ≠ ']')
    (hb1 : ∀ c ∈ name, c ≠ '[') (hu : u0 ≠ '/')
    (hb2 : ∀ c ∈ u0 :: urest, c ≠ '[') :
    sub2Go ((name.length + urest.length + 5) + fuel)
        ('[' :: (name ++ ']' :: '(' :: u0 :: (urest ++ ')' :: post))) =
      '[' :: (name ++ ']' :: '(' :: u0 :: (urest ++ ')' ::
        sub2Go fuel post)) := by
  have hfail : readLink (name ++ ']' :: '(' :: u0 :: (urest ++ ')' :: post))
      = none := readLink_not_slash hn h1 hu
  have hpre : ∀ c ∈ name ++ ']' :: '(' :: u0 :: (urest ++ [')']), c ≠ '[' := by
    intro c hc
    rcases List.mem_append.mp hc with hc | hc
    · exact hb1 c hc
    · rcases List.mem_cons.mp hc with rfl | hc
      · decide
      · rcases List.mem_cons.mp hc with rfl | hc
        · decide
        · rcases List.mem_cons.mp hc with rfl | hc
          · exact hb2 _ (by simp)
          · rcases List.mem_append.mp hc with hc | hc
            · exact hb2 c (by simp [hc])
            · rcases List.mem_cons.mp hc with rfl | hc
              · decide
              · cases hc
  have harith : (name.length + urest.length + 5) + fuel =
      ((name ++ ']' :: '(' :: u0 :: (urest ++ [')'])).length + fuel) + 1 := by
    simp [List.length_append, List.length_cons]
    omega
  have hassoc : (name ++ ']' :: '(' :: u0 :: (urest ++ [')'])) ++ post =
      name ++ ']' :: '(' :: u0 :: (urest ++ ')' :: post) := by
    simp
  have hcopy := @sub2Go_copy (name ++ ']' :: '(' :: u0 :: (urest ++ [')']))
    post fuel hpre
  rw [hassoc] at hcopy
  rw [harith, show sub2Go
      (((name ++ ']' :: '(' :: u0 :: (urest ++ [')'])).length + fuel) + 1)
      ('[' :: (name ++ ']' :: '(' :: u0 :: (urest ++ ')' :: post))) =
    if '[' = '[' then
      match readLink (name ++ ']' :: '(' :: u0 :: (urest ++ ')' :: post)) with
      | some (nm, tg, suffix) =>
          '[' :: (nm ++ ']' :: '(' :: (baseChars ++ tg ++ ')' ::
            sub2Go ((name ++ ']' :: '(' :: u0 :: (urest ++ [')'])).length +
              fuel) suffix))
      | none => '[' :: sub2Go
          ((name ++ ']' :: '(' :: u0 :: (urest ++ [')'])).length + fuel)
          (name ++ ']' :: '(' :: u0 :: (urest ++ ')' :: post))
    else '[' :: sub2Go
        ((name ++ ']' :: '(' :: u0 :: (urest ++ [')'])).length + fuel)
        (name ++ ']' :: '(' :: u0 :: (urest ++ ')' :: post)) from rfl,
    if_pos rfl, hfail, hcopy]
  simp

/-- **C9.** Link rewriting: the description rewrite collapses the
whitespace between a link closing `]` and opening `(` (one match of the
whitespace pattern), rewrites a link target beginning with `/` to an
absolute URL under the fixed documentation base (one match of the link
pattern), leaves a link whose target does not begin with `/` (such as a
scheme-qualified absolute URL) untouched, and in particular sends
`[Guide] (/docs/x)` to `[Guide](https://developers.asana.com/docs/x)`. -/
theorem c9_link_rewriting :
    rewriteContent 64 "[Guide] (/docs/x)" =
      "[Guide](https://developers.asana.com/docs/x)" ∧
    (∀ (fuel : Nat) (w : Char) (ws post : List Char),
      (∀ c ∈ w :: ws, isPySpace c = true) →
      sub1Go (fuel + 1) (']' :: ((w :: ws) ++ '(' :: post)) =
        ']' :: '(' :: sub1Go fuel post) ∧
    (∀ (fuel : Nat) (name target post : List Char),
      name ≠ [] → (∀ c ∈ name, c ≠ ']') →
      target ≠ [] → (∀ c ∈ target, c ≠ ')') →
      sub2Go (fuel + 1)
          ('[' :: (name ++ ']' :: '(' :: '/' :: (target ++ ')' :: post))) =
        '[' :: (name ++ ']' :: '(' ::
          (baseChars ++ ('/' :: target) ++ ')' :: sub2Go fuel post))) ∧
    (∀ (fuel : Nat) (name urest post : List Char) (u0 : Char),
      name ≠ [] → (∀ c ∈ name, c ≠ ']') → (∀ c ∈ name, c ≠ '[') →
      u0 ≠ '/' → (∀ c ∈ u0 :: urest, c ≠ '[') →
      sub2Go ((name.length + urest.length + 5) + fuel)
          ('[' :: (name ++ ']' :: '(' :: u0 :: (urest ++ ')' :: post))) =
        '[' :: (name ++ ']' :: '(' :: u0 :: (urest ++ ')' ::
          sub2Go fuel post))) :=
  ⟨by rfl,
   fun _ _ _ _ h => sub1Go_collapse h,
   fun _ _ _ _ hn h1 ht h2 => sub2Go_rewrite hn h1 ht h2,
   fun _ _ _ _ _ hn h1 hb1 hu hb2 => sub2Go_absolute hn h1 hb1 hu hb2⟩

theorem c9_link_rewriting_witness :
    rewriteContent 64 "[Guide] (/docs/x)" =
      "[Guide](https://developers.asana.com/docs/x)" ∧
    sub1Go 4 (']' :: ((' ' :: []) ++ '(' :: ['a'])) =
      ']' :: '(' :: sub1Go 3 ['a'] ∧
    sub2Go 4 ('[' :: (['G'] ++ ']' :: '(' :: '/' :: (['d'] ++ ')' :: []))) =
      '[' :: (['G'] ++ ']' :: '(' ::
        (baseChars ++ ('/' :: ['d']) ++ ')' :: sub2Go 3 [])) ∧
    sub2Go ((1 + 1 + 5) + 3)
        ('[' :: (['G'] ++ ']' :: '(' :: 'h' :: (['x'] ++ ')' :: []))) =
      '[' :: (['G'] ++ ']' :: '(' :: 'h' :: (['x'] ++ ')' :: sub2Go 3 [])) :=
  ⟨c9_link_rewriting.1,
   c9_link_rewriting.2.1 3 ' ' [] ['a'] (by decide),
   c9_link_rewriting.2.2.1 3 ['G'] ['d'] [] (by decide) (by decide)
     (by decide) (by decide),
   c9_link_rewriting.2.2.2 3 ['G'] ['x'] [] 'h' (by decide) (by decide)
     (by decide) (by decide) (by decide)⟩

end OasPostman
